import Mathlib

/-!
# Rule compilation of the Wave Function Collapse input layer

Shallow embedding of `src/source/wave_input_data.cpp` (namespace `wfc::input`):
the tile grid `WaveGrid`, the rule table `RuleSet` and its builder
`RuleSetBuilder`, followed by the properties of the rule compiler.

Conventions of the embedding.

* `uint32_t` values (`TileID`, widths, heights, state counts) are natural numbers;
  the one place where unsigned wrap-around matters, `tile - 1`, is written with an
  explicit `% 2 ^ 32` (`tileState`), and so is `tile + 1` in the scanning constructor.
* Code that can leave the defined behaviour of the program returns an `Outcome`:
  `ok` for a normal return, `outOfBounds` for the bounds failure of
  `WaveGrid::getTile`, `undefinedAccess` for an unchecked `operator[]` outside a
  `std::vector` (or bit-set, or grid buffer), `badArrayNewLength` for the exception
  of an array `new` whose bound is below its number of initialisers, `missingReturn`
  for a value-returning function that flows off its end without getting back to its
  caller.
* A `float` weight is a `Float32`: a finite binary32 value, carried as the rational
  number it stands for, an infinity or a NaN. The quotient
  `(float)counts_[i] / processedTiles_` converts both integers to `float` and divides,
  each step rounded to the nearest binary32 value, ties to even (`floatQuotient`).
* The header `wave_input_data.hpp` is not among the sources.  Every definition that
  stands for something declared only there says so in its doc comment.
-/

namespace wfc.input

/-! ## Outcomes and loops -/

/-- Result of running a piece of the program. -/
inductive Outcome (α : Type) where
  | ok (a : α)
  | outOfBounds
  | undefinedAccess
  | badArrayNewLength
  | missingReturn
deriving DecidableEq, Repr

/-- Sequencing: the first fault ends the run. -/
def Outcome.bind {α β : Type} (o : Outcome α) (f : α → Outcome β) : Outcome β :=
  match o with
  | .ok a => f a
  | .outOfBounds => .outOfBounds
  | .undefinedAccess => .undefinedAccess
  | .badArrayNewLength => .badArrayNewLength
  | .missingReturn => .missingReturn

/-- The value of a normal return, if there is one. -/
def Outcome.toOption {α : Type} : Outcome α → Option α
  | .ok a => some a
  | .outOfBounds => none
  | .undefinedAccess => none
  | .badArrayNewLength => none
  | .missingReturn => none

/-- Element read `v[i]` of a `std::vector`: outside the vector there is no defined result. -/
def vecGet {α : Type} (v : List α) (i : Nat) : Outcome α :=
  match v[i]? with
  | some a => .ok a
  | none => .undefinedAccess

/-- Element write `v[i] = a` of a `std::vector`. -/
def vecSet {α : Type} (v : List α) (i : Nat) (a : α) : Outcome (List α) :=
  if i < v.length then .ok (v.set i a) else .undefinedAccess

/-- The call `v.resize(n, fill)` of `std::vector`: keeps the first `n` elements and
pads with copies of `fill` up to length `n`. -/
def vecResize {α : Type} (v : List α) (n : Nat) (fill : α) : List α :=
  v.take n ++ List.replicate (n - v.length) fill

/-- The loop `for (int i = 0; i < n; i++) body(i)` threading a state: the bodies
`0, 1, ..., n-1` run in this order and the first fault ends the loop. -/
def forLoop {σ : Type} (body : Nat → σ → Outcome σ) : Nat → σ → Outcome σ
  | 0, s => .ok s
  | n + 1, s => (forLoop body n s).bind (body n)

/-! ## Tiles and grids -/

/-- The `uint32_t` value of `tile - 1` (source lines 150, 156, 160, 164, 168). -/
def tileState (tile : Nat) : Nat := (tile + (2 ^ 32 - 1)) % 2 ^ 32

/-- The class `WaveGrid`: dimensions, row-major buffer and running state count. -/
structure WaveGrid where
  width_ : Nat
  height_ : Nat
  data_ : List Nat
  numStates_ : Nat
deriving DecidableEq, Repr

/-- Accessor `WaveGrid::width()`; declared in the header, modelled as the field read. -/
def WaveGrid.width (g : WaveGrid) : Nat := g.width_

/-- Accessor `WaveGrid::height()`; declared in the header, modelled as the field read. -/
def WaveGrid.height (g : WaveGrid) : Nat := g.height_

/-- Accessor `WaveGrid::numStates()`; declared in the header, modelled as the field read. -/
def WaveGrid.numStates (g : WaveGrid) : Nat := g.numStates_

/-- Modelled from the spec: `WaveGrid::getTile` is defined in the header, which is not
among the sources.  Spec 4.1: get tile at (x, y) fails with OutOfBounds if
x ≥ width or y ≥ height; spec 3: the buffer is dense and row-major (the same
index `y*width_+x` that `setTile` writes at source line 41). -/
def WaveGrid.getTile (g : WaveGrid) (x y : Nat) : Outcome Nat :=
  if x < g.width_ ∧ y < g.height_ then vecGet g.data_ (y * g.width_ + x)
  else .outOfBounds

/-- Constructor `WaveGrid(width, height)` (lines 23-26): the buffer is
`new TileID[width*height]{NULL}`, an array `new` with one initialiser whose bound is
a `uint32_t` product. A bound of 0 is below the number of initialisers and the
expression throws `std::bad_array_new_length`: no grid is constructed. Otherwise the
buffer is zero-filled and the grid has no states. -/
def WaveGrid.create (width height : Nat) : Outcome WaveGrid :=
  if width * height % 2 ^ 32 = 0 then .badArrayNewLength
  else .ok { width_ := width, height_ := height
             data_ := List.replicate (width * height % 2 ^ 32) 0, numStates_ := 0 }

/-- Body of the scanning constructor (line 33). -/
def WaveGrid.scanCell (x y : Nat) (g : WaveGrid) : Outcome WaveGrid :=
  (g.getTile x y).bind fun t =>
    if (t + 1) % 2 ^ 32 > g.numStates_ then .ok { g with numStates_ := (t + 1) % 2 ^ 32 }
    else .ok g

/-- Constructor `WaveGrid(width, height, data)` (lines 28-36): wraps the caller's
buffer and scans it for the state count. -/
def WaveGrid.wrap (width height : Nat) (data : List Nat) : Outcome WaveGrid :=
  forLoop (fun x g => forLoop (fun y g => WaveGrid.scanCell x y g) height g) width
    { width_ := width, height_ := height, data_ := data, numStates_ := 0 }

/-- Method `WaveGrid::setTile` (lines 38-42): no bounds check, the write goes to the
flat index `y*width_+x`. -/
def WaveGrid.setTile (g : WaveGrid) (x y tile : Nat) : Outcome WaveGrid :=
  let n := if tile > g.numStates_ then tile else g.numStates_
  (vecSet g.data_ (y * g.width_ + x) tile).bind fun d =>
    .ok { g with numStates_ := n, data_ := d }

/-! ## Weights: the type `float` -/

/-- A value of the type `float` (IEEE 754 binary32): a finite value, carried as the
rational number it stands for, an infinity, or a NaN. -/
inductive Float32 where
  | finite (q : ℚ)
  | infinite
  | nan
deriving DecidableEq, Repr

/-- Nearest integer, ties to the even one. -/
def roundHalfEven (x : ℚ) : ℤ :=
  if x - ⌊x⌋ < 1 / 2 then ⌊x⌋
  else if 1 / 2 < x - ⌊x⌋ then ⌊x⌋ + 1
  else if ⌊x⌋ % 2 = 0 then ⌊x⌋ else ⌊x⌋ + 1

/-- Rounding of a rational number to binary32, to nearest, ties to even. The significand
has 24 bits: a value with binary exponent `e` (2^e ≤ |q| < 2^(e+1)) is rounded to a
multiple of 2^(e-23). This is the rounding of the normal range, magnitudes from 2^-126
to below 2^128, which holds every 32-bit integer and every quotient of two of them. -/
def roundBinary32 (q : ℚ) : ℚ :=
  if q = 0 then 0
  else roundHalfEven (q / 2 ^ (Int.log 2 |q| - 23)) * 2 ^ (Int.log 2 |q| - 23)

/-- The division `a / b` of two finite `float` values: 0/0 is a NaN, another division
by zero an infinity, and every other quotient is rounded to binary32. -/
def Float32.div (a b : ℚ) : Float32 :=
  if b = 0 then (if a = 0 then .nan else .infinite) else .finite (roundBinary32 (a / b))

/-- The expression `(float)count / total` of line 135 on two integers: `count` is
converted to `float` by the cast, `total` by the usual arithmetic conversions, and the
two `float` values are divided. -/
def floatQuotient (count total : Nat) : Float32 :=
  Float32.div (roundBinary32 count) (roundBinary32 total)

/-! ## Bit-sets and rule sets -/

/-- Modelled from the spec: the enumeration `WaveDirection` is declared in the header.
Spec 3: directions are the four values UP, DOWN, LEFT, RIGHT. -/
inductive WaveDirection where
  | UP
  | DOWN
  | LEFT
  | RIGHT
deriving DecidableEq, Repr

/-- Modelled from the spec: the enumerator values are declared in the header; they are
numbered in the order the spec lists them. -/
def WaveDirection.toNat : WaveDirection → Nat
  | .UP => 0
  | .DOWN => 1
  | .LEFT => 2
  | .RIGHT => 3

/-- Modelled from the spec: the class `DynamicBitset` is declared outside the sources;
spec 2 and 9 describe it as a dynamically sized bit-vector over all states. -/
abbrev DynamicBitset := List Bool

/-- Modelled from the spec: constructor `DynamicBitset(size)`, used by
`directionRules.resize(size, size)`; a new bit-set of the given dimension records
no adjacency. -/
def DynamicBitset.create (size : Nat) : DynamicBitset := List.replicate size false

/-- Modelled from the spec: `DynamicBitset::expand`. Spec 4.2: grow every bit-set to
the new size, preserving previously recorded bits; spec 3: resized, never
truncated. -/
def DynamicBitset.expand (b : DynamicBitset) (size : Nat) : DynamicBitset :=
  b ++ List.replicate (size - b.length) false

/-- Modelled from the spec: `DynamicBitset::setBit(index, value)`; the bit-set has one
bit per state, an index outside it has no defined result. -/
def DynamicBitset.setBit (b : DynamicBitset) (index : Nat) (value : Bool) :
    Outcome DynamicBitset :=
  vecSet b index value

/-- The class `RuleSet`: `states_` (assigned only at lines 104 and 108), the weight
table and the rule table, indexed `rules_[direction][state]` as `expandRuleSet`
(lines 115-118) and `RuleSetBuilder` use it. -/
structure RuleSet where
  states_ : Nat
  weights_ : List Float32
  rules_ : List (List DynamicBitset)

/-- Constructor `RuleSet()` (lines 103-105).  Modelled from the spec: the initial
value of `rules_` comes from the header; spec 3 gives the rule set one entry per
(state, direction) pair over the four directions, so a new rule set has four
direction vectors, each empty. -/
def RuleSet.create : RuleSet :=
  { states_ := 0, weights_ := [], rules_ := [[], [], [], []] }

/-- Method `RuleSet::reset` (lines 107-111). -/
def RuleSet.reset (_r : RuleSet) : RuleSet :=
  { states_ := 0, weights_ := [], rules_ := [] }

/-- Modelled from the spec: accessor `RuleSet::numStates()`, defined in the header.
Spec 3: the bit-set dimension equals the current numStates, and expansion resizes
every bit-set and the weight table to the new size; the state count is read off
the weight table, which `expandRuleSet` resizes first (line 114). -/
def RuleSet.numStates (r : RuleSet) : Nat := r.weights_.length

/-- Modelled from the spec: `RuleSet::setWeight(weight, state)`, defined in the header;
an element write into the weight table. -/
def RuleSet.setWeight (r : RuleSet) (weight : Float32) (state : Nat) : Outcome RuleSet :=
  (vecSet r.weights_ state weight).bind fun w => .ok { r with weights_ := w }

/-- Modelled from the spec: `RuleSet::getWeight(state)`, defined in the header; an
element read of the weight table. -/
def RuleSet.getWeight (r : RuleSet) (state : Nat) : Outcome Float32 :=
  vecGet r.weights_ state

/-- Method `RuleSet::expandRuleSet` (lines 113-120); `weights_.resize(size)` pads with
value-initialised weights, the `float` 0. -/
def RuleSet.expandRuleSet (r : RuleSet) (size : Nat) : RuleSet :=
  { r with
    weights_ := vecResize r.weights_ size (.finite 0)
    rules_ := r.rules_.map fun directionRules =>
      vecResize (directionRules.map fun rule => DynamicBitset.expand rule size) size
        (DynamicBitset.create size) }

/-- Method `RuleSet::getRule` (lines 122-124): reads `rules_[state][direction]`. -/
def RuleSet.getRule (r : RuleSet) (state : Nat) (direction : WaveDirection) :
    Outcome DynamicBitset :=
  (vecGet r.rules_ state).bind fun v => vecGet v direction.toNat

/-- Modelled from the spec: `RuleSet::operator[]`, defined in the header; the builder
reaches the vector of one direction through it (`rules_[0].clear()`,
`rules_[direction][state]`). -/
def RuleSet.dirRules (r : RuleSet) (direction : Nat) : Outcome (List DynamicBitset) :=
  vecGet r.rules_ direction

/-- The statement `rules_[direction][state].setBit(index, true)` of `addInput`
(lines 156, 160, 164, 168). -/
def RuleSet.markRule (r : RuleSet) (direction : WaveDirection) (state index : Nat) :
    Outcome RuleSet :=
  (r.dirRules direction.toNat).bind fun v =>
    (vecGet v state).bind fun rule =>
      (DynamicBitset.setBit rule index true).bind fun rule2 =>
        .ok { r with rules_ := r.rules_.set direction.toNat (v.set state rule2) }

/-- The statement `rules_[direction].clear()` of `RuleSetBuilder::reset`. -/
def RuleSet.clearDir (r : RuleSet) (direction : Nat) : Outcome RuleSet :=
  (r.dirRules direction).bind fun _ =>
    .ok { r with rules_ := r.rules_.set direction [] }

/-! ## The rule compiler -/

/-- The class `RuleSetBuilder`.  Modelled from the spec: the member declarations are in
the header; spec 3 gives the builder a running occurrence count per state
(`counts_`, indexed by state and never resized in the sources, hence a map with
default 0), a running total of processed tiles and the rule set under
construction. -/
structure RuleSetBuilder where
  rules_ : RuleSet
  counts_ : Nat → Nat
  processedTiles_ : Nat

/-- Constructor `RuleSetBuilder()` (lines 129-131). -/
def RuleSetBuilder.create : RuleSetBuilder :=
  { rules_ := RuleSet.create, counts_ := fun _ => 0, processedTiles_ := 0 }

/-- Method `RuleSetBuilder::updateWeights` (lines 133-137): every weight becomes the
`float` quotient `(float)counts_[i] / processedTiles_`. -/
def RuleSetBuilder.updateWeights (b : RuleSetBuilder) : Outcome RuleSetBuilder :=
  forLoop (fun i b =>
      (b.rules_.setWeight (floatQuotient (b.counts_ i) b.processedTiles_) i).bind fun r =>
        .ok { b with rules_ := r })
    b.rules_.numStates b

/-- One neighbour statement of `addInput`,
`rules_[direction][state].setBit(grid.getTile(nx, ny)-1, true)`: read the neighbour tile
and set its bit in the rule of `state` for `direction`. The order in which the tile read
and the two index operations are evaluated decides only which fault is met first. -/
def RuleSetBuilder.markNeighbour (b : RuleSetBuilder) (grid : WaveGrid)
    (direction : WaveDirection) (state nx ny : Nat) : Outcome RuleSetBuilder :=
  (grid.getTile nx ny).bind fun t =>
    (b.rules_.markRule direction state (tileState t)).bind fun r =>
      .ok { b with rules_ := r }

/-- Body of the inner loop of `addInput` (lines 150-168) at the loop counters `x`, `y`.
Inside the loops `grid.width()` and `grid.height()` are at least 1, so
`grid.height()-1` and `grid.width()-1` do not wrap. -/
def RuleSetBuilder.visitCell (grid : WaveGrid) (x y : Nat) (b : RuleSetBuilder) :
    Outcome RuleSetBuilder :=
  (grid.getTile x y).bind fun t =>
    let state := tileState t
    let b1 : RuleSetBuilder :=
      { b with processedTiles_ := b.processedTiles_ + 1
               counts_ := fun s => if s = state then b.counts_ s + 1 else b.counts_ s }
    (if y ≠ 0 then b1.markNeighbour grid .UP state x (y - 1) else .ok b1).bind fun b2 =>
    (if x ≠ 0 then b2.markNeighbour grid .LEFT state (x - 1) y else .ok b2).bind fun b3 =>
    (if y ≠ grid.height - 1 then b3.markNeighbour grid .DOWN state x (y + 1)
      else .ok b3).bind fun b4 =>
    (if x ≠ grid.width - 1 then b4.markNeighbour grid .RIGHT state (x + 1) y
      else .ok b4)

/-- The two nested loops of `addInput` (lines 147-170): `y` runs below
`grid.width()` and `x` below `grid.height()`. -/
def RuleSetBuilder.scanGrid (grid : WaveGrid) (b : RuleSetBuilder) : Outcome RuleSetBuilder :=
  forLoop (fun y b => forLoop (fun x b => RuleSetBuilder.visitCell grid x y b) grid.height b)
    grid.width b

/-- Method `RuleSetBuilder::addInput` (lines 139-173); the result pairs the returned
flag with the builder after the call. -/
def RuleSetBuilder.addInput (b : RuleSetBuilder) (grid : WaveGrid) :
    Outcome (Bool × RuleSetBuilder) :=
  let b1 : RuleSetBuilder :=
    if grid.numStates > b.rules_.numStates then
      { b with rules_ := b.rules_.expandRuleSet grid.numStates }
    else b
  (RuleSetBuilder.scanGrid grid b1).bind fun b2 =>
    b2.updateWeights.bind fun b3 => .ok (true, b3)

/-- Method `RuleSetBuilder::reset` (lines 201-206). -/
def RuleSetBuilder.reset (b : RuleSetBuilder) : Outcome RuleSetBuilder :=
  (b.rules_.clearDir 0).bind fun r0 =>
  (r0.clearDir 1).bind fun r1 =>
  (r1.clearDir 2).bind fun r2 =>
  (r2.clearDir 3).bind fun r3 =>
    .ok { b with rules_ := r3 }

/-- Method `RuleSetBuilder::getRule` (lines 209-211): reads `rules_[direction][state]`. -/
def RuleSetBuilder.getRule (b : RuleSetBuilder) (state : Nat) (direction : WaveDirection) :
    Outcome DynamicBitset :=
  (b.rules_.dirRules direction.toNat).bind fun v => vecGet v state

/-! ## Vocabulary of the properties -/

/-- Sequence of `addInput` calls on one builder, in list order. -/
def RuleSetBuilder.addInputs (b : RuleSetBuilder) : List WaveGrid → Outcome RuleSetBuilder
  | [] => .ok b
  | g :: gs => (b.addInput g).bind fun p => p.2.addInputs gs

/-- Bit `i` of the bit-set stored at `rules_[d][s]`; `false` where nothing is stored. -/
def RuleSet.bitAt (r : RuleSet) (d : WaveDirection) (s i : Nat) : Bool :=
  ((r.rules_.getD d.toNat []).getD s []).getD i false

/-- A rule set of dimension `N`: four direction vectors, each of `N` bit-sets of
`N` bits, and `N` weights. -/
def RuleSet.Shaped (r : RuleSet) (N : Nat) : Prop :=
  r.rules_.length = 4 ∧ r.weights_.length = N ∧
    ∀ v ∈ r.rules_, v.length = N ∧ ∀ bs ∈ v, bs.length = N

/-- Well-formed grid object: the buffer has `width * height` cells, the state count
fits the `int` parameter of `expandRuleSet`, and no tile exceeds the state count
(both constructors and `setTile` keep `numStates_` at or above every tile). -/
def WaveGrid.Valid (g : WaveGrid) : Prop :=
  g.data_.length = g.width_ * g.height_ ∧ g.numStates_ < 2 ^ 31 ∧
    ∀ t ∈ g.data_, t ≤ g.numStates_

instance (g : WaveGrid) : Decidable g.Valid := by
  unfold WaveGrid.Valid
  infer_instance

/-- Number of cells (x, y), x < width and y < height, whose state `tile - 1` is `s`. -/
def WaveGrid.occurrences (g : WaveGrid) (s : Nat) : Nat :=
  ∑ y in Finset.range g.height_, ∑ x in Finset.range g.width_,
    if (g.getTile x y).toOption.map tileState = some s then 1 else 0

/-- What one guarded neighbour statement of `addInput` records: under the guard `c`,
bit `i` of (`s`, `d`), where `s` is the state of tile `t` and `i` the state of the
tile at (`nx`, `ny`). -/
def WaveGrid.NbrMarks (g : WaveGrid) (c : Prop) (d : WaveDirection) (t nx ny : Nat)
    (e : WaveDirection) (s i : Nat) : Prop :=
  c ∧ e = d ∧ s = tileState t ∧ ∃ n, g.getTile nx ny = .ok n ∧ i = tileState n

/-- What the loop body of `addInput` records at the loop counters `x`, `y`. -/
def WaveGrid.CellMarks (g : WaveGrid) (x y : Nat) (e : WaveDirection) (s i : Nat) : Prop :=
  ∃ t, g.getTile x y = .ok t ∧
    (g.NbrMarks (y ≠ 0) .UP t x (y - 1) e s i ∨
     g.NbrMarks (x ≠ 0) .LEFT t (x - 1) y e s i ∨
     g.NbrMarks (y ≠ g.height_ - 1) .DOWN t x (y + 1) e s i ∨
     g.NbrMarks (x ≠ g.width_ - 1) .RIGHT t (x + 1) y e s i)

/-- What the two loops of `addInput` record over the whole scan. -/
def WaveGrid.ScanMarks (g : WaveGrid) (e : WaveDirection) (s i : Nat) : Prop :=
  ∃ y, y < g.width_ ∧ ∃ x, x < g.height_ ∧ g.CellMarks x y e s i

/-- Occurrences counted by the two loops of `addInput` (loop bounds as in the code). -/
def WaveGrid.scanCount (g : WaveGrid) (s : Nat) : Nat :=
  ∑ y in Finset.range g.width_, ∑ x in Finset.range g.height_,
    if (g.getTile x y).toOption.map tileState = some s then 1 else 0

/-- One guarded neighbour statement runs without fault in a rule set of dimension `N`. -/
def WaveGrid.NbrOK (g : WaveGrid) (N : Nat) (c : Prop) (t nx ny : Nat) : Prop :=
  c → tileState t < N ∧ ∃ n, g.getTile nx ny = .ok n ∧ tileState n < N

/-- The loop body of `addInput` runs without fault at the loop counters `x`, `y`. -/
def WaveGrid.CellOK (g : WaveGrid) (N x y : Nat) : Prop :=
  ∃ t, g.getTile x y = .ok t ∧
    g.NbrOK N (y ≠ 0) t x (y - 1) ∧ g.NbrOK N (x ≠ 0) t (x - 1) y ∧
    g.NbrOK N (y ≠ g.height_ - 1) t x (y + 1) ∧ g.NbrOK N (x ≠ g.width_ - 1) t (x + 1) y

/-- The two loops of `addInput` run without fault. -/
def WaveGrid.ScanOK (g : WaveGrid) (N : Nat) : Prop :=
  ∀ y, y < g.width_ → ∀ x, x < g.height_ → g.CellOK N x y

/-- Builder `b` is builder `b0` after recording `p` more tiles, the occurrences `cnt`
and the rule bits `mk`, in a rule set of unchanged dimension `N`. -/
structure RuleSetBuilder.Extends (N : Nat) (b0 b : RuleSetBuilder) (p : Nat)
    (cnt : Nat → Nat) (mk : WaveDirection → Nat → Nat → Prop) : Prop where
  shaped : b.rules_.Shaped N
  weights : b.rules_.weights_ = b0.rules_.weights_
  states : b.rules_.states_ = b0.rules_.states_
  processed : b.processedTiles_ = b0.processedTiles_ + p
  counts : ∀ s, b.counts_ s = b0.counts_ s + cnt s
  bits : ∀ e t j, b.rules_.bitAt e t j = true ↔ (b0.rules_.bitAt e t j = true ∨ mk e t j)

/-- Every weight of the table is the `float` quotient of the current count and total. -/
def RuleSetBuilder.WeightsCurrent (b : RuleSetBuilder) : Prop :=
  ∀ i, i < b.rules_.weights_.length →
    b.rules_.weights_[i]? = some (floatQuotient (b.counts_ i) b.processedTiles_)

/-- Builder `b2` is builder `b`, whose rule set has dimension `N`, after `addInput(grid)`
returned normally. -/
structure RuleSetBuilder.Ingested (N : Nat) (b : RuleSetBuilder) (grid : WaveGrid)
    (b2 : RuleSetBuilder) : Prop where
  shaped : b2.rules_.Shaped (max N grid.numStates_)
  states : b2.rules_.states_ = b.rules_.states_
  processed : b2.processedTiles_ = b.processedTiles_ + grid.width_ * grid.height_
  counts : ∀ s, b2.counts_ s = b.counts_ s + grid.scanCount s
  bits : ∀ e t j, b2.rules_.bitAt e t j = true ↔
    (b.rules_.bitAt e t j = true ∨ grid.ScanMarks e t j)
  weights : b2.WeightsCurrent
  scanned : grid.ScanOK (max N grid.numStates_)

/-! ## Grid writes, pixels and the image loader -/

/-- A sequence of `setTile(x, y, tile)` calls on one grid, in list order. -/
def WaveGrid.setTiles (g : WaveGrid) : List (Nat × Nat × Nat) → Outcome WaveGrid
  | [] => .ok g
  | (x, y, tile) :: ws => (g.setTile x y tile).bind fun g2 => g2.setTiles ws

/-- Function `pixel(red, green, blue, alpha)` (lines 11-14) on byte values. -/
def pixel (red green blue alpha : Nat) : Nat :=
  (alpha <<< 0x18) ||| (blue <<< 0x10) ||| (green <<< 0x8) ||| red

/-- The class `ImageLoader`. Modelled from the spec: the member declarations are in the
header; spec 6 and 9 describe two encoding tables (pixel to tile, tile to pixel). The
sources index both with `operator[]` and never insert otherwise, so each table is a
map that reads 0 where nothing was stored. `usedTiles` is the identifier counter, a
32-bit value like the `TileID` it is returned as. -/
structure ImageLoader where
  encodingMap_ : Nat → Nat
  decodingMap_ : Nat → Nat
  usedTiles : Nat

/-- Constructor `ImageLoader()` (lines 51-53). -/
def ImageLoader.create : ImageLoader :=
  { encodingMap_ := fun _ => 0, decodingMap_ := fun _ => 0, usedTiles := 0 }

/-- Method `ImageLoader::addEncoding` (lines 55-57). It is declared `bool` and has no
`return` statement: after the assignment, control flows off the end of a value-returning
function, which is undefined behaviour. `returns` says what the build at hand does
there: with `true` control gets back to the caller (with an unspecified value, which the
only caller discards), with `false` it does not, as in optimised builds. -/
def ImageLoader.addEncoding (l : ImageLoader) (returns : Bool) (pixel tile : Nat) :
    Outcome ImageLoader :=
  if returns then
    .ok { l with encodingMap_ := fun p => if p = pixel then tile else l.encodingMap_ p }
  else .missingReturn

/-- Method `ImageLoader::addDecoding` (lines 58-60); it has no `return` statement either,
see `addEncoding`. -/
def ImageLoader.addDecoding (l : ImageLoader) (returns : Bool) (tile pixel : Nat) :
    Outcome ImageLoader :=
  if returns then
    .ok { l with decodingMap_ := fun t => if t = tile then pixel else l.decodingMap_ t }
  else .missingReturn

/-- Method `ImageLoader::encodePixel` (lines 62-69): the returned identifier and the
loader after the call. A pixel already in the table is answered at line 64; a new pixel
goes through `addEncoding` and `addDecoding`. -/
def ImageLoader.encodePixel (l : ImageLoader) (returns : Bool) (pixel : Nat) :
    Outcome (Nat × ImageLoader) :=
  let tile := l.encodingMap_ pixel
  if tile ≠ 0 then .ok (tile, l)
  else
    let l1 : ImageLoader := { l with usedTiles := (l.usedTiles + 1) % 2 ^ 32 }
    (l1.addEncoding returns pixel l1.usedTiles).bind fun l2 =>
      (l2.addDecoding returns l2.usedTiles pixel).bind fun l3 =>
        .ok (l3.usedTiles, l3)

/-- Method `ImageLoader::decodeTile` (lines 70-74): the returned pixel, and whether the
diagnostic of line 72 was written. Reading an absent key of the table stores the 0 it
reads, which leaves the table as a map unchanged. -/
def ImageLoader.decodeTile (l : ImageLoader) (tile : Nat) : Nat × Bool :=
  let pixel := l.decodingMap_ tile
  (pixel, decide (pixel = 0))

/-- A call on the loader. -/
inductive LoaderCall where
  | encodePixel (pixel : Nat)
  | decodeTile (tile : Nat)
deriving DecidableEq, Repr

/-- A sequence of calls on one loader, in list order: the values returned and the loader
after the last call. -/
def ImageLoader.run (l : ImageLoader) (returns : Bool) :
    List LoaderCall → Outcome (List Nat × ImageLoader)
  | [] => .ok ([], l)
  | .encodePixel p :: cs =>
    (l.encodePixel returns p).bind fun q =>
      (q.2.run returns cs).bind fun r => .ok (q.1 :: r.1, r.2)
  | .decodeTile t :: cs =>
    (l.run returns cs).bind fun r => .ok ((l.decodeTile t).1 :: r.1, r.2)

/-- Value of a little-endian byte sequence. -/
def leValue : List Nat → Nat
  | [] => 0
  | b :: bs => b + 256 * leValue bs

/-- The call `memcpy(&pixel, src, n)` on the 4-byte local `pixel` holding `old`: the
`n` lowest-addressed bytes are replaced, the others keep their prior contents. The
object representation is little-endian (byte `k` has weight `2^(8k)`). -/
def storeBytes (old : Nat) (bytes : List Nat) : Nat :=
  old / 2 ^ (8 * bytes.length) * 2 ^ (8 * bytes.length) + leValue bytes

/-- The statements of lines 181-183 for the cell (x, y): the pixel value that
`addImageData` hands to `encodePixel`. `junk` is the prior content of the
uninitialised local `pixel`; the offset `(x+y*width)*channels` is a `uint32_t`. -/
def RuleSetBuilder.imagePixel (junk : Nat) (image : List Nat) (width channels x y : Nat) :
    Outcome Nat :=
  let setAlpha := if channels = 3 then pixel 0 0 0 0xFF else 0
  let offset := (x + y * width) * channels % 2 ^ 32
  if channels ≤ 4 ∧ offset + channels ≤ image.length then
    .ok (storeBytes junk ((image.drop offset).take channels) ||| setAlpha)
  else .undefinedAccess

/-- Body of the inner loop of `addImageData` (lines 181-184): the pixel is read, handed
to `encodePixel`, and the identifier returned is written to the cell. -/
def RuleSetBuilder.imageCell (returns : Bool) (junk : Nat → Nat → Nat) (image : List Nat)
    (width channels x y : Nat) (s : WaveGrid × ImageLoader) : Outcome (WaveGrid × ImageLoader) :=
  (RuleSetBuilder.imagePixel (junk x y) image width channels x y).bind fun p =>
    (s.2.encodePixel returns p).bind fun q =>
      (s.1.setTile x y q.1).bind fun g => .ok (g, q.2)

/-- Method `RuleSetBuilder::addImageData` (lines 175-188): the returned flag, the builder
and the loader after the call. -/
def RuleSetBuilder.addImageData (b : RuleSetBuilder) (returns : Bool) (junk : Nat → Nat → Nat)
    (image : List Nat) (width height channels : Nat) (loader : ImageLoader) :
    Outcome (Bool × RuleSetBuilder × ImageLoader) :=
  (WaveGrid.create width height).bind fun grid =>
    (forLoop (fun y s => forLoop (fun x s =>
        RuleSetBuilder.imageCell returns junk image width channels x y s) width s) height
      (grid, loader)).bind fun s =>
        (b.addInput s.1).bind fun r => .ok (r.1, r.2, s.2)

/-- The value `pixel(r, g, b, 0xFF)` of the three bytes r, g, b at offset
`(x + y*width)*3` of an image buffer. -/
def rgbPixelAt (image : List Nat) (width x y : Nat) : Nat :=
  pixel (image.getD ((x + y * width) * 3) 0) (image.getD ((x + y * width) * 3 + 1) 0)
    (image.getD ((x + y * width) * 3 + 2) 0) 0xFF

/-- The value `pixel(r, g, b, a)` of the four bytes r, g, b, a at offset
`(x + y*width)*4` of an image buffer. -/
def rgbaPixelAt (image : List Nat) (width x y : Nat) : Nat :=
  pixel (image.getD ((x + y * width) * 4) 0) (image.getD ((x + y * width) * 4 + 1) 0)
    (image.getD ((x + y * width) * 4 + 2) 0) (image.getD ((x + y * width) * 4 + 3) 0)

/-- The reading of `addImageData` that the specification gives: the grid is filled cell
by cell, rows first, with the identifier that `encodePixel` returns for the pixel
`value x y` of the cell (x, y), and is then compiled. -/
def RuleSetBuilder.addPixelData (b : RuleSetBuilder) (returns : Bool) (value : Nat → Nat → Nat)
    (width height : Nat) (loader : ImageLoader) :
    Outcome (Bool × RuleSetBuilder × ImageLoader) :=
  (WaveGrid.create width height).bind fun grid =>
    (forLoop (fun y s => forLoop (fun x (s : WaveGrid × ImageLoader) =>
        (s.2.encodePixel returns (value x y)).bind fun q =>
          (s.1.setTile x y q.1).bind fun g => .ok (g, q.2)) width s) height
      (grid, loader)).bind fun s =>
        (b.addInput s.1).bind fun r => .ok (r.1, r.2, s.2)

/-- The cell next to (x, y) in a direction, when its coordinates are not negative: UP is
(x, y-1), DOWN is (x, y+1), LEFT is (x-1, y), RIGHT is (x+1, y). -/
def WaveDirection.neighbour : WaveDirection → Nat → Nat → Option (Nat × Nat)
  | .UP, x, y => if y = 0 then none else some (x, y - 1)
  | .DOWN, x, y => some (x, y + 1)
  | .LEFT, x, y => if x = 0 then none else some (x - 1, y)
  | .RIGHT, x, y => some (x + 1, y)

/-- The opposite direction. -/
def WaveDirection.opposite : WaveDirection → WaveDirection
  | .UP => .DOWN
  | .DOWN => .UP
  | .LEFT => .RIGHT
  | .RIGHT => .LEFT

/-- Some cell of state `a` has an in-bounds neighbour of state `b` in direction `d`. -/
def WaveGrid.Adjacent (g : WaveGrid) (d : WaveDirection) (a b : Nat) : Prop :=
  ∃ x y nx ny t n, g.getTile x y = .ok t ∧ d.neighbour x y = some (nx, ny) ∧
    g.getTile nx ny = .ok n ∧ a = tileState t ∧ b = tileState n

/-- The distinct pixels seen so far, in first-seen order, after one more pixel. -/
def seeOne (seen : List Nat) (p : Nat) : List Nat :=
  if p ∈ seen then seen else seen ++ [p]

/-- The distinct pixels that a sequence of loader calls has seen, in first-seen order,
starting from the pixels `seen`. -/
def firstSeen (seen : List Nat) : List LoaderCall → List Nat
  | [] => seen
  | .encodePixel p :: cs => firstSeen (seeOne seen p) cs
  | .decodeTile _ :: cs => firstSeen seen cs

/-- The loader that has seen exactly the pixels `seen`, in this order: pixel number `k`
(from 1) has identifier `k`. -/
def ImageLoader.ofSeen (seen : List Nat) : ImageLoader :=
  { encodingMap_ := fun p => if p ∈ seen then seen.indexOf p + 1 else 0
    decodingMap_ := fun t => if 1 ≤ t ∧ t ≤ seen.length then seen.getD (t - 1) 0 else 0
    usedTiles := seen.length }

/-! ## Properties -/

/-! ### Outcomes, vectors and loops -/

@[simp] theorem Outcome.ok_bind {α β : Type} (a : α) (f : α → Outcome β) :
    (Outcome.ok a).bind f = f a := rfl

@[simp] theorem Outcome.outOfBounds_bind {α β : Type} (f : α → Outcome β) :
    (Outcome.outOfBounds : Outcome α).bind f = .outOfBounds := rfl

@[simp] theorem Outcome.undefinedAccess_bind {α β : Type} (f : α → Outcome β) :
    (Outcome.undefinedAccess : Outcome α).bind f = .undefinedAccess := rfl

@[simp] theorem Outcome.badArrayNewLength_bind {α β : Type} (f : α → Outcome β) :
    (Outcome.badArrayNewLength : Outcome α).bind f = .badArrayNewLength := rfl

@[simp] theorem Outcome.missingReturn_bind {α β : Type} (f : α → Outcome β) :
    (Outcome.missingReturn : Outcome α).bind f = .missingReturn := rfl

theorem Outcome.bind_eq_ok {α β : Type} {o : Outcome α} {f : α → Outcome β} {b : β} :
    o.bind f = .ok b ↔ ∃ a, o = .ok a ∧ f a = .ok b := by
  cases o <;> simp

theorem Outcome.toOption_eq_some {α : Type} {o : Outcome α} {a : α} :
    o.toOption = some a ↔ o = .ok a := by
  cases o <;> simp [Outcome.toOption]

theorem Outcome.toOption_eq_none {α : Type} {o : Outcome α} :
    o.toOption = none ↔ ∀ a, o ≠ .ok a := by
  cases o <;> simp [Outcome.toOption]

theorem vecGet_eq_ok {α : Type} {v : List α} {i : Nat} {a : α} :
    vecGet v i = .ok a ↔ v[i]? = some a := by
  unfold vecGet
  cases h : v[i]? <;> simp

theorem vecSet_eq_ok {α : Type} {v w : List α} {i : Nat} {a : α} :
    vecSet v i a = .ok w ↔ i < v.length ∧ w = v.set i a := by
  unfold vecSet
  split <;> simp_all [eq_comm]

theorem getD_set_eq {α : Type} (l : List α) (n m : Nat) (a dflt : α) (h : n < l.length) :
    (l.set n a).getD m dflt = if n = m then a else l.getD m dflt := by
  simp only [List.getD_eq_getElem?_getD, List.getElem?_set]
  split
  · simp [h]
  · rfl

theorem forLoop_succ {σ : Type} (body : Nat → σ → Outcome σ) (n : Nat) (s : σ) :
    forLoop body (n + 1) s = (forLoop body n s).bind (body n) := rfl

/-- Invariant rule for a loop that returns normally. -/
theorem forLoop_invariant {σ : Type} (body : Nat → σ → Outcome σ) (P : Nat → σ → Prop)
    (n : Nat) (s0 : σ) (h0 : P 0 s0)
    (hstep : ∀ j, j < n → ∀ s s2, P j s → body j s = .ok s2 → P (j + 1) s2) :
    ∀ s2, forLoop body n s0 = .ok s2 → P n s2 := by
  induction n with
  | zero =>
    intro s2 h
    simp only [forLoop] at h
    injection h with h
    exact h ▸ h0
  | succ k ih =>
    intro s2 h
    rw [forLoop_succ, Outcome.bind_eq_ok] at h
    obtain ⟨s1, h1, h2⟩ := h
    exact hstep k (Nat.lt_succ_self k) s1 s2
      (ih (fun j hj => hstep j (Nat.lt_succ_of_lt hj)) s1 h1) h2

/-- A loop returns normally when every body does, under an invariant. -/
theorem forLoop_ok {σ : Type} (body : Nat → σ → Outcome σ) (P : Nat → σ → Prop)
    (n : Nat) (s0 : σ) (h0 : P 0 s0)
    (hstep : ∀ j, j < n → ∀ s, P j s → ∃ s2, body j s = .ok s2 ∧ P (j + 1) s2) :
    ∃ s2, forLoop body n s0 = .ok s2 ∧ P n s2 := by
  induction n with
  | zero => exact ⟨s0, rfl, h0⟩
  | succ k ih =>
    obtain ⟨s1, h1, hp⟩ := ih (fun j hj => hstep j (Nat.lt_succ_of_lt hj))
    obtain ⟨s2, h2, hp2⟩ := hstep k (Nat.lt_succ_self k) s1 hp
    exact ⟨s2, by rw [forLoop_succ, h1]; exact h2, hp2⟩

/-- In a loop that returns normally every body returned normally, from the state the
earlier bodies produced. -/
theorem forLoop_body_ok {σ : Type} (body : Nat → σ → Outcome σ) (n : Nat) (s0 s2 : σ)
    (h : forLoop body n s0 = .ok s2) :
    ∀ j, j < n → ∃ s s3, forLoop body j s0 = .ok s ∧ body j s = .ok s3 := by
  induction n generalizing s2 with
  | zero => intro j hj; exact absurd hj (Nat.not_lt_zero j)
  | succ k ih =>
    rw [forLoop_succ, Outcome.bind_eq_ok] at h
    obtain ⟨s1, h1, h2⟩ := h
    intro j hj
    rcases Nat.lt_succ_iff_lt_or_eq.1 hj with hj | rfl
    · exact ih s1 h1 j hj
    · exact ⟨s1, s2, h1, h2⟩

theorem forLoop_congr {σ : Type} {f g : Nat → σ → Outcome σ} (n : Nat)
    (h : ∀ i, i < n → ∀ s, f i s = g i s) (s : σ) : forLoop f n s = forLoop g n s := by
  induction n with
  | zero => rfl
  | succ k ih =>
    rw [forLoop_succ, forLoop_succ, ih (fun i hi => h i (Nat.lt_succ_of_lt hi))]
    congr 1
    funext t
    exact h k (Nat.lt_succ_self k) t

/-! ### Setting one rule bit -/

theorem WaveDirection.toNat_inj {d e : WaveDirection} : d.toNat = e.toNat ↔ d = e := by
  cases d <;> cases e <;> simp [WaveDirection.toNat]

theorem WaveDirection.toNat_lt (d : WaveDirection) : d.toNat < 4 := by
  cases d <;> simp [WaveDirection.toNat]

theorem RuleSet.markRule_spec {r r2 : RuleSet} {N : Nat} (hs : r.Shaped N)
    {d : WaveDirection} {s i : Nat} (h : r.markRule d s i = .ok r2) :
    s < N ∧ i < N ∧ r2.Shaped N ∧ r2.weights_ = r.weights_ ∧ r2.states_ = r.states_ ∧
      ∀ e t j, r2.bitAt e t j =
        (r.bitAt e t j || (decide (e = d) && decide (t = s) && decide (j = i))) := by
  obtain ⟨h4, hw, hrows⟩ := hs
  simp only [RuleSet.markRule, RuleSet.dirRules, DynamicBitset.setBit, Outcome.bind_eq_ok,
    vecGet_eq_ok, vecSet_eq_ok] at h
  obtain ⟨v, hv, rule, hrule, rule2, ⟨hi, rfl⟩, hr2⟩ := h
  injection hr2 with hr2
  subst hr2
  have hvm : v ∈ r.rules_ := List.getElem?_mem hv
  have hrm : rule ∈ v := List.getElem?_mem hrule
  obtain ⟨hvl, hbs⟩ := hrows v hvm
  have hrl := hbs rule hrm
  have hsN : s < N := by
    rw [← hvl]
    exact (List.getElem?_eq_some.1 hrule).1
  have hdl : d.toNat < r.rules_.length := (List.getElem?_eq_some.1 hv).1
  refine ⟨hsN, hrl ▸ hi, ⟨by simpa using h4, hw, ?_⟩, rfl, rfl, ?_⟩
  · intro v2 hv2
    rcases List.mem_or_eq_of_mem_set hv2 with hv2 | rfl
    · exact hrows v2 hv2
    · refine ⟨by simpa using hvl, ?_⟩
      intro bs hbs2
      rcases List.mem_or_eq_of_mem_set hbs2 with hbs2 | rfl
      · exact hbs bs hbs2
      · simpa using hrl
  · intro e t j
    have hvD : r.rules_.getD d.toNat [] = v := by
      simp [List.getD_eq_getElem?_getD, hv]
    have hrD : v.getD s [] = rule := by
      simp [List.getD_eq_getElem?_getD, hrule]
    simp only [RuleSet.bitAt]
    rw [getD_set_eq _ _ _ _ _ hdl]
    by_cases hde : e = d
    · subst hde
      simp only [if_true, decide_True, Bool.true_and]
      rw [getD_set_eq _ _ _ _ _ (hvl ▸ hsN), hvD]
      by_cases hts : t = s
      · subst hts
        simp only [if_true, decide_True, Bool.true_and]
        rw [getD_set_eq _ _ _ _ _ hi, hrD]
        by_cases hji : j = i
        · subst hji
          simp
        · have : ¬ i = j := fun h => hji h.symm
          simp [hji, this]
      · have : ¬ s = t := fun h => hts h.symm
        simp [hts, this]
    · have : ¬ d.toNat = e.toNat := fun h => hde (WaveDirection.toNat_inj.1 h).symm
      simp [hde, this]

theorem RuleSet.markRule_ok {r : RuleSet} {N : Nat} (hs : r.Shaped N)
    (d : WaveDirection) {s i : Nat} (hsN : s < N) (hiN : i < N) :
    ∃ r2, r.markRule d s i = .ok r2 := by
  obtain ⟨h4, hw, hrows⟩ := hs
  have hd : d.toNat < r.rules_.length := h4 ▸ d.toNat_lt
  have hvm : r.rules_[d.toNat] ∈ r.rules_ := List.getElem_mem _
  obtain ⟨hvl, hbs⟩ := hrows _ hvm
  have hsl : s < r.rules_[d.toNat].length := hvl ▸ hsN
  have hrl := hbs _ (List.getElem_mem hsl)
  simp only [RuleSet.markRule, RuleSet.dirRules, DynamicBitset.setBit, vecGet, vecSet,
    List.getElem?_eq_getElem hd, List.getElem?_eq_getElem hsl, Outcome.ok_bind, hrl, hiN,
    if_true]
  exact ⟨_, rfl⟩

/-! ### The loop body of `addInput` -/

theorem RuleSetBuilder.Extends.refl {N : Nat} {b : RuleSetBuilder} (hs : b.rules_.Shaped N) :
    RuleSetBuilder.Extends N b b 0 (fun _ => 0) (fun _ _ _ => False) :=
  ⟨hs, rfl, rfl, rfl, fun _ => rfl, fun _ _ _ => by simp⟩

theorem RuleSetBuilder.Extends.trans {N : Nat} {b0 b1 b2 : RuleSetBuilder} {p1 p2 : Nat}
    {c1 c2 : Nat → Nat} {m1 m2 : WaveDirection → Nat → Nat → Prop}
    (h1 : RuleSetBuilder.Extends N b0 b1 p1 c1 m1)
    (h2 : RuleSetBuilder.Extends N b1 b2 p2 c2 m2) :
    RuleSetBuilder.Extends N b0 b2 (p1 + p2) (fun s => c1 s + c2 s)
      (fun e t j => m1 e t j ∨ m2 e t j) where
  shaped := h2.shaped
  weights := h2.weights.trans h1.weights
  states := h2.states.trans h1.states
  processed := by rw [h2.processed, h1.processed, Nat.add_assoc]
  counts := fun s => by rw [h2.counts, h1.counts, Nat.add_assoc]
  bits := fun e t j => by rw [h2.bits, h1.bits, or_assoc]

theorem RuleSetBuilder.Extends.congr {N : Nat} {b0 b : RuleSetBuilder} {p q : Nat}
    {c1 c2 : Nat → Nat} {m1 m2 : WaveDirection → Nat → Nat → Prop}
    (h : RuleSetBuilder.Extends N b0 b p c1 m1) (hp : p = q) (hc : ∀ s, c1 s = c2 s)
    (hm : ∀ e t j, m1 e t j ↔ m2 e t j) :
    RuleSetBuilder.Extends N b0 b q c2 m2 where
  shaped := h.shaped
  weights := h.weights
  states := h.states
  processed := hp ▸ h.processed
  counts := fun s => by rw [h.counts, hc]
  bits := fun e t j => by rw [h.bits, hm]

/-- One guarded neighbour statement that returns normally. -/
theorem RuleSetBuilder.guarded_spec {N : Nat} {b b2 : RuleSetBuilder} (hs : b.rules_.Shaped N)
    (grid : WaveGrid) (c : Prop) [Decidable c] (d : WaveDirection) (t nx ny : Nat)
    (h : (if c then b.markNeighbour grid d (tileState t) nx ny else .ok b) = .ok b2) :
    RuleSetBuilder.Extends N b b2 0 (fun _ => 0) (grid.NbrMarks c d t nx ny) ∧
      grid.NbrOK N c t nx ny := by
  by_cases hc : c
  · rw [if_pos hc] at h
    simp only [RuleSetBuilder.markNeighbour, Outcome.bind_eq_ok] at h
    obtain ⟨n, hn, r, hr, hb2⟩ := h
    injection hb2 with hb2
    subst hb2
    obtain ⟨hsN, hiN, hsh, hw, hst, hbits⟩ := RuleSet.markRule_spec hs hr
    refine ⟨⟨hsh, hw, hst, rfl, fun _ => rfl, ?_⟩, fun _ => ⟨hsN, n, hn, hiN⟩⟩
    intro e s j
    simp only [hbits, Bool.or_eq_true, Bool.and_eq_true, decide_eq_true_eq,
      WaveGrid.NbrMarks, hn]
    constructor
    · rintro (h | ⟨⟨h1, h2⟩, h3⟩)
      · exact Or.inl h
      · exact Or.inr ⟨hc, h1, h2, n, rfl, h3⟩
    · rintro (h | ⟨_, h1, h2, m, hm, h3⟩)
      · exact Or.inl h
      · injection hm with hm
        subst hm
        exact Or.inr ⟨⟨h1, h2⟩, h3⟩
  · rw [if_neg hc] at h
    injection h with h
    subst h
    refine ⟨(RuleSetBuilder.Extends.refl hs).congr rfl (fun _ => rfl) ?_, fun h => absurd h hc⟩
    intro e s j
    simp [WaveGrid.NbrMarks, hc]

/-- One guarded neighbour statement returns normally when its accesses are in range. -/
theorem RuleSetBuilder.guarded_ok {N : Nat} {b : RuleSetBuilder} (hs : b.rules_.Shaped N)
    (grid : WaveGrid) (c : Prop) [Decidable c] (d : WaveDirection) (t nx ny : Nat)
    (h : grid.NbrOK N c t nx ny) :
    ∃ b2, (if c then b.markNeighbour grid d (tileState t) nx ny else .ok b) = .ok b2 := by
  by_cases hc : c
  · obtain ⟨hsN, n, hn, hiN⟩ := h hc
    obtain ⟨r2, hr2⟩ := RuleSet.markRule_ok hs d hsN hiN
    rw [if_pos hc]
    simp only [RuleSetBuilder.markNeighbour, hn, Outcome.ok_bind, hr2]
    exact ⟨_, rfl⟩
  · rw [if_neg hc]
    exact ⟨b, rfl⟩

/-- The loop body of `addInput`, when it returns normally. -/
theorem RuleSetBuilder.visitCell_spec {N : Nat} {b b2 : RuleSetBuilder}
    (hs : b.rules_.Shaped N) (grid : WaveGrid) (x y : Nat)
    (h : RuleSetBuilder.visitCell grid x y b = .ok b2) :
    RuleSetBuilder.Extends N b b2 1
        (fun s => if (grid.getTile x y).toOption.map tileState = some s then 1 else 0)
        (grid.CellMarks x y) ∧
      grid.CellOK N x y := by
  simp only [RuleSetBuilder.visitCell, WaveGrid.height, WaveGrid.width,
    Outcome.bind_eq_ok] at h
  obtain ⟨t, ht, b3, h3, b4, h4, b5, h5, h6⟩ := h
  have e1 : RuleSetBuilder.Extends N b
      { b with processedTiles_ := b.processedTiles_ + 1
               counts_ := fun s => if s = tileState t then b.counts_ s + 1 else b.counts_ s }
      1 (fun s => if s = tileState t then 1 else 0) (fun _ _ _ => False) :=
    ⟨hs, rfl, rfl, rfl, fun s => by by_cases hst : s = tileState t <;> simp [hst],
      fun _ _ _ => by simp⟩
  obtain ⟨e3, k3⟩ := RuleSetBuilder.guarded_spec e1.shaped grid _ _ t _ _ h3
  obtain ⟨e4, k4⟩ := RuleSetBuilder.guarded_spec e3.shaped grid _ _ t _ _ h4
  obtain ⟨e5, k5⟩ := RuleSetBuilder.guarded_spec e4.shaped grid _ _ t _ _ h5
  obtain ⟨e6, k6⟩ := RuleSetBuilder.guarded_spec e5.shaped grid _ _ t _ _ h6
  refine ⟨((((e1.trans e3).trans e4).trans e5).trans e6).congr rfl ?_ ?_,
    t, ht, k3, k4, k5, k6⟩
  · intro s
    simp only [ht, Outcome.toOption, Option.map_some', Option.some.injEq, Nat.add_zero]
    by_cases hst : s = tileState t
    · simp [hst]
    · have : ¬ tileState t = s := fun h => hst h.symm
      simp [hst, this]
  · intro e s j
    simp only [WaveGrid.CellMarks, ht, false_or]
    constructor
    · intro h
      exact ⟨t, rfl, by tauto⟩
    · rintro ⟨u, hu, h⟩
      injection hu with hu
      subst hu
      tauto

/-- The loop body of `addInput` returns normally when its accesses are in range. -/
theorem RuleSetBuilder.visitCell_ok {N : Nat} {b : RuleSetBuilder}
    (hs : b.rules_.Shaped N) (grid : WaveGrid) (x y : Nat) (h : grid.CellOK N x y) :
    ∃ b2, RuleSetBuilder.visitCell grid x y b = .ok b2 := by
  obtain ⟨t, ht, k3, k4, k5, k6⟩ := h
  have hs1 : (RuleSet.Shaped
      ({ b with processedTiles_ := b.processedTiles_ + 1
                counts_ := fun s => if s = tileState t then b.counts_ s + 1 else b.counts_ s }
        : RuleSetBuilder).rules_ N) := hs
  obtain ⟨b3, h3⟩ := RuleSetBuilder.guarded_ok hs1 grid _ .UP t _ _ k3
  have hs3 := (RuleSetBuilder.guarded_spec hs1 grid _ _ t _ _ h3).1.shaped
  obtain ⟨b4, h4⟩ := RuleSetBuilder.guarded_ok hs3 grid _ .LEFT t _ _ k4
  have hs4 := (RuleSetBuilder.guarded_spec hs3 grid _ _ t _ _ h4).1.shaped
  obtain ⟨b5, h5⟩ := RuleSetBuilder.guarded_ok hs4 grid _ .DOWN t _ _ k5
  have hs5 := (RuleSetBuilder.guarded_spec hs4 grid _ _ t _ _ h5).1.shaped
  obtain ⟨b6, h6⟩ := RuleSetBuilder.guarded_ok hs5 grid _ .RIGHT t _ _ k6
  refine ⟨b6, ?_⟩
  simp only [RuleSetBuilder.visitCell, WaveGrid.height, WaveGrid.width, ht, Outcome.ok_bind,
    h3, h4, h5]
  exact h6

/-! ### The loops of `addInput` -/

/-- A loop whose bodies extend the builder extends it by the sum of their effects. -/
theorem RuleSetBuilder.forLoop_extends {N : Nat} (body : Nat → RuleSetBuilder →
    Outcome RuleSetBuilder) (p : Nat → Nat) (c : Nat → Nat → Nat)
    (m : Nat → WaveDirection → Nat → Nat → Prop) (n : Nat) (b0 : RuleSetBuilder)
    (hs : b0.rules_.Shaped N)
    (hstep : ∀ j, j < n → ∀ b b2, b.rules_.Shaped N → body j b = .ok b2 →
      RuleSetBuilder.Extends N b b2 (p j) (c j) (m j))
    (b2 : RuleSetBuilder) (h : forLoop body n b0 = .ok b2) :
    RuleSetBuilder.Extends N b0 b2 (∑ j in Finset.range n, p j)
      (fun s => ∑ j in Finset.range n, c j s) (fun e t i => ∃ j, j < n ∧ m j e t i) := by
  refine forLoop_invariant body
    (fun k b => RuleSetBuilder.Extends N b0 b (∑ j in Finset.range k, p j)
      (fun s => ∑ j in Finset.range k, c j s) (fun e t i => ∃ j, j < k ∧ m j e t i))
    n b0 ?_ ?_ b2 h
  · exact (RuleSetBuilder.Extends.refl hs).congr (by simp) (fun _ => by simp)
      (fun _ _ _ => by simp)
  · intro j hj b b3 hb hb3
    refine (hb.trans (hstep j hj b b3 hb.shaped hb3)).congr
      (Finset.sum_range_succ _ _).symm (fun s => (Finset.sum_range_succ _ _).symm) ?_
    intro e t i
    constructor
    · rintro (⟨k, hk, hm⟩ | hm)
      · exact ⟨k, Nat.lt_succ_of_lt hk, hm⟩
      · exact ⟨j, Nat.lt_succ_self j, hm⟩
    · rintro ⟨k, hk, hm⟩
      rcases Nat.lt_succ_iff_lt_or_eq.1 hk with hk | rfl
      · exact Or.inl ⟨k, hk, hm⟩
      · exact Or.inr hm

/-- The inner loop of `addInput` at row counter `y`, when it returns normally. -/
theorem RuleSetBuilder.scanRow_spec {N : Nat} {b b2 : RuleSetBuilder}
    (hs : b.rules_.Shaped N) (grid : WaveGrid) (y : Nat)
    (h : forLoop (fun x b => RuleSetBuilder.visitCell grid x y b) grid.height_ b = .ok b2) :
    RuleSetBuilder.Extends N b b2 (∑ _x in Finset.range grid.height_, 1)
        (fun s => ∑ x in Finset.range grid.height_,
          if (grid.getTile x y).toOption.map tileState = some s then 1 else 0)
        (fun e t i => ∃ x, x < grid.height_ ∧ grid.CellMarks x y e t i) ∧
      ∀ x, x < grid.height_ → grid.CellOK N x y := by
  have hstep : ∀ x, x < grid.height_ → ∀ c c2 : RuleSetBuilder, c.rules_.Shaped N →
      RuleSetBuilder.visitCell grid x y c = .ok c2 →
      RuleSetBuilder.Extends N c c2 ((fun _ => 1) x)
        ((fun x s => if (grid.getTile x y).toOption.map tileState = some s then 1 else 0) x)
        ((fun x => grid.CellMarks x y) x) :=
    fun x _ c c2 hc hc2 => (RuleSetBuilder.visitCell_spec hc grid x y hc2).1
  refine ⟨RuleSetBuilder.forLoop_extends _ _ _ _ _ b hs hstep b2 h, ?_⟩
  intro x hx
  obtain ⟨c, c2, hc, hc2⟩ := forLoop_body_ok _ _ _ _ h x hx
  have hcs := (RuleSetBuilder.forLoop_extends _ _ _ _ x b hs
    (fun j hj => hstep j (Nat.lt_trans hj hx)) c hc).shaped
  exact (RuleSetBuilder.visitCell_spec hcs grid x y hc2).2

/-- The two loops of `addInput`, when they return normally. -/
theorem RuleSetBuilder.scanGrid_spec {N : Nat} {b b2 : RuleSetBuilder}
    (hs : b.rules_.Shaped N) (grid : WaveGrid)
    (h : RuleSetBuilder.scanGrid grid b = .ok b2) :
    RuleSetBuilder.Extends N b b2 (grid.width_ * grid.height_) grid.scanCount grid.ScanMarks ∧
      grid.ScanOK N := by
  simp only [RuleSetBuilder.scanGrid, WaveGrid.height, WaveGrid.width] at h
  have hstep : ∀ y, y < grid.width_ → ∀ c c2 : RuleSetBuilder, c.rules_.Shaped N →
      forLoop (fun x b => RuleSetBuilder.visitCell grid x y b) grid.height_ c = .ok c2 →
      RuleSetBuilder.Extends N c c2 ((fun _ => ∑ _x in Finset.range grid.height_, 1) y)
        ((fun y s => ∑ x in Finset.range grid.height_,
          if (grid.getTile x y).toOption.map tileState = some s then 1 else 0) y)
        ((fun y e t i => ∃ x, x < grid.height_ ∧ grid.CellMarks x y e t i) y) :=
    fun y _ c c2 hc hc2 => (RuleSetBuilder.scanRow_spec hc grid y hc2).1
  refine ⟨(RuleSetBuilder.forLoop_extends _ _ _ _ _ b hs hstep b2 h).congr ?_ ?_ ?_, ?_⟩
  · simp
  · intro s
    rfl
  · intro e t i
    rfl
  · intro y hy x hx
    obtain ⟨c, c2, hc, hc2⟩ := forLoop_body_ok _ _ _ _ h y hy
    have hcs := (RuleSetBuilder.forLoop_extends _ _ _ _ y b hs
      (fun j hj => hstep j (Nat.lt_trans hj hy)) c hc).shaped
    exact (RuleSetBuilder.scanRow_spec hcs grid y hc2).2 x hx

/-- The two loops of `addInput` return normally when every access is in range. -/
theorem RuleSetBuilder.scanGrid_ok {N : Nat} {b : RuleSetBuilder}
    (hs : b.rules_.Shaped N) (grid : WaveGrid) (h : grid.ScanOK N) :
    ∃ b2, RuleSetBuilder.scanGrid grid b = .ok b2 := by
  simp only [RuleSetBuilder.scanGrid, WaveGrid.height, WaveGrid.width]
  have hrow : ∀ y, y < grid.width_ → ∀ c : RuleSetBuilder, c.rules_.Shaped N →
      ∃ c2, forLoop (fun x b => RuleSetBuilder.visitCell grid x y b) grid.height_ c = .ok c2 ∧
        c2.rules_.Shaped N := by
    intro y hy c hc
    refine forLoop_ok _ (fun _ (d : RuleSetBuilder) => d.rules_.Shaped N) _ c hc ?_
    intro x hx d hd
    obtain ⟨d2, hd2⟩ := RuleSetBuilder.visitCell_ok hd grid x y (h y hy x hx)
    exact ⟨d2, hd2, (RuleSetBuilder.visitCell_spec hd grid x y hd2).1.shaped⟩
  obtain ⟨b2, hb2, _⟩ := forLoop_ok _ (fun _ (d : RuleSetBuilder) => d.rules_.Shaped N)
    grid.width_ b hs (fun y hy c hc => hrow y hy c hc)
  exact ⟨b2, hb2⟩

/-! ### Expansion -/

theorem DynamicBitset.getD_expand (bs : DynamicBitset) (size j : Nat) :
    (DynamicBitset.expand bs size).getD j false = bs.getD j false := by
  simp only [DynamicBitset.expand, List.getD_eq_getElem?_getD, List.getElem?_append,
    List.getElem?_replicate]
  by_cases h : j < bs.length
  · simp [h]
  · rw [if_neg h, List.getElem?_eq_none (Nat.le_of_not_lt h)]
    split <;> rfl

theorem DynamicBitset.length_expand (bs : DynamicBitset) (size : Nat) (h : bs.length ≤ size) :
    (DynamicBitset.expand bs size).length = size := by
  simp only [DynamicBitset.expand, List.length_append, List.length_replicate]
  omega

theorem vecResize_length {α : Type} (v : List α) (n : Nat) (fill : α) :
    (vecResize v n fill).length = n := by
  simp only [vecResize, List.length_append, List.length_take, List.length_replicate]
  omega

theorem vecResize_of_le {α : Type} (v : List α) (n : Nat) (fill : α) (h : v.length ≤ n) :
    vecResize v n fill = v ++ List.replicate (n - v.length) fill := by
  simp only [vecResize, List.take_of_length_le h]

theorem expandRow_getD (v : List DynamicBitset) (size s j : Nat) (h : v.length ≤ size) :
    ((vecResize (v.map fun rule => DynamicBitset.expand rule size) size
      (DynamicBitset.create size)).getD s []).getD j false = (v.getD s []).getD j false := by
  rw [vecResize_of_le _ _ _ (by simpa using h)]
  simp only [List.getD_eq_getElem?_getD, List.getElem?_append, List.length_map,
    List.getElem?_map, List.getElem?_replicate]
  by_cases hs : s < v.length
  · rw [if_pos hs, List.getElem?_eq_getElem hs]
    simp only [Option.map_some', Option.getD_some]
    have := DynamicBitset.getD_expand v[s] size j
    simpa only [List.getD_eq_getElem?_getD] using this
  · rw [if_neg hs, List.getElem?_eq_none (Nat.le_of_not_lt hs)]
    split
    · simp only [DynamicBitset.create, Option.getD_some, List.getElem?_replicate]
      split <;> rfl
    · simp

theorem RuleSet.expandRuleSet_spec {r : RuleSet} {N : Nat} (hs : r.Shaped N) (size : Nat)
    (h : N ≤ size) :
    (r.expandRuleSet size).Shaped size ∧ (r.expandRuleSet size).states_ = r.states_ ∧
      ∀ e t j, (r.expandRuleSet size).bitAt e t j = r.bitAt e t j := by
  obtain ⟨h4, hw, hrows⟩ := hs
  refine ⟨⟨by simpa [RuleSet.expandRuleSet] using h4, vecResize_length _ _ _, ?_⟩, rfl, ?_⟩
  · intro v hv
    simp only [RuleSet.expandRuleSet, List.mem_map] at hv
    obtain ⟨v0, hv0, rfl⟩ := hv
    obtain ⟨hvl, hbs⟩ := hrows v0 hv0
    refine ⟨vecResize_length _ _ _, ?_⟩
    intro bs hbs2
    rw [vecResize_of_le _ _ _ (by simpa [hvl] using h)] at hbs2
    rcases List.mem_append.1 hbs2 with hbs2 | hbs2
    · obtain ⟨b0, hb0, rfl⟩ := List.mem_map.1 hbs2
      exact DynamicBitset.length_expand b0 size (hbs b0 hb0 ▸ h)
    · rw [(List.mem_replicate.1 hbs2).2]
      simp [DynamicBitset.create]
  · intro e t j
    have hd : e.toNat < r.rules_.length := h4 ▸ e.toNat_lt
    have hvl := (hrows _ (List.getElem_mem hd)).1
    simp only [RuleSet.bitAt, RuleSet.expandRuleSet]
    have h1 : (List.map (fun directionRules =>
        vecResize (List.map (fun rule => DynamicBitset.expand rule size) directionRules) size
          (DynamicBitset.create size)) r.rules_).getD e.toNat [] =
        vecResize (List.map (fun rule => DynamicBitset.expand rule size) r.rules_[e.toNat]) size
          (DynamicBitset.create size) := by
      simp [List.getD_eq_getElem?_getD, List.getElem?_map, List.getElem?_eq_getElem hd]
    have h2 : r.rules_.getD e.toNat [] = r.rules_[e.toNat] := by
      simp [List.getD_eq_getElem?_getD, List.getElem?_eq_getElem hd]
    rw [h1, h2]
    exact expandRow_getD _ size t j (hvl ▸ h)

/-- A rule table is determined by its dimension and its bits. -/
theorem RuleSet.rules_ext {r1 r2 : RuleSet} {N : Nat} (h1 : r1.Shaped N) (h2 : r2.Shaped N)
    (h : ∀ e t j, r1.bitAt e t j = r2.bitAt e t j) : r1.rules_ = r2.rules_ := by
  obtain ⟨a4, _, arows⟩ := h1
  obtain ⟨b4, _, brows⟩ := h2
  refine List.ext_getElem (a4.trans b4.symm) ?_
  intro n hn1 hn2
  obtain ⟨al, abs⟩ := arows _ (List.getElem_mem hn1)
  obtain ⟨bl, bbs⟩ := brows _ (List.getElem_mem hn2)
  refine List.ext_getElem (al.trans bl.symm) ?_
  intro s hs1 hs2
  have al2 := abs _ (List.getElem_mem hs1)
  have bl2 := bbs _ (List.getElem_mem hs2)
  refine List.ext_getElem (al2.trans bl2.symm) ?_
  intro j hj1 hj2
  have hn4 : n < 4 := a4 ▸ hn1
  obtain ⟨e, he⟩ : ∃ e : WaveDirection, e.toNat = n := by
    rcases n with _ | _ | _ | _ | n
    · exact ⟨.UP, rfl⟩
    · exact ⟨.DOWN, rfl⟩
    · exact ⟨.LEFT, rfl⟩
    · exact ⟨.RIGHT, rfl⟩
    · omega
  have := h e s j
  simp only [RuleSet.bitAt, he, List.getD_eq_getElem?_getD, List.getElem?_eq_getElem hn1,
    List.getElem?_eq_getElem hn2, List.getElem?_eq_getElem hs1, List.getElem?_eq_getElem hs2,
    List.getElem?_eq_getElem hj1, List.getElem?_eq_getElem hj2, Option.getD_some] at this
  exact this

/-! ### Weights -/

/-- The weight loop always returns normally; it rewrites every weight and nothing else. -/
theorem RuleSetBuilder.updateWeights_spec (b : RuleSetBuilder) :
    ∃ b2, b.updateWeights = .ok b2 ∧ b2.rules_.rules_ = b.rules_.rules_ ∧
      b2.rules_.states_ = b.rules_.states_ ∧ b2.counts_ = b.counts_ ∧
      b2.processedTiles_ = b.processedTiles_ ∧
      b2.rules_.weights_.length = b.rules_.weights_.length ∧ b2.WeightsCurrent := by
  have key := forLoop_ok
    (fun i (c : RuleSetBuilder) =>
      (c.rules_.setWeight (floatQuotient (c.counts_ i) c.processedTiles_) i).bind fun r =>
        Outcome.ok { c with rules_ := r })
    (fun k c => c.rules_.rules_ = b.rules_.rules_ ∧ c.rules_.states_ = b.rules_.states_ ∧
      c.counts_ = b.counts_ ∧ c.processedTiles_ = b.processedTiles_ ∧
      c.rules_.weights_.length = b.rules_.weights_.length ∧
      ∀ i, i < k → c.rules_.weights_[i]? = some (floatQuotient (c.counts_ i) c.processedTiles_))
    b.rules_.numStates b ⟨rfl, rfl, rfl, rfl, rfl, fun i hi => absurd hi (Nat.not_lt_zero i)⟩ ?_
  · obtain ⟨b2, hb2, h1, h2, h3, h4, h5, h6⟩ := key
    refine ⟨b2, hb2, h1, h2, h3, h4, h5, ?_⟩
    intro i hi
    exact h6 i (by simpa [RuleSet.numStates, h5] using hi)
  · intro j hj c ⟨h1, h2, h3, h4, h5, h6⟩
    have hjl : j < c.rules_.weights_.length := by simpa [RuleSet.numStates, h5] using hj
    have hset : ((c.rules_.setWeight (floatQuotient (c.counts_ j) c.processedTiles_) j).bind
        fun r => Outcome.ok { c with rules_ := r }) =
        .ok { c with rules_ := { c.rules_ with
          weights_ := c.rules_.weights_.set j (floatQuotient (c.counts_ j) c.processedTiles_) } } := by
      simp only [RuleSet.setWeight, vecSet, hjl, if_true, Outcome.ok_bind]
    refine ⟨_, hset, h1, h2, h3, h4, by simpa using h5, ?_⟩
    intro i hi
    simp only [List.getElem?_set]
    by_cases hji : j = i
    · subst hji
      simp [hjl]
    · rw [if_neg hji]
      rcases Nat.lt_succ_iff_lt_or_eq.1 hi with hi | rfl
      · exact h6 i hi
      · exact absurd rfl hji

theorem RuleSetBuilder.ext_of {b1 b2 : RuleSetBuilder} (hr : b1.rules_.rules_ = b2.rules_.rules_)
    (hw : b1.rules_.weights_ = b2.rules_.weights_) (hs : b1.rules_.states_ = b2.rules_.states_)
    (hc : b1.counts_ = b2.counts_) (hp : b1.processedTiles_ = b2.processedTiles_) :
    b1 = b2 := by
  obtain ⟨⟨s1, w1, r1⟩, c1, p1⟩ := b1
  obtain ⟨⟨s2, w2, r2⟩, c2, p2⟩ := b2
  simp only at hr hw hs hc hp
  subst hr hw hs hc hp
  rfl

theorem RuleSetBuilder.WeightsCurrent.weights_eq {b1 b2 : RuleSetBuilder}
    (h1 : b1.WeightsCurrent) (h2 : b2.WeightsCurrent)
    (hl : b1.rules_.weights_.length = b2.rules_.weights_.length)
    (hc : b1.counts_ = b2.counts_) (hp : b1.processedTiles_ = b2.processedTiles_) :
    b1.rules_.weights_ = b2.rules_.weights_ := by
  refine List.ext_getElem? ?_
  intro i
  by_cases hi : i < b1.rules_.weights_.length
  · rw [h1 i hi, h2 i (hl ▸ hi), hc, hp]
  · rw [List.getElem?_eq_none (Nat.le_of_not_lt hi),
      List.getElem?_eq_none (hl ▸ Nat.le_of_not_lt hi)]

/-! ### Rounding to binary32 -/

theorem roundHalfEven_intCast (z : ℤ) : roundHalfEven (z : ℚ) = z := by
  simp [roundHalfEven]

/-- The binary exponent of a positive rational number is fixed by its two bounds. -/
theorem log2_eq_of_bounds {q : ℚ} {e : ℤ} (hq : 0 < q) (h1 : (2 : ℚ) ^ e ≤ q)
    (h2 : q < (2 : ℚ) ^ (e + 1)) : Int.log 2 q = e := by
  have a : e ≤ Int.log 2 q := (Int.zpow_le_iff_le_log (by norm_num) hq).1 (by exact_mod_cast h1)
  have b : Int.log 2 q < e + 1 := (Int.lt_zpow_iff_log_lt (by norm_num) hq).1 (by exact_mod_cast h2)
  omega

theorem log2_two_mul {q : ℚ} (hq : 0 < q) : Int.log 2 (2 * q) = Int.log 2 q + 1 := by
  have h1 : ((2 : ℕ) : ℚ) ^ Int.log 2 q ≤ q := Int.zpow_log_le_self (by norm_num) hq
  have h2 : q < ((2 : ℕ) : ℚ) ^ (Int.log 2 q + 1) := Int.lt_zpow_succ_log_self (by norm_num) q
  push_cast at h1 h2
  have h2q : (0 : ℚ) < 2 * q := by positivity
  refine log2_eq_of_bounds h2q ?_ ?_
  · rw [zpow_add_one₀ (by norm_num : (2 : ℚ) ≠ 0)]
    linarith
  · rw [zpow_add_one₀ (by norm_num : (2 : ℚ) ≠ 0) (Int.log 2 q + 1)]
    linarith

theorem roundBinary32_two_mul (q : ℚ) : roundBinary32 (2 * q) = 2 * roundBinary32 q := by
  unfold roundBinary32
  by_cases h : q = 0
  · simp [h]
  · have hq : 0 < |q| := abs_pos.2 h
    have h2 : (2 : ℚ) * q ≠ 0 := mul_ne_zero (by norm_num) h
    rw [if_neg h, if_neg h2, abs_mul, abs_two, log2_two_mul hq]
    have e : Int.log 2 |q| + 1 - 23 = (Int.log 2 |q| - 23) + 1 := by ring
    rw [e, zpow_add_one₀ (by norm_num : (2 : ℚ) ≠ 0)]
    have e2 : 2 * q / (2 ^ (Int.log 2 |q| - 23) * 2) = q / 2 ^ (Int.log 2 |q| - 23) := by
      field_simp
      ring
    rw [e2]
    ring

theorem roundBinary32_of_bounds {q : ℚ} (e z : ℤ) (hq : 0 < q) (h1 : (2 : ℚ) ^ e ≤ q)
    (h2 : q < (2 : ℚ) ^ (e + 1)) (hz : roundHalfEven (q / 2 ^ (e - 23)) = z) :
    roundBinary32 q = z * 2 ^ (e - 23) := by
  unfold roundBinary32
  rw [if_neg (ne_of_gt hq), abs_of_pos hq, log2_eq_of_bounds hq h1 h2, hz]

theorem roundHalfEven_up {x : ℚ} (f : ℤ) (h1 : (f : ℚ) ≤ x) (h2 : x < f + 1)
    (h3 : 1 / 2 < x - f) : roundHalfEven x = f + 1 := by
  have hf : ⌊x⌋ = f := Int.floor_eq_iff.2 ⟨h1, h2⟩
  unfold roundHalfEven
  rw [hf, if_neg (not_lt.2 (le_of_lt h3)), if_pos h3]

theorem roundHalfEven_down {x : ℚ} (f : ℤ) (h1 : (f : ℚ) ≤ x) (h2 : x < f + 1)
    (h3 : x - f < 1 / 2) : roundHalfEven x = f := by
  have hf : ⌊x⌋ = f := Int.floor_eq_iff.2 ⟨h1, h2⟩
  unfold roundHalfEven
  rw [hf, if_pos h3]

theorem roundBinary32_natCast {n : ℕ} (h : n < 2 ^ 24) : roundBinary32 (n : ℚ) = n := by
  rcases Nat.eq_zero_or_pos n with h0 | h0
  · subst h0
    simp [roundBinary32]
  · have hq : (0 : ℚ) < n := by exact_mod_cast h0
    have hl : Nat.log 2 n ≤ 23 := by
      have := Nat.log_lt_of_lt_pow (Nat.pos_iff_ne_zero.1 h0) h
      omega
    unfold roundBinary32
    rw [if_neg (ne_of_gt hq), abs_of_pos hq, Int.log_natCast]
    have e : ((Nat.log 2 n : ℕ) : ℤ) - 23 = -((23 - Nat.log 2 n : ℕ) : ℤ) := by omega
    rw [e, zpow_neg, zpow_natCast]
    have e2 : (n : ℚ) / (2 ^ (23 - Nat.log 2 n))⁻¹ = ((n * 2 ^ (23 - Nat.log 2 n) : ℤ) : ℚ) := by
      push_cast
      field_simp
    rw [e2, roundHalfEven_intCast]
    push_cast
    field_simp

theorem floatQuotient_double (c p : ℕ) : floatQuotient (c + c) (p + p) = floatQuotient c p := by
  have hc : ((c + c : ℕ) : ℚ) = 2 * (c : ℚ) := by push_cast; ring
  have hp : ((p + p : ℕ) : ℚ) = 2 * (p : ℚ) := by push_cast; ring
  unfold floatQuotient Float32.div
  rw [hc, hp, roundBinary32_two_mul, roundBinary32_two_mul]
  have e : 2 * roundBinary32 (c : ℚ) / (2 * roundBinary32 (p : ℚ)) = roundBinary32 c / roundBinary32 p := by
    rw [mul_div_mul_left _ _ (by norm_num : (2 : ℚ) ≠ 0)]
  rw [e]
  simp

theorem floatQuotient_of_small {c p : ℕ} (hp : p ≠ 0) (hc : c < 2 ^ 24) (hpl : p < 2 ^ 24) :
    floatQuotient c p = .finite (roundBinary32 ((c : ℚ) / (p : ℚ))) := by
  unfold floatQuotient Float32.div
  rw [roundBinary32_natCast hc, roundBinary32_natCast hpl,
    if_neg (by exact_mod_cast hp : ¬ (p : ℚ) = 0)]

theorem floatQuotient_3_5 : floatQuotient 3 5 = .finite (10066330 / 16777216) := by
  have h3 : roundBinary32 ((3 : ℕ) : ℚ) = (3 : ℕ) := roundBinary32_natCast (by norm_num)
  have h5 : roundBinary32 ((5 : ℕ) : ℚ) = (5 : ℕ) := roundBinary32_natCast (by norm_num)
  unfold floatQuotient Float32.div
  rw [h3, h5]
  have hr : roundBinary32 (((3 : ℕ) : ℚ) / ((5 : ℕ) : ℚ)) = 10066330 / 16777216 := by
    rw [roundBinary32_of_bounds (-1) 10066330 (by norm_num) (by norm_num) (by norm_num)
      (by
        have := @roundHalfEven_up (((3 : ℕ) : ℚ) / ((5 : ℕ) : ℚ) / 2 ^ ((-1 : ℤ) - 23)) 10066329
          (by norm_num) (by norm_num) (by norm_num)
        rw [this]; norm_num)]
    norm_num
  rw [hr]
  norm_num

theorem floatQuotient_2_4 : floatQuotient 2 4 = .finite (1 / 2) := by
  have h3 : roundBinary32 ((2 : ℕ) : ℚ) = (2 : ℕ) := roundBinary32_natCast (by norm_num)
  have h5 : roundBinary32 ((4 : ℕ) : ℚ) = (4 : ℕ) := roundBinary32_natCast (by norm_num)
  unfold floatQuotient Float32.div
  rw [h3, h5]
  have hr : roundBinary32 (((2 : ℕ) : ℚ) / ((4 : ℕ) : ℚ)) = 1 / 2 := by
    rw [roundBinary32_of_bounds (-1) 8388608 (by norm_num) (by norm_num) (by norm_num)
      (by
        have e : ((2 : ℕ) : ℚ) / ((4 : ℕ) : ℚ) / 2 ^ ((-1 : ℤ) - 23) = ((8388608 : ℤ) : ℚ) := by
          norm_num
        rw [e, roundHalfEven_intCast])]
    norm_num
  rw [hr]
  norm_num

/-! ### `addInput` -/

/-- The expansion step of `addInput` (lines 141-145). -/
theorem RuleSetBuilder.addInput_prepare {N : Nat} {b : RuleSetBuilder}
    (hs : b.rules_.Shaped N) (grid : WaveGrid) :
    ∃ b1 : RuleSetBuilder,
      (if grid.numStates > b.rules_.numStates then
        { b with rules_ := b.rules_.expandRuleSet grid.numStates } else b) = b1 ∧
      b1.rules_.Shaped (max N grid.numStates_) ∧ b1.rules_.states_ = b.rules_.states_ ∧
      b1.counts_ = b.counts_ ∧ b1.processedTiles_ = b.processedTiles_ ∧
      (∀ e t j, b1.rules_.bitAt e t j = b.rules_.bitAt e t j) ∧
      (grid.numStates_ ≤ N → b1 = b) := by
  have hN : b.rules_.numStates = N := hs.2.1
  simp only [WaveGrid.numStates, hN]
  by_cases h : grid.numStates_ > N
  · obtain ⟨h1, h2, h3⟩ := RuleSet.expandRuleSet_spec hs grid.numStates_ (Nat.le_of_lt h)
    rw [if_pos h, Nat.max_eq_right (Nat.le_of_lt h)]
    exact ⟨_, rfl, h1, h2, rfl, rfl, h3, fun h5 => absurd h (Nat.not_lt.2 h5)⟩
  · rw [if_neg h, Nat.max_eq_left (Nat.le_of_not_lt h)]
    exact ⟨_, rfl, hs, rfl, rfl, rfl, fun _ _ _ => rfl, fun _ => rfl⟩

/-- What `addInput` leaves behind when it returns. -/
theorem RuleSetBuilder.addInput_spec {N : Nat} {b : RuleSetBuilder} (hs : b.rules_.Shaped N)
    (grid : WaveGrid) (p : Bool × RuleSetBuilder) (h : b.addInput grid = .ok p) :
    p.1 = true ∧ RuleSetBuilder.Ingested N b grid p.2 := by
  obtain ⟨b1, hb1, s1, st1, c1, p1, bit1, _⟩ := RuleSetBuilder.addInput_prepare hs grid
  simp only [RuleSetBuilder.addInput, hb1, Outcome.bind_eq_ok] at h
  obtain ⟨b2, h2, b3, h3, hp⟩ := h
  injection hp with hp
  subst hp
  obtain ⟨e2, ok2⟩ := RuleSetBuilder.scanGrid_spec s1 grid h2
  obtain ⟨b4, h4, r4, st4, c4, p4, l4, w4⟩ := RuleSetBuilder.updateWeights_spec b2
  rw [h3] at h4
  injection h4 with h4
  subst h4
  refine ⟨rfl, ?_, ?_, ?_, ?_, ?_, w4, ok2⟩
  · exact ⟨r4 ▸ e2.shaped.1, l4.trans e2.shaped.2.1, r4 ▸ e2.shaped.2.2⟩
  · exact st4.trans (e2.states.trans st1)
  · exact p4.trans (e2.processed.trans (by rw [p1]))
  · intro s
    show b3.counts_ s = _
    rw [c4, e2.counts, c1]
  · intro e t j
    have : b3.rules_.bitAt e t j = b2.rules_.bitAt e t j := by
      simp only [RuleSet.bitAt, r4]
    show b3.rules_.bitAt e t j = true ↔ _
    rw [this, e2.bits, bit1]

/-- The call `addInput(grid)` returns, with the flag `true`, when every access of its scan
is in range. -/
theorem RuleSetBuilder.addInput_ok {N : Nat} {b : RuleSetBuilder} (hs : b.rules_.Shaped N)
    (grid : WaveGrid) (h : grid.ScanOK (max N grid.numStates_)) :
    ∃ b2, b.addInput grid = .ok (true, b2) := by
  obtain ⟨b1, hb1, s1, _⟩ := RuleSetBuilder.addInput_prepare hs grid
  obtain ⟨b2, h2⟩ := RuleSetBuilder.scanGrid_ok s1 grid h
  obtain ⟨b3, h3, _⟩ := RuleSetBuilder.updateWeights_spec b2
  exact ⟨b3, by simp only [RuleSetBuilder.addInput, hb1, h2, Outcome.ok_bind, h3]⟩

/-- Two builders with the same dimension, bits, counts and total, both with current
weights, are the same builder. -/
theorem RuleSetBuilder.eq_of_view {b1 b2 : RuleSetBuilder} {M : Nat}
    (s1 : b1.rules_.Shaped M) (s2 : b2.rules_.Shaped M)
    (hst : b1.rules_.states_ = b2.rules_.states_)
    (hp : b1.processedTiles_ = b2.processedTiles_)
    (hc : ∀ s, b1.counts_ s = b2.counts_ s)
    (hb : ∀ e t j, b1.rules_.bitAt e t j = true ↔ b2.rules_.bitAt e t j = true)
    (w1 : b1.WeightsCurrent) (w2 : b2.WeightsCurrent) : b1 = b2 := by
  have hc2 : b1.counts_ = b2.counts_ := funext hc
  refine RuleSetBuilder.ext_of (RuleSet.rules_ext s1 s2 ?_)
    (w1.weights_eq w2 (s1.2.1.trans s2.2.1.symm) hc2 hp) hst hc2 hp
  intro e t j
  exact Bool.eq_iff_iff.2 (hb e t j)

/-! ### Grids -/

theorem WaveGrid.getTile_eq_ok {g : WaveGrid} {x y t : Nat} :
    g.getTile x y = .ok t ↔ (x < g.width_ ∧ y < g.height_) ∧ g.data_[y * g.width_ + x]? = some t := by
  unfold WaveGrid.getTile
  split
  · rename_i h
    simp [vecGet_eq_ok, h]
  · rename_i h
    simp [h]

theorem WaveGrid.getTile_mem {g : WaveGrid} {x y t : Nat} (h : g.getTile x y = .ok t) :
    t ∈ g.data_ :=
  List.getElem?_mem (WaveGrid.getTile_eq_ok.1 h).2

theorem WaveGrid.index_lt {w h x y : Nat} (hx : x < w) (hy : y < h) : y * w + x < w * h := by
  calc y * w + x < y * w + w := Nat.add_lt_add_left hx _
    _ = (y + 1) * w := (Nat.succ_mul y w).symm
    _ ≤ h * w := Nat.mul_le_mul_right w hy
    _ = w * h := Nat.mul_comm h w

theorem WaveGrid.getTile_ok {g : WaveGrid} (hl : g.data_.length = g.width_ * g.height_)
    {x y : Nat} (hx : x < g.width_) (hy : y < g.height_) :
    ∃ t, g.getTile x y = .ok t ∧ t ∈ g.data_ := by
  have hi : y * g.width_ + x < g.data_.length := hl ▸ WaveGrid.index_lt hx hy
  refine ⟨g.data_[y * g.width_ + x], ?_, List.getElem_mem hi⟩
  exact WaveGrid.getTile_eq_ok.2 ⟨⟨hx, hy⟩, List.getElem?_eq_getElem hi⟩

theorem tileState_of_pos {t : Nat} (h1 : 1 ≤ t) (h2 : t < 2 ^ 32) : tileState t = t - 1 := by
  unfold tileState
  omega

theorem tileState_zero : tileState 0 = 2 ^ 32 - 1 := by
  unfold tileState
  omega

/-- For a tile of a well-formed grid, whether its state indexes a rule set of
dimension `N` does not depend on `N`. -/
theorem tileState_lt_iff {t n N : Nat} (ht : t ≤ n) (hn : n < 2 ^ 31) (hN : n ≤ N)
    (hN2 : N < 2 ^ 31) : tileState t < N ↔ 1 ≤ t := by
  unfold tileState
  omega

theorem WaveGrid.NbrOK_iff {g : WaveGrid} (hv : g.Valid) {N : Nat} (hN : g.numStates_ ≤ N)
    (hN2 : N < 2 ^ 31) (c : Prop) {t : Nat} (ht : t ∈ g.data_) (nx ny : Nat) :
    g.NbrOK N c t nx ny ↔ (c → 1 ≤ t ∧ ∃ n, g.getTile nx ny = .ok n ∧ 1 ≤ n) := by
  obtain ⟨_, hn, htiles⟩ := hv
  unfold WaveGrid.NbrOK
  refine imp_congr_right fun _ => and_congr (tileState_lt_iff (htiles t ht) hn hN hN2) ?_
  refine exists_congr fun n => and_congr_right fun hget => ?_
  exact tileState_lt_iff (htiles n (WaveGrid.getTile_mem hget)) hn hN hN2

/-- Whether the scan of a well-formed grid runs without fault does not depend on the
dimension of the rule set, once the rule set has room for the grid's states. -/
theorem WaveGrid.ScanOK_congr {g : WaveGrid} (hv : g.Valid) {N M : Nat}
    (hN : g.numStates_ ≤ N) (hN2 : N < 2 ^ 31) (hM : g.numStates_ ≤ M) (hM2 : M < 2 ^ 31) :
    g.ScanOK N ↔ g.ScanOK M := by
  unfold WaveGrid.ScanOK WaveGrid.CellOK
  refine forall_congr' fun y => imp_congr_right fun _ => forall_congr' fun x =>
    imp_congr_right fun _ => exists_congr fun t => and_congr_right fun hget => ?_
  have ht := WaveGrid.getTile_mem hget
  rw [WaveGrid.NbrOK_iff hv hN hN2 _ ht, WaveGrid.NbrOK_iff hv hN hN2 _ ht,
    WaveGrid.NbrOK_iff hv hN hN2 _ ht, WaveGrid.NbrOK_iff hv hN hN2 _ ht,
    WaveGrid.NbrOK_iff hv hM hM2 _ ht, WaveGrid.NbrOK_iff hv hM hM2 _ ht,
    WaveGrid.NbrOK_iff hv hM hM2 _ ht, WaveGrid.NbrOK_iff hv hM hM2 _ ht]

/-- The scan of a well-formed square grid without tile 0 runs without fault. -/
theorem WaveGrid.ScanOK_of_square {g : WaveGrid} (hv : g.Valid) (hsq : g.width_ = g.height_)
    (hpos : ∀ t ∈ g.data_, 1 ≤ t) {N : Nat} (hN : g.numStates_ ≤ N) : g.ScanOK N := by
  obtain ⟨hl, hn, htiles⟩ := hv
  have hst : ∀ t ∈ g.data_, tileState t < N := by
    intro t ht
    have h1 := hpos t ht
    have h2 := htiles t ht
    unfold tileState
    omega
  have nbr : ∀ (c : Prop) (t nx ny : Nat), t ∈ g.data_ → (c → nx < g.width_ ∧ ny < g.height_) →
      g.NbrOK N c t nx ny := by
    intro c t nx ny ht hc hcc
    obtain ⟨n, hn1, hn2⟩ := WaveGrid.getTile_ok hl (hc hcc).1 (hc hcc).2
    exact ⟨hst t ht, n, hn1, hst n hn2⟩
  intro y hy x hx
  have hx2 : x < g.width_ := hsq ▸ hx
  have hy2 : y < g.height_ := hsq ▸ hy
  obtain ⟨t, ht1, ht2⟩ := WaveGrid.getTile_ok hl hx2 hy2
  refine ⟨t, ht1, nbr _ _ _ _ ht2 ?_, nbr _ _ _ _ ht2 ?_, nbr _ _ _ _ ht2 ?_, nbr _ _ _ _ ht2 ?_⟩
  · intro _
    exact ⟨hx2, by omega⟩
  · intro _
    exact ⟨by omega, hy2⟩
  · intro _
    exact ⟨hx2, by omega⟩
  · intro _
    exact ⟨by omega, hy2⟩

/-- The scan of a non-empty grid runs without fault only if the grid is square. -/
theorem WaveGrid.square_of_ScanOK {g : WaveGrid} {N : Nat} (h : g.ScanOK N)
    (hw : 0 < g.width_) (hh : 0 < g.height_) : g.width_ = g.height_ := by
  rcases Nat.lt_trichotomy g.width_ g.height_ with hlt | heq | hgt
  · obtain ⟨t, ht, _⟩ := h 0 hw g.width_ hlt
    exact absurd (WaveGrid.getTile_eq_ok.1 ht).1.1 (Nat.lt_irrefl _)
  · exact heq
  · obtain ⟨t, ht, _⟩ := h g.height_ hgt 0 hh
    exact absurd (WaveGrid.getTile_eq_ok.1 ht).1.2 (Nat.lt_irrefl _)

theorem WaveGrid.scanCount_of_square {g : WaveGrid} (hsq : g.width_ = g.height_) (s : Nat) :
    g.scanCount s = g.occurrences s := by
  unfold WaveGrid.scanCount WaveGrid.occurrences
  rw [hsq]

theorem WaveGrid.scanCount_eq_occurrences {g : WaveGrid} {N : Nat} (h : g.ScanOK N) (s : Nat) :
    g.scanCount s = g.occurrences s := by
  rcases Nat.eq_zero_or_pos g.width_ with hw | hw
  · simp [WaveGrid.scanCount, WaveGrid.occurrences, hw]
  · rcases Nat.eq_zero_or_pos g.height_ with hh | hh
    · simp [WaveGrid.scanCount, WaveGrid.occurrences, hh]
    · exact WaveGrid.scanCount_of_square (WaveGrid.square_of_ScanOK h hw hh) s

theorem RuleSet.create_shaped : RuleSet.create.Shaped 0 := by
  refine ⟨rfl, rfl, ?_⟩
  intro v hv
  simp only [RuleSet.create, List.mem_cons, List.mem_singleton, List.not_mem_nil, or_false,
    or_self] at hv
  subst hv
  exact ⟨rfl, fun _ h => absurd h (List.not_mem_nil _)⟩

theorem RuleSetBuilder.create_weightsCurrent : RuleSetBuilder.create.WeightsCurrent :=
  fun i hi => absurd hi (Nat.not_lt_zero i)

/-- What a sequence of `addInput` calls leaves behind when every call returns. -/
theorem RuleSetBuilder.addInputs_spec (gs : List WaveGrid) :
    ∀ {N : Nat} {b0 : RuleSetBuilder}, b0.rules_.Shaped N → b0.WeightsCurrent →
    ∀ b, b0.addInputs gs = .ok b →
      b.rules_.Shaped (gs.foldl (fun m g => max m g.numStates_) N) ∧ b.WeightsCurrent ∧
        b.rules_.states_ = b0.rules_.states_ ∧
        b.processedTiles_ = b0.processedTiles_ + (gs.map fun g => g.width_ * g.height_).sum ∧
        (∀ s, b.counts_ s = b0.counts_ s + (gs.map fun g => g.occurrences s).sum) ∧
        (∀ e t j, b.rules_.bitAt e t j = true ↔
          (b0.rules_.bitAt e t j = true ∨ ∃ g, g ∈ gs ∧ g.ScanMarks e t j)) := by
  induction gs with
  | nil =>
    intro N b0 hs hw b h
    simp only [RuleSetBuilder.addInputs] at h
    injection h with h
    subst h
    exact ⟨hs, hw, rfl, by simp, fun s => by simp, fun _ _ _ => by simp⟩
  | cons g gs ih =>
    intro N b0 hs hw b h
    simp only [RuleSetBuilder.addInputs, Outcome.bind_eq_ok] at h
    obtain ⟨p, hp, hb⟩ := h
    obtain ⟨_, ing⟩ := RuleSetBuilder.addInput_spec hs g p hp
    obtain ⟨sM, wM, stM, pM, cM, bM⟩ := ih ing.shaped ing.weights b hb
    refine ⟨sM, wM, stM.trans ing.states, ?_, ?_, ?_⟩
    · rw [pM, ing.processed, List.map_cons, List.sum_cons, Nat.add_assoc]
    · intro s
      rw [cM, ing.counts, WaveGrid.scanCount_eq_occurrences ing.scanned, List.map_cons,
        List.sum_cons, Nat.add_assoc]
    · intro e t j
      rw [bM, ing.bits]
      simp only [List.mem_cons, exists_eq_or_imp, or_assoc]

theorem foldl_max_le (gs : List WaveGrid) :
    ∀ N, N ≤ gs.foldl (fun m g => max m g.numStates_) N := by
  induction gs with
  | nil => exact fun N => Nat.le_refl N
  | cons g gs ih => exact fun N => Nat.le_trans (Nat.le_max_left _ _) (ih _)

/-- A sequence of `addInput` calls on well-formed grids returns exactly when the scan of
every grid runs without fault in a rule set of the grid's own state count. -/
theorem RuleSetBuilder.addInputs_ok_iff (gs : List WaveGrid) (hv : ∀ g ∈ gs, g.Valid) :
    ∀ {N : Nat} {b0 : RuleSetBuilder}, b0.rules_.Shaped N → N < 2 ^ 31 →
      ((∃ b, b0.addInputs gs = .ok b) ↔ ∀ g ∈ gs, g.ScanOK g.numStates_) := by
  induction gs with
  | nil =>
    intro N b0 _ _
    simp [RuleSetBuilder.addInputs]
  | cons g gs ih =>
    intro N b0 hs hN
    have hg := hv g (List.mem_cons_self g gs)
    have hM : max N g.numStates_ < 2 ^ 31 := Nat.max_lt.2 ⟨hN, hg.2.1⟩
    have hcongr := WaveGrid.ScanOK_congr hg (Nat.le_max_right N g.numStates_) hM
      (Nat.le_refl _) hg.2.1
    have ih2 := fun {b1 : RuleSetBuilder} (h1 : b1.rules_.Shaped (max N g.numStates_)) =>
      @ih (fun g2 h2 => hv g2 (List.mem_cons_of_mem g h2)) _ b1 h1 hM
    simp only [RuleSetBuilder.addInputs, Outcome.bind_eq_ok, List.forall_mem_cons]
    constructor
    · rintro ⟨b, p, hp, hb⟩
      obtain ⟨_, ing⟩ := RuleSetBuilder.addInput_spec hs g p hp
      exact ⟨hcongr.1 ing.scanned, (ih2 ing.shaped).1 ⟨b, hb⟩⟩
    · rintro ⟨h1, h2⟩
      obtain ⟨b1, hb1⟩ := RuleSetBuilder.addInput_ok hs g (hcongr.2 h1)
      obtain ⟨_, ing⟩ := RuleSetBuilder.addInput_spec hs g _ hb1
      obtain ⟨b, hb⟩ := (ih2 ing.shaped).2 h2
      exact ⟨b, _, hb1, hb⟩

/-- A sequence of `addInput` calls returns when every grid is well formed, square and
without tile 0. -/
theorem RuleSetBuilder.addInputs_ok (gs : List WaveGrid)
    (hgs : ∀ g ∈ gs, g.Valid ∧ g.width_ = g.height_ ∧ ∀ t ∈ g.data_, 1 ≤ t) :
    ∀ {N : Nat} {b0 : RuleSetBuilder}, b0.rules_.Shaped N → ∃ b, b0.addInputs gs = .ok b := by
  induction gs with
  | nil => exact fun {_ b0} _ => ⟨b0, rfl⟩
  | cons g gs ih =>
    intro N b0 hs
    obtain ⟨hv, hsq, hpos⟩ := hgs g (List.mem_cons_self g gs)
    obtain ⟨b1, h1⟩ := RuleSetBuilder.addInput_ok hs g
      (WaveGrid.ScanOK_of_square hv hsq hpos (Nat.le_max_right _ _))
    obtain ⟨_, ing⟩ := RuleSetBuilder.addInput_spec hs g _ h1
    obtain ⟨b, hb⟩ := ih (fun g2 h2 => hgs g2 (List.mem_cons_of_mem g h2)) ing.shaped
    exact ⟨b, by simp only [RuleSetBuilder.addInputs, h1, Outcome.ok_bind, hb]⟩

/-- Reading a bit-set through the builder's accessor. -/
theorem RuleSetBuilder.getRule_of_shaped {b : RuleSetBuilder} {N : Nat}
    (hs : b.rules_.Shaped N) (d : WaveDirection) {s : Nat} (h : s < N) :
    ∃ bs, b.getRule s d = .ok bs ∧ bs.length = N ∧
      ∀ j, j < N → bs[j]? = some (b.rules_.bitAt d s j) := by
  obtain ⟨h4, _, hrows⟩ := hs
  have hd : d.toNat < b.rules_.rules_.length := h4 ▸ d.toNat_lt
  obtain ⟨hvl, hbs⟩ := hrows _ (List.getElem_mem hd)
  have hsl : s < b.rules_.rules_[d.toNat].length := hvl ▸ h
  have hrl := hbs _ (List.getElem_mem hsl)
  refine ⟨b.rules_.rules_[d.toNat][s], ?_, hrl, ?_⟩
  · simp only [RuleSetBuilder.getRule, RuleSet.dirRules, vecGet, List.getElem?_eq_getElem hd,
      Outcome.ok_bind, List.getElem?_eq_getElem hsl]
  · intro j hj
    have hjl : j < b.rules_.rules_[d.toNat][s].length := hrl ▸ hj
    simp only [RuleSet.bitAt, List.getD_eq_getElem?_getD, List.getElem?_eq_getElem hd,
      List.getElem?_eq_getElem hsl, List.getElem?_eq_getElem hjl, Option.getD_some]

/-! ### Claims about `addInput` -/

/-- C1 (fails on the code): on the non-square 1 x 2 sample with rows [1] and [2], all ids
at least 1, `addInput` on a fresh builder does not return a rule set. Its loops run `y`
below the width and `x` below the height, so the second iteration asks for the tile at
(1, 0), outside the one-column grid, and the call ends in the out-of-bounds failure of
`getTile`; the same happens on the 2 x 1 sample with the row [1, 2]. -/
theorem addInput_non_square_out_of_bounds :
    ((WaveGrid.wrap 1 2 [1, 2]).bind fun g =>
        (RuleSetBuilder.create.addInput g).bind fun p => .ok p.1) = .outOfBounds ∧
    ((WaveGrid.wrap 2 1 [1, 2]).bind fun g =>
        (RuleSetBuilder.create.addInput g).bind fun p => .ok p.1) = .outOfBounds := by
  decide

/-- C2 (fails on the code): a weight is a `float`, and the quotient of line 135 is rounded
to binary32. After `addInput` of the 2 x 2 sample with rows [1, 2] and [2, 1] and of the
1 x 1 sample [1] on a fresh builder, state 0 has 3 occurrences among 5 processed tiles,
and the weight stored for it is 10066330 / 16777216 (0.600000023841858), not the ratio
3/5. -/
theorem addInputs_weight_not_exact_ratio :
    WaveGrid.wrap 2 2 [1, 2, 2, 1] = .ok ⟨2, 2, [1, 2, 2, 1], 3⟩ ∧
      WaveGrid.wrap 1 1 [1] = .ok ⟨1, 1, [1], 2⟩ ∧
      ∃ b, RuleSetBuilder.create.addInputs [⟨2, 2, [1, 2, 2, 1], 3⟩, ⟨1, 1, [1], 2⟩] = .ok b ∧
        b.counts_ 0 = 3 ∧ b.processedTiles_ = 5 ∧
        b.rules_.getWeight 0 = .ok (.finite (10066330 / 16777216)) ∧
        b.rules_.getWeight 0 ≠ .ok (.finite (3 / 5)) := by
  obtain ⟨b, hb⟩ := @RuleSetBuilder.addInputs_ok
    [⟨2, 2, [1, 2, 2, 1], 3⟩, ⟨1, 1, [1], 2⟩] (by decide) 0 RuleSetBuilder.create
    RuleSet.create_shaped
  obtain ⟨_, wM, _, _, _, _⟩ :=
    RuleSetBuilder.addInputs_spec _ RuleSet.create_shaped
      RuleSetBuilder.create_weightsCurrent b hb
  have e : ((RuleSetBuilder.create.addInputs [⟨2, 2, [1, 2, 2, 1], 3⟩, ⟨1, 1, [1], 2⟩]).bind
      fun b => Outcome.ok (b.counts_ 0, b.processedTiles_, b.rules_.numStates)) =
      .ok (3, 5, 3) := by decide
  rw [hb] at e
  injection e with e
  simp only [Prod.mk.injEq] at e
  obtain ⟨c0, pt, ns⟩ := e
  have c0 : b.counts_ 0 = 3 := c0
  have pt : b.processedTiles_ = 5 := pt
  have ns : b.rules_.weights_.length = 3 := ns
  have w0 := wM 0 (by omega)
  rw [c0, pt, floatQuotient_3_5] at w0
  have hw : b.rules_.getWeight 0 = .ok (.finite (10066330 / 16777216)) := vecGet_eq_ok.2 w0
  refine ⟨by decide, by decide, b, hb, c0, pt, hw, ?_⟩
  rw [hw]
  intro h
  injection h with h
  injection h with h
  norm_num at h

/-- C2 as amended: after a sequence of `addInput` calls with non-empty grids on a fresh
builder that all returned, the weight stored for every state `s` below the rule set's state
count is the `float` quotient of count[s] and processedTiles, where count[s] is the number
of cells of state `s` in all the grids ingested and processedTiles the number of all their
cells: both integers are converted to `float` and divided. When both are below 2^24 (and
the total is not 0) the conversions are exact and the weight is the ratio
count[s] / processedTiles rounded to the nearest binary32 value, ties to even. -/
theorem addInputs_weight_is_float_quotient (gs : List WaveGrid)
    (_hgs : ∀ g ∈ gs, 0 < g.width_ ∧ 0 < g.height_) (b : RuleSetBuilder)
    (h : RuleSetBuilder.create.addInputs gs = .ok b) (s : Nat) (hs : s < b.rules_.numStates) :
    b.rules_.getWeight s =
        .ok (floatQuotient (gs.map fun g => g.occurrences s).sum
          (gs.map fun g => g.width_ * g.height_).sum) ∧
      b.counts_ s = (gs.map fun g => g.occurrences s).sum ∧
      b.processedTiles_ = (gs.map fun g => g.width_ * g.height_).sum ∧
      (b.processedTiles_ ≠ 0 → b.counts_ s < 2 ^ 24 → b.processedTiles_ < 2 ^ 24 →
        b.rules_.getWeight s =
          .ok (.finite (roundBinary32 ((b.counts_ s : ℚ) / (b.processedTiles_ : ℚ))))) := by
  obtain ⟨_, wM, _, pM, cM, _⟩ :=
    RuleSetBuilder.addInputs_spec gs RuleSet.create_shaped
      RuleSetBuilder.create_weightsCurrent b h
  have hp : b.processedTiles_ = (gs.map fun g => g.width_ * g.height_).sum := by
    rw [pM]
    simp [RuleSetBuilder.create]
  have hc : b.counts_ s = (gs.map fun g => g.occurrences s).sum := by
    rw [cM]
    simp [RuleSetBuilder.create]
  refine ⟨?_, hc, hp, ?_⟩
  · rw [← hc, ← hp]
    exact vecGet_eq_ok.2 (wM s hs)
  · intro h0 h1 h2
    rw [← floatQuotient_of_small h0 h1 h2]
    exact vecGet_eq_ok.2 (wM s hs)

/-- Witness for C2 as amended: the 2 x 2 sample with rows [1, 2] and [2, 1], then the
1 x 1 sample [1]; state 0 has 3 occurrences among 5 tiles. -/
theorem addInputs_weight_is_float_quotient_witness :
    ∃ b, RuleSetBuilder.create.addInputs [⟨2, 2, [1, 2, 2, 1], 3⟩, ⟨1, 1, [1], 2⟩] = .ok b ∧
      b.rules_.getWeight 0 =
        .ok (floatQuotient
          ([⟨2, 2, [1, 2, 2, 1], 3⟩, ⟨1, 1, [1], 2⟩].map fun g => WaveGrid.occurrences g 0).sum
          ([⟨2, 2, [1, 2, 2, 1], 3⟩, ⟨1, 1, [1], 2⟩].map
            fun g => WaveGrid.width_ g * WaveGrid.height_ g).sum) := by
  obtain ⟨b, hb⟩ := @RuleSetBuilder.addInputs_ok
    [⟨2, 2, [1, 2, 2, 1], 3⟩, ⟨1, 1, [1], 2⟩] (by decide) 0 RuleSetBuilder.create
    RuleSet.create_shaped
  have hn : ((RuleSetBuilder.create.addInputs
      [⟨2, 2, [1, 2, 2, 1], 3⟩, ⟨1, 1, [1], 2⟩]).bind
        fun b => Outcome.ok b.rules_.numStates) = .ok 3 := by decide
  rw [hb] at hn
  injection hn with hn
  exact ⟨b, hb, (addInputs_weight_is_float_quotient _ (by decide) b hb 0 (by omega)).1⟩

/-- C3: compiling the 2 x 2 sample with rows [1, 2] and [2, 1] into a fresh builder
returns `true` and leaves a rule set in which the RIGHT bit-set of tile 1 (state
index 0) has the bit of tile 2 (state index 1) set, the LEFT bit-set of tile 2 has the
bit of tile 1 set, and the weights of tiles 1 and 2 are both 1/2. -/
theorem addInput_checkerboard_scenario :
    ∃ g b, WaveGrid.wrap 2 2 [1, 2, 2, 1] = .ok g ∧
      RuleSetBuilder.create.addInput g = .ok (true, b) ∧
      (∃ bs, b.getRule 0 .RIGHT = .ok bs ∧ bs[1]? = some true) ∧
      (∃ bs, b.getRule 1 .LEFT = .ok bs ∧ bs[0]? = some true) ∧
      b.rules_.getWeight 0 = .ok (.finite (1 / 2)) ∧
      b.rules_.getWeight 1 = .ok (.finite (1 / 2)) := by
  have hv : (⟨2, 2, [1, 2, 2, 1], 3⟩ : WaveGrid).Valid := by decide
  obtain ⟨b, hb⟩ := @RuleSetBuilder.addInput_ok 0 RuleSetBuilder.create RuleSet.create_shaped
    ⟨2, 2, [1, 2, 2, 1], 3⟩
    (WaveGrid.ScanOK_of_square hv rfl (by decide) (Nat.le_max_right _ _))
  have ing : RuleSetBuilder.Ingested 0 RuleSetBuilder.create ⟨2, 2, [1, 2, 2, 1], 3⟩ b :=
    (RuleSetBuilder.addInput_spec RuleSet.create_shaped _ _ hb).2
  have e1 : ((RuleSetBuilder.create.addInput ⟨2, 2, [1, 2, 2, 1], 3⟩).bind fun p =>
      (p.2.getRule 0 .RIGHT).bind fun bs => Outcome.ok bs[1]?) = .ok (some true) := by decide
  have e2 : ((RuleSetBuilder.create.addInput ⟨2, 2, [1, 2, 2, 1], 3⟩).bind fun p =>
      (p.2.getRule 1 .LEFT).bind fun bs => Outcome.ok bs[0]?) = .ok (some true) := by decide
  have e3 : ((RuleSetBuilder.create.addInput ⟨2, 2, [1, 2, 2, 1], 3⟩).bind fun p =>
      Outcome.ok (p.2.counts_ 0, p.2.counts_ 1, p.2.processedTiles_,
        p.2.rules_.weights_.length)) = .ok (2, 2, 4, 3) := by decide
  rw [hb] at e1 e2 e3
  simp only [Outcome.ok_bind, Outcome.bind_eq_ok] at e1 e2
  obtain ⟨bs1, h1, h1b⟩ := e1
  obtain ⟨bs2, h2, h2b⟩ := e2
  injection h1b with h1b
  injection h2b with h2b
  injection e3 with e3
  simp only [Prod.mk.injEq] at e3
  obtain ⟨c0, c1, pt, wl⟩ := e3
  have c0 : b.counts_ 0 = 2 := c0
  have c1 : b.counts_ 1 = 2 := c1
  have pt : b.processedTiles_ = 4 := pt
  have wl : b.rules_.weights_.length = 3 := wl
  have w0 := ing.weights 0 (by omega)
  have w1 := ing.weights 1 (by omega)
  rw [c0, pt] at w0
  rw [c1, pt] at w1
  refine ⟨_, b, by decide, hb, ⟨bs1, h1, h1b⟩, ⟨bs2, h2, h2b⟩, ?_, ?_⟩
  · rw [RuleSet.getWeight, vecGet_eq_ok, w0, floatQuotient_2_4]
  · rw [RuleSet.getWeight, vecGet_eq_ok, w1, floatQuotient_2_4]

/-- C4: for two non-empty well-formed sample grids `A` and `B`, with equal or different
state counts, ingesting `A` then `B` into a fresh builder has the same result as ingesting
`B` then `A`: either none of the two call sequences returns, or both return and leave the
same builder, hence the same bit-set for every (state, direction) pair and the same
weight for every state (whatever the sizes of `A` and `B`). Both sequences do return when
the grids are square and hold no tile 0. -/
theorem addInput_order_independent (A B : WaveGrid) (hA : A.Valid) (hB : B.Valid)
    (_hAw : 0 < A.width_) (_hAh : 0 < A.height_) (_hBw : 0 < B.width_)
    (_hBh : 0 < B.height_) :
    (RuleSetBuilder.create.addInputs [A, B]).toOption =
        (RuleSetBuilder.create.addInputs [B, A]).toOption ∧
      (A.width_ = A.height_ → B.width_ = B.height_ → (∀ t ∈ A.data_, 1 ≤ t) →
        (∀ t ∈ B.data_, 1 ≤ t) → ∃ b, RuleSetBuilder.create.addInputs [A, B] = .ok b) := by
  have hvAB : ∀ g ∈ [A, B], g.Valid := by
    intro g hg
    simp only [List.mem_cons, List.mem_singleton, List.not_mem_nil, or_false] at hg
    rcases hg with rfl | rfl
    · exact hA
    · exact hB
  have hvBA : ∀ g ∈ [B, A], g.Valid := fun g hg => hvAB g (by
    simp only [List.mem_cons, List.mem_singleton, List.not_mem_nil, or_false] at hg ⊢
    exact hg.symm)
  have okAB := @RuleSetBuilder.addInputs_ok_iff [A, B] hvAB 0 RuleSetBuilder.create
    RuleSet.create_shaped (by norm_num)
  have okBA := @RuleSetBuilder.addInputs_ok_iff [B, A] hvBA 0 RuleSetBuilder.create
    RuleSet.create_shaped (by norm_num)
  constructor
  · by_cases h : ∀ g ∈ [A, B], g.ScanOK g.numStates_
    · have h2 : ∀ g ∈ [B, A], g.ScanOK g.numStates_ := fun g hg => h g (by
        simp only [List.mem_cons, List.mem_singleton, List.not_mem_nil, or_false] at hg ⊢
        exact hg.symm)
      obtain ⟨b, hb⟩ := okAB.2 h
      obtain ⟨c, hc⟩ := okBA.2 h2
      obtain ⟨sb, wb, stb, pb, cb, bb⟩ := RuleSetBuilder.addInputs_spec [A, B]
        RuleSet.create_shaped RuleSetBuilder.create_weightsCurrent b hb
      obtain ⟨sc, wc, stc, pc, cc, bc⟩ := RuleSetBuilder.addInputs_spec [B, A]
        RuleSet.create_shaped RuleSetBuilder.create_weightsCurrent c hc
      have hM : List.foldl (fun m (g : WaveGrid) => max m g.numStates_) 0 [B, A] =
          List.foldl (fun m (g : WaveGrid) => max m g.numStates_) 0 [A, B] := by
        simp only [List.foldl_cons, List.foldl_nil]
        omega
      rw [hM] at sc
      have hbc : b = c := by
        refine RuleSetBuilder.eq_of_view sb sc (stb.trans stc.symm) ?_ ?_ ?_ wb wc
        · rw [pb, pc]
          simp only [List.map_cons, List.map_nil, List.sum_cons, List.sum_nil]
          omega
        · intro s
          rw [cb, cc]
          simp only [List.map_cons, List.map_nil, List.sum_cons, List.sum_nil]
          omega
        · intro e t j
          rw [bb, bc]
          simp only [List.mem_cons, List.mem_singleton, List.not_mem_nil, or_false,
            exists_eq_or_imp, exists_eq_left]
          tauto
      rw [hb, hc, hbc]
    · have h2 : ¬ ∀ g ∈ [B, A], g.ScanOK g.numStates_ := fun h3 => h fun g hg => h3 g (by
        simp only [List.mem_cons, List.mem_singleton, List.not_mem_nil, or_false] at hg ⊢
        exact hg.symm)
      have n1 : (RuleSetBuilder.create.addInputs [A, B]).toOption = none :=
        Outcome.toOption_eq_none.2 fun b hb => h (okAB.1 ⟨b, hb⟩)
      have n2 : (RuleSetBuilder.create.addInputs [B, A]).toOption = none :=
        Outcome.toOption_eq_none.2 fun b hb => h2 (okBA.1 ⟨b, hb⟩)
      rw [n1, n2]
  · intro sqA sqB posA posB
    refine okAB.2 ?_
    intro g hg
    simp only [List.mem_cons, List.mem_singleton, List.not_mem_nil, or_false] at hg
    rcases hg with rfl | rfl
    · exact WaveGrid.ScanOK_of_square hA sqA posA (Nat.le_refl _)
    · exact WaveGrid.ScanOK_of_square hB sqB posB (Nat.le_refl _)

/-- Witness for C4: a 2-state checkerboard and a 1 x 1 sample of a third tile. -/
theorem addInput_order_independent_witness :
    (RuleSetBuilder.create.addInputs [⟨2, 2, [1, 2, 2, 1], 3⟩, ⟨1, 1, [3], 4⟩]).toOption =
        (RuleSetBuilder.create.addInputs [⟨1, 1, [3], 4⟩, ⟨2, 2, [1, 2, 2, 1], 3⟩]).toOption ∧
      ∃ b, RuleSetBuilder.create.addInputs [⟨2, 2, [1, 2, 2, 1], 3⟩, ⟨1, 1, [3], 4⟩] = .ok b :=
  have h := addInput_order_independent ⟨2, 2, [1, 2, 2, 1], 3⟩ ⟨1, 1, [3], 4⟩
    (by decide) (by decide) (by decide) (by decide) (by decide) (by decide)
  ⟨h.1, h.2 rfl rfl (by decide) (by decide)⟩

/-- C5: for a non-empty well-formed sample grid `G`, ingesting `G` twice into a fresh
builder leaves the same bit-set for every (state, direction) pair and the same weight for
every state as ingesting it once (or neither call sequence returns); the calls do
return when `G` is square and holds no tile 0. -/
theorem addInput_idempotent (G : WaveGrid) (hG : G.Valid) (_hw : 0 < G.width_)
    (_hh : 0 < G.height_) :
    (RuleSetBuilder.create.addInputs [G, G]).toOption.map
        (fun b => (b.rules_.rules_, b.rules_.weights_)) =
      (RuleSetBuilder.create.addInputs [G]).toOption.map
        (fun b => (b.rules_.rules_, b.rules_.weights_)) ∧
      (G.width_ = G.height_ → (∀ t ∈ G.data_, 1 ≤ t) →
        ∃ b, RuleSetBuilder.create.addInputs [G, G] = .ok b) := by
  have hv1 : ∀ g ∈ [G], g.Valid := by
    intro g hg
    rw [List.mem_singleton.1 hg]
    exact hG
  have hv2 : ∀ g ∈ [G, G], g.Valid := by
    intro g hg
    simp only [List.mem_cons, List.mem_singleton, List.not_mem_nil, or_false, or_self] at hg
    rw [hg]
    exact hG
  have ok1 := @RuleSetBuilder.addInputs_ok_iff [G] hv1 0 RuleSetBuilder.create
    RuleSet.create_shaped (by norm_num)
  have ok2 := @RuleSetBuilder.addInputs_ok_iff [G, G] hv2 0 RuleSetBuilder.create
    RuleSet.create_shaped (by norm_num)
  constructor
  · by_cases h : G.ScanOK G.numStates_
    · obtain ⟨b, hb⟩ := ok1.2 (by simpa using h)
      obtain ⟨c, hc⟩ := ok2.2 (by simpa using h)
      obtain ⟨sb, wb, stb, pb, cb, bb⟩ := RuleSetBuilder.addInputs_spec [G]
        RuleSet.create_shaped RuleSetBuilder.create_weightsCurrent b hb
      obtain ⟨sc, wc, stc, pc, cc, bc⟩ := RuleSetBuilder.addInputs_spec [G, G]
        RuleSet.create_shaped RuleSetBuilder.create_weightsCurrent c hc
      have hM : List.foldl (fun m (g : WaveGrid) => max m g.numStates_) 0 [G, G] =
          List.foldl (fun m (g : WaveGrid) => max m g.numStates_) 0 [G] := by
        simp only [List.foldl_cons, List.foldl_nil]
        omega
      rw [hM] at sc
      have hr : c.rules_.rules_ = b.rules_.rules_ := by
        refine RuleSet.rules_ext sc sb ?_
        intro e t j
        refine Bool.eq_iff_iff.2 ?_
        rw [bb, bc]
        simp only [List.mem_cons, List.mem_singleton, List.not_mem_nil, or_false, or_self]
      have hw : c.rules_.weights_ = b.rules_.weights_ := by
        refine List.ext_getElem? ?_
        intro i
        by_cases hi : i < c.rules_.weights_.length
        · have hi2 : i < b.rules_.weights_.length := by rw [sb.2.1, ← sc.2.1]; exact hi
          rw [wc i hi, wb i hi2, pb, pc, cb, cc]
          simp only [List.map_cons, List.map_nil, List.sum_cons, List.sum_nil,
            RuleSetBuilder.create, Nat.zero_add, Nat.add_zero, Option.some.injEq]
          exact floatQuotient_double _ _
        · have hi2 : ¬ i < b.rules_.weights_.length := by rw [sb.2.1, ← sc.2.1]; exact hi
          rw [List.getElem?_eq_none (Nat.le_of_not_lt hi),
            List.getElem?_eq_none (Nat.le_of_not_lt hi2)]
      rw [hb, hc]
      simp only [Outcome.toOption, Option.map_some', hr, hw]
    · have n1 : (RuleSetBuilder.create.addInputs [G]).toOption = none :=
        Outcome.toOption_eq_none.2 fun b hb => h (by simpa using ok1.1 ⟨b, hb⟩)
      have n2 : (RuleSetBuilder.create.addInputs [G, G]).toOption = none :=
        Outcome.toOption_eq_none.2 fun b hb => h (by simpa using ok2.1 ⟨b, hb⟩)
      rw [n1, n2]
  · intro sq pos
    exact ok2.2 (by simpa using WaveGrid.ScanOK_of_square hG sq pos (Nat.le_refl _))

/-- Witness for C5: the 2 x 2 checkerboard sample. -/
theorem addInput_idempotent_witness :
    (RuleSetBuilder.create.addInputs [⟨2, 2, [1, 2, 2, 1], 3⟩, ⟨2, 2, [1, 2, 2, 1], 3⟩]).toOption.map
        (fun b => (b.rules_.rules_, b.rules_.weights_)) =
      (RuleSetBuilder.create.addInputs [⟨2, 2, [1, 2, 2, 1], 3⟩]).toOption.map
        (fun b => (b.rules_.rules_, b.rules_.weights_)) ∧
      ∃ b, RuleSetBuilder.create.addInputs
        [⟨2, 2, [1, 2, 2, 1], 3⟩, ⟨2, 2, [1, 2, 2, 1], 3⟩] = .ok b :=
  have h := addInput_idempotent ⟨2, 2, [1, 2, 2, 1], 3⟩ (by decide) (by decide) (by decide)
  ⟨h.1, h.2 rfl (by decide)⟩

/-- C6: expansion never loses information. For every rule set of dimension `N` and every
sequence of `addInput` calls on it that return, each bit set before the calls is still
set in the bit-set of the same (state, direction) afterwards, and the number of states
(weight-table length and bit-set dimension) has not decreased, whatever the state counts
of the grids. -/
theorem addInputs_keep_bits_and_states (b : RuleSetBuilder) (N : Nat)
    (hs : b.rules_.Shaped N) (gs : List WaveGrid) (b2 : RuleSetBuilder)
    (h : b.addInputs gs = .ok b2) :
    (∀ e t j, b.rules_.bitAt e t j = true → b2.rules_.bitAt e t j = true) ∧
      b.rules_.numStates ≤ b2.rules_.numStates ∧
      ∃ M, N ≤ M ∧ b2.rules_.Shaped M := by
  induction gs generalizing b N with
  | nil =>
    simp only [RuleSetBuilder.addInputs] at h
    injection h with h
    subst h
    exact ⟨fun _ _ _ h => h, Nat.le_refl _, N, Nat.le_refl N, hs⟩
  | cons g gs ih =>
    simp only [RuleSetBuilder.addInputs, Outcome.bind_eq_ok] at h
    obtain ⟨p, hp, hb⟩ := h
    obtain ⟨_, ing⟩ := RuleSetBuilder.addInput_spec hs g p hp
    obtain ⟨hbits, hn, M, hM, sM⟩ := ih p.2 _ ing.shaped hb
    refine ⟨fun e t j h0 => hbits e t j ((ing.bits e t j).2 (Or.inl h0)), ?_, M,
      Nat.le_trans (Nat.le_max_left _ _) hM, sM⟩
    have h1 : b.rules_.numStates = N := hs.2.1
    have h2 : p.2.rules_.numStates = max N g.numStates_ := ing.shaped.2.1
    have h3 : N ≤ max N g.numStates_ := Nat.le_max_left _ _
    omega

/-- Witness for C6: a 2-state sample, then a 4-state sample, then the 2-state sample
again, on a fresh builder. -/
theorem addInputs_keep_bits_and_states_witness :
    ∃ b1 b2, RuleSetBuilder.create.addInputs [⟨2, 2, [1, 2, 2, 1], 3⟩] = .ok b1 ∧
      b1.addInputs [⟨2, 2, [1, 2, 3, 4], 5⟩, ⟨2, 2, [1, 2, 2, 1], 3⟩] = .ok b2 ∧
      (∀ e t j, b1.rules_.bitAt e t j = true → b2.rules_.bitAt e t j = true) ∧
      b1.rules_.numStates ≤ b2.rules_.numStates := by
  obtain ⟨b1, h1⟩ := @RuleSetBuilder.addInputs_ok [⟨2, 2, [1, 2, 2, 1], 3⟩] (by decide) 0
    RuleSetBuilder.create RuleSet.create_shaped
  have s1 := (RuleSetBuilder.addInputs_spec _ RuleSet.create_shaped
    RuleSetBuilder.create_weightsCurrent b1 h1).1
  obtain ⟨b2, h2⟩ := @RuleSetBuilder.addInputs_ok
    [⟨2, 2, [1, 2, 3, 4], 5⟩, ⟨2, 2, [1, 2, 2, 1], 3⟩] (by decide) _ b1 s1
  have h := addInputs_keep_bits_and_states b1 _ s1 _ b2 h2
  exact ⟨b1, b2, h1, h2, h.1, h.2.1⟩

theorem forLoop_skip {σ : Type} (n : Nat) (s : σ) :
    forLoop (fun _ s => forLoop (fun _ (t : σ) => Outcome.ok t) 0 s) n s = .ok s := by
  induction n with
  | zero => rfl
  | succ k ih => rw [forLoop_succ, ih]; rfl

/-- C8 (fails on the code): `RuleSetBuilder::reset` clears the four direction vectors
and nothing else. After `addInput` of the 1 x 1 sample [1] and `reset`, `addInput` of the
2 x 2 sample with rows [1, 2] and [2, 1] leaves 5 processed tiles and 3 occurrences of
state 0, where the same call on a fresh builder leaves 4 and 2. -/
theorem reset_keeps_counts_and_total :
    ((WaveGrid.wrap 1 1 [1]).bind fun g1 => (WaveGrid.wrap 2 2 [1, 2, 2, 1]).bind fun g =>
        (RuleSetBuilder.create.addInput g1).bind fun p => p.2.reset.bind fun b =>
          (b.addInput g).bind fun q => Outcome.ok (q.2.processedTiles_, q.2.counts_ 0)) =
        .ok (5, 3) ∧
      ((WaveGrid.wrap 2 2 [1, 2, 2, 1]).bind fun g =>
        (RuleSetBuilder.create.addInput g).bind fun q =>
          Outcome.ok (q.2.processedTiles_, q.2.counts_ 0)) = .ok (4, 2) := by
  decide

/-- C9 (fails on the code): `RuleSet::getRule(state, direction)` reads
`rules_[state][direction]`, the transpose of the `rules_[direction][state]` that
`addInput` writes and `RuleSetBuilder::getRule` reads. After compiling the 2 x 2 sample
with rows [1, 1] and [2, 2], `RuleSet::getRule(1, UP)` returns the DOWN bit-set of
state 0 while the recorded UP bit-set of state 1 is another one, and
`RuleSet::getRule(0, RIGHT)` indexes outside the table. -/
theorem RuleSet_getRule_is_transposed :
    ((WaveGrid.wrap 2 2 [1, 1, 2, 2]).bind fun g =>
      (RuleSetBuilder.create.addInput g).bind fun p =>
        Outcome.ok (p.2.rules_.getRule 1 .UP, p.2.getRule 1 .UP, p.2.getRule 0 .DOWN)) =
      .ok (.ok [false, true, false], .ok [true, false, false], .ok [false, true, false]) ∧
    ((WaveGrid.wrap 2 2 [1, 1, 2, 2]).bind fun g =>
      (RuleSetBuilder.create.addInput g).bind fun p =>
        Outcome.ok (p.2.rules_.getRule 0 .RIGHT, p.2.getRule 0 .RIGHT)) =
      .ok (.undefinedAccess, .ok [true, false, false]) := by
  decide

/-- C10 (fails on the code): neither `getRule` checks a range or signals an error. After
compiling the 2 x 2 sample with rows [1, 2] and [2, 1] the state count is 3; for the state
index 3, which is not below it, `RuleSet::getRule(3, UP)` returns a bit-set, and
`RuleSetBuilder::getRule(3, UP)` is a read outside the direction vector, not an
out-of-range failure. -/
theorem getRule_beyond_state_count_returns :
    ((WaveGrid.wrap 2 2 [1, 2, 2, 1]).bind fun g =>
      (RuleSetBuilder.create.addInput g).bind fun p =>
        Outcome.ok (p.2.rules_.numStates, p.2.rules_.getRule 3 .UP, p.2.getRule 3 .UP)) =
      .ok (3, .ok [false, true, false], .undefinedAccess) := by
  decide

/-- C10 as amended: no `getRule` signals an out-of-range error. For every rule set of the
compiler's shape and every state index `s` not below the state count,
`RuleSetBuilder::getRule(s, d)` returns no bit-set for any direction `d`: its unchecked
read `rules_[d][s]` lies outside the direction vector; and `RuleSet::getRule(s, d)`, an
unchecked read as well, either returns a bit-set or lies outside the table. -/
theorem getRule_beyond_state_count_unchecked (b : RuleSetBuilder) (N : Nat)
    (hs : b.rules_.Shaped N) (s : Nat) (h : b.rules_.numStates ≤ s) (d : WaveDirection) :
    b.getRule s d = .undefinedAccess ∧
      ((∃ bs, b.rules_.getRule s d = .ok bs) ∨ b.rules_.getRule s d = .undefinedAccess) := by
  obtain ⟨h4, hw, hrows⟩ := hs
  have hd : d.toNat < b.rules_.rules_.length := h4 ▸ d.toNat_lt
  have hvl := (hrows _ (List.getElem_mem hd)).1
  have hsl : b.rules_.rules_[d.toNat].length ≤ s := by
    rw [hvl, ← hw]
    exact h
  refine ⟨?_, ?_⟩
  · simp only [RuleSetBuilder.getRule, RuleSet.dirRules, vecGet, List.getElem?_eq_getElem hd,
      Outcome.ok_bind, List.getElem?_eq_none hsl]
  · unfold RuleSet.getRule vecGet
    cases b.rules_.rules_[s]? with
    | none => exact Or.inr rfl
    | some v =>
      simp only [Outcome.ok_bind]
      cases v[d.toNat]? with
      | none => exact Or.inr rfl
      | some bs => exact Or.inl ⟨bs, rfl⟩

/-- Witness for C10 as amended: the builder that has compiled the 2 x 2 sample with rows
[1, 2] and [2, 1], whose state count is 3, at the state index 3 and the direction UP. -/
theorem getRule_beyond_state_count_unchecked_witness :
    ∃ b, RuleSetBuilder.create.addInput ⟨2, 2, [1, 2, 2, 1], 3⟩ = .ok (true, b) ∧
      b.rules_.numStates = 3 ∧ b.getRule 3 .UP = .undefinedAccess ∧
      ((∃ bs, b.rules_.getRule 3 .UP = .ok bs) ∨ b.rules_.getRule 3 .UP = .undefinedAccess) := by
  have hv : (⟨2, 2, [1, 2, 2, 1], 3⟩ : WaveGrid).Valid := by decide
  obtain ⟨b, hb⟩ := @RuleSetBuilder.addInput_ok 0 RuleSetBuilder.create RuleSet.create_shaped
    ⟨2, 2, [1, 2, 2, 1], 3⟩
    (WaveGrid.ScanOK_of_square hv rfl (by decide) (Nat.le_max_right _ _))
  have ing : RuleSetBuilder.Ingested 0 RuleSetBuilder.create ⟨2, 2, [1, 2, 2, 1], 3⟩ b :=
    (RuleSetBuilder.addInput_spec RuleSet.create_shaped _ _ hb).2
  have hn : b.rules_.numStates = 3 := ing.shaped.2.1
  have h := getRule_beyond_state_count_unchecked b _ ing.shaped 3 (Nat.le_of_eq hn) .UP
  exact ⟨b, hb, hn, h.1, h.2⟩

/-! ### Claims about `WaveGrid` -/

/-- C11 (fails on the code): `setTile` raises `numStates_` to the tile written, not to the
tile plus one. The zero-filled 1 x 1 grid after `setTile(0, 0, 1)` holds the buffer [1]
and reports 1 state, while the grid wrapping the buffer [1] reports 2. -/
theorem setTile_numStates_is_largest_tile :
    ((WaveGrid.create 1 1).bind fun g0 =>
        (g0.setTile 0 0 1).bind fun g => Outcome.ok (g.data_, g.numStates)) = .ok ([1], 1) ∧
      (WaveGrid.wrap 1 1 [1]).bind (fun g => Outcome.ok (g.data_, g.numStates)) =
        .ok ([1], 2) := by
  decide

/-- C12 (fails on the code): `setTile` checks no bounds. On the zero-filled 2 x 2 grid,
`setTile(2, 0, 7)` has x = width, yet it returns and the in-bounds cell (0, 1), at flat
index 2, then holds 7. -/
theorem setTile_out_of_bounds_overwrites :
    ((WaveGrid.create 2 2).bind fun g0 =>
        (g0.setTile 2 0 7).bind fun g => g.getTile 0 1) = .ok 7 ∧
      (WaveGrid.create 2 2).bind (fun g0 => g0.getTile 0 1) = .ok 0 := by
  decide

theorem WaveGrid.setTile_eq_ok {g g2 : WaveGrid} {x y t : Nat} :
    g.setTile x y t = .ok g2 ↔
      y * g.width_ + x < g.data_.length ∧
        g2 = { g with numStates_ := if t > g.numStates_ then t else g.numStates_
                      data_ := g.data_.set (y * g.width_ + x) t } := by
  simp only [WaveGrid.setTile, Outcome.bind_eq_ok, vecSet_eq_ok]
  constructor
  · rintro ⟨d, ⟨h1, rfl⟩, h2⟩
    injection h2 with h2
    exact ⟨h1, h2.symm⟩
  · rintro ⟨h1, rfl⟩
    exact ⟨_, ⟨h1, rfl⟩, rfl⟩

theorem WaveGrid.flat_index_inj {w x y x2 y2 : Nat} (hx : x < w) (hx2 : x2 < w)
    (h : y2 * w + x2 = y * w + x) : x2 = x ∧ y2 = y := by
  have hw : 0 < w := Nat.lt_of_le_of_lt (Nat.zero_le x) hx
  have h1 : (y2 * w + x2) % w = x2 := by
    rw [Nat.add_comm, Nat.add_mul_mod_self_right, Nat.mod_eq_of_lt hx2]
  have h2 : (y * w + x) % w = x := by
    rw [Nat.add_comm, Nat.add_mul_mod_self_right, Nat.mod_eq_of_lt hx]
  have h3 : (y2 * w + x2) / w = y2 := by
    rw [Nat.add_comm, Nat.add_mul_div_right _ _ hw, Nat.div_eq_of_lt hx2, Nat.zero_add]
  have h4 : (y * w + x) / w = y := by
    rw [Nat.add_comm, Nat.add_mul_div_right _ _ hw, Nat.div_eq_of_lt hx, Nat.zero_add]
  exact ⟨by rw [← h1, h, h2], by rw [← h3, h, h4]⟩

/-- C12 as amended: `setTile(x, y, t)` checks no bounds and stores `t` at the flat index
`y*width + x` of the buffer, whenever that index is inside the buffer. On a grid whose
buffer has `width*height` cells and for x < width and y < height it returns, the cell
(x, y) then holds `t`, and every other cell of the grid holds what it held before. -/
theorem setTile_writes_flat_index (g : WaveGrid) (x y t : Nat) :
    (y * g.width_ + x < g.data_.length →
      ∃ g2, g.setTile x y t = .ok g2 ∧ g2.data_ = g.data_.set (y * g.width_ + x) t ∧
        g2.width_ = g.width_ ∧ g2.height_ = g.height_) ∧
    (g.data_.length = g.width_ * g.height_ → x < g.width_ → y < g.height_ →
      ∃ g2, g.setTile x y t = .ok g2 ∧ g2.getTile x y = .ok t ∧
        ∀ x2 y2, x2 < g.width_ → y2 < g.height_ → (x2, y2) ≠ (x, y) →
          g2.getTile x2 y2 = g.getTile x2 y2) := by
  constructor
  · intro hi
    exact ⟨_, WaveGrid.setTile_eq_ok.2 ⟨hi, rfl⟩, rfl, rfl, rfl⟩
  · intro hl hx hy
    have hi : y * g.width_ + x < g.data_.length := hl ▸ WaveGrid.index_lt hx hy
    refine ⟨_, WaveGrid.setTile_eq_ok.2 ⟨hi, rfl⟩, ?_, ?_⟩
    · simp only [WaveGrid.getTile, hx, hy, and_self, if_true, vecGet, List.getElem?_set,
        hi]
    · intro x2 y2 hx2 hy2 hne
      have hidx : ¬ y * g.width_ + x = y2 * g.width_ + x2 := by
        intro h
        obtain ⟨h1, h2⟩ := WaveGrid.flat_index_inj hx hx2 h.symm
        exact hne (by rw [h1, h2])
      simp only [WaveGrid.getTile, hx2, hy2, and_self, if_true, vecGet, List.getElem?_set,
        hidx, if_false]

/-- Witness for C12 as amended: the zero-filled 2 x 2 grid and the cell (1, 0). -/
theorem setTile_writes_flat_index_witness :
    WaveGrid.create 2 2 = .ok ⟨2, 2, [0, 0, 0, 0], 0⟩ ∧
      ∃ g2, WaveGrid.setTile ⟨2, 2, [0, 0, 0, 0], 0⟩ 1 0 5 = .ok g2 ∧ g2.getTile 1 0 = .ok 5 ∧
        ∀ x2 y2, x2 < 2 → y2 < 2 → (x2, y2) ≠ (1, 0) →
          g2.getTile x2 y2 = WaveGrid.getTile ⟨2, 2, [0, 0, 0, 0], 0⟩ x2 y2 :=
  ⟨by decide,
    (setTile_writes_flat_index ⟨2, 2, [0, 0, 0, 0], 0⟩ 1 0 5).2 (by decide) (by decide)
      (by decide)⟩

/-! ### Grids built by the constructors and `setTile` -/

theorem WaveGrid.setTile_valid {g g2 : WaveGrid} {x y t : Nat}
    (h : g.setTile x y t = .ok g2) :
    g2.width_ = g.width_ ∧ g2.height_ = g.height_ ∧ g2.data_.length = g.data_.length ∧
      g.numStates_ ≤ g2.numStates_ ∧ t ≤ g2.numStates_ ∧
      (g2.numStates_ = g.numStates_ ∨ g2.numStates_ = t) ∧
      ((∀ u ∈ g.data_, u ≤ g.numStates_) → ∀ u ∈ g2.data_, u ≤ g2.numStates_) := by
  obtain ⟨_, rfl⟩ := WaveGrid.setTile_eq_ok.1 h
  refine ⟨rfl, rfl, by simp, ?_, ?_, ?_, ?_⟩
  · show g.numStates_ ≤ if t > g.numStates_ then t else g.numStates_
    split <;> omega
  · show t ≤ if t > g.numStates_ then t else g.numStates_
    split <;> omega
  · show (if t > g.numStates_ then t else g.numStates_) = g.numStates_ ∨
      (if t > g.numStates_ then t else g.numStates_) = t
    split
    · exact Or.inr rfl
    · exact Or.inl rfl
  · intro hall u hu
    show u ≤ if t > g.numStates_ then t else g.numStates_
    rcases List.mem_or_eq_of_mem_set hu with hu | rfl
    · have := hall u hu
      split <;> omega
    · split <;> omega

/-- After a sequence of `setTile` calls that return, the dimensions and the buffer length
are unchanged, and the state count is at least every tile of the buffer if it was
before. -/
theorem WaveGrid.setTiles_valid (ws : List (Nat × Nat × Nat)) :
    ∀ {g g2 : WaveGrid}, g.setTiles ws = .ok g2 →
      g2.width_ = g.width_ ∧ g2.height_ = g.height_ ∧ g2.data_.length = g.data_.length ∧
        g.numStates_ ≤ g2.numStates_ ∧ (∀ w ∈ ws, w.2.2 ≤ g2.numStates_) ∧
        (g2.numStates_ = g.numStates_ ∨ ∃ w ∈ ws, g2.numStates_ = w.2.2) ∧
        ((∀ u ∈ g.data_, u ≤ g.numStates_) → ∀ u ∈ g2.data_, u ≤ g2.numStates_) := by
  induction ws with
  | nil =>
    intro g g2 h
    simp only [WaveGrid.setTiles] at h
    injection h with h
    subst h
    exact ⟨rfl, rfl, rfl, Nat.le_refl _, fun _ hw => absurd hw (List.not_mem_nil _),
      Or.inl rfl, fun h => h⟩
  | cons w ws ih =>
    intro g g2 h
    obtain ⟨x, y, t⟩ := w
    simp only [WaveGrid.setTiles, Outcome.bind_eq_ok] at h
    obtain ⟨g1, h1, h2⟩ := h
    obtain ⟨a1, a2, a3, a4, a5, a6, a7⟩ := WaveGrid.setTile_valid h1
    obtain ⟨b1, b2, b3, b4, b5, b6, b7⟩ := ih h2
    refine ⟨b1.trans a1, b2.trans a2, b3.trans a3, Nat.le_trans a4 b4, ?_, ?_,
      fun h => b7 (a7 h)⟩
    · intro w hw
      rcases List.mem_cons.1 hw with rfl | hw
      · exact Nat.le_trans a5 b4
      · exact b5 w hw
    · rcases b6 with b6 | ⟨w, hw, b6⟩
      · rcases a6 with a6 | a6
        · exact Or.inl (b6.trans a6)
        · exact Or.inr ⟨(x, y, t), List.mem_cons_self _ _, b6.trans a6⟩
      · exact Or.inr ⟨w, List.mem_cons_of_mem _ hw, b6⟩

theorem WaveGrid.scanCell_spec {g g2 : WaveGrid} {x y : Nat}
    (h : WaveGrid.scanCell x y g = .ok g2) :
    ∃ t, g.getTile x y = .ok t ∧ g2.width_ = g.width_ ∧ g2.height_ = g.height_ ∧
      g2.data_ = g.data_ ∧ g.numStates_ ≤ g2.numStates_ ∧ (t + 1) % 2 ^ 32 ≤ g2.numStates_ ∧
      (g2.numStates_ = g.numStates_ ∨ g2.numStates_ = (t + 1) % 2 ^ 32) := by
  simp only [WaveGrid.scanCell, Outcome.bind_eq_ok] at h
  obtain ⟨t, ht, h2⟩ := h
  refine ⟨t, ht, ?_⟩
  split at h2
  · injection h2 with h2
    subst h2
    rename_i hgt
    exact ⟨rfl, rfl, rfl, Nat.le_of_lt hgt, Nat.le_refl _, Or.inr rfl⟩
  · injection h2 with h2
    subst h2
    rename_i hgt
    exact ⟨rfl, rfl, rfl, Nat.le_refl _, Nat.le_of_not_lt hgt, Or.inl rfl⟩

theorem WaveGrid.getTile_congr {g g2 : WaveGrid} (hw : g2.width_ = g.width_)
    (hh : g2.height_ = g.height_) (hd : g2.data_ = g.data_) (x y : Nat) :
    g2.getTile x y = g.getTile x y := by
  simp only [WaveGrid.getTile, hw, hh, hd]

/-- What the scanning constructor computes: the buffer is wrapped as it is, and the
state count is the largest `tile + 1` (a `uint32_t` sum) over the cells. -/
theorem WaveGrid.wrap_spec {w h : Nat} {data : List Nat} {g : WaveGrid}
    (hg : WaveGrid.wrap w h data = .ok g) :
    g.width_ = w ∧ g.height_ = h ∧ g.data_ = data ∧
      (∀ x y t, x < w → y < h → data[y * w + x]? = some t → (t + 1) % 2 ^ 32 ≤ g.numStates_) ∧
      (g.numStates_ = 0 ∨ ∃ t ∈ data, g.numStates_ = (t + 1) % 2 ^ 32) := by
  have cellOf : ∀ (c : WaveGrid) (x y t : Nat), c.width_ = w → c.height_ = h →
      c.data_ = data → c.getTile x y = .ok t → data[y * w + x]? = some t := by
    intro c x y t cw ch cd hc
    have := (WaveGrid.getTile_eq_ok.1 hc).2
    rwa [cw, cd] at this
  have inner : ∀ (x : Nat) (c c2 : WaveGrid), c.width_ = w → c.height_ = h → c.data_ = data →
      (c.numStates_ = 0 ∨ ∃ t ∈ data, c.numStates_ = (t + 1) % 2 ^ 32) →
      forLoop (fun y g => WaveGrid.scanCell x y g) h c = .ok c2 →
      c2.width_ = w ∧ c2.height_ = h ∧ c2.data_ = data ∧ c.numStates_ ≤ c2.numStates_ ∧
        (∀ y t, y < h → data[y * w + x]? = some t → (t + 1) % 2 ^ 32 ≤ c2.numStates_) ∧
        (c2.numStates_ = 0 ∨ ∃ t ∈ data, c2.numStates_ = (t + 1) % 2 ^ 32) := by
    intro x c c2 cw ch cd cn hc2
    refine forLoop_invariant (fun y g => WaveGrid.scanCell x y g)
      (fun k d => d.width_ = w ∧ d.height_ = h ∧ d.data_ = data ∧
        c.numStates_ ≤ d.numStates_ ∧
        (∀ y t, y < k → data[y * w + x]? = some t → (t + 1) % 2 ^ 32 ≤ d.numStates_) ∧
        (d.numStates_ = 0 ∨ ∃ t ∈ data, d.numStates_ = (t + 1) % 2 ^ 32))
      h c ⟨cw, ch, cd, Nat.le_refl _, fun y t hy => absurd hy (Nat.not_lt_zero y), cn⟩ ?_ c2 hc2
    intro j _ d d2 ⟨dw, dh, dd, dle, dall, dn⟩ hd2
    obtain ⟨t, ht, e1, e2, e3, e4, e5, e6⟩ := WaveGrid.scanCell_spec hd2
    have htd := cellOf d x j t dw dh dd ht
    refine ⟨e1.trans dw, e2.trans dh, e3.trans dd, Nat.le_trans dle e4, ?_, ?_⟩
    · intro y u hy hu
      rcases Nat.lt_succ_iff_lt_or_eq.1 hy with hy | rfl
      · exact Nat.le_trans (dall y u hy hu) e4
      · rw [htd] at hu
        injection hu with hu
        exact hu ▸ e5
    · rcases e6 with e6 | e6
      · rw [e6]
        exact dn
      · exact Or.inr ⟨t, List.getElem?_mem htd, e6⟩
  have outer := forLoop_invariant
    (fun x g => forLoop (fun y g => WaveGrid.scanCell x y g) h g)
    (fun k d => d.width_ = w ∧ d.height_ = h ∧ d.data_ = data ∧
      (∀ x y t, x < k → y < h → data[y * w + x]? = some t → (t + 1) % 2 ^ 32 ≤ d.numStates_) ∧
      (d.numStates_ = 0 ∨ ∃ t ∈ data, d.numStates_ = (t + 1) % 2 ^ 32))
    w { width_ := w, height_ := h, data_ := data, numStates_ := 0 }
    ⟨rfl, rfl, rfl, fun x y t hx => absurd hx (Nat.not_lt_zero x), Or.inl rfl⟩ ?_ g hg
  · exact outer
  · intro j _ d d2 ⟨dw, dh, dd, dall, dn⟩ hd2
    obtain ⟨e1, e2, e3, e4, e5, e6⟩ := inner j d d2 dw dh dd dn hd2
    refine ⟨e1, e2, e3, ?_, e6⟩
    intro x y t hx hy hu
    rcases Nat.lt_succ_iff_lt_or_eq.1 hx with hx | rfl
    · exact Nat.le_trans (dall x y t hx hy hu) e4
    · exact e5 y t hy hu

/-- The scanning constructor returns on a buffer of `width*height` cells. -/
theorem WaveGrid.wrap_ok {w h : Nat} {data : List Nat} (hl : data.length = w * h) :
    ∃ g, WaveGrid.wrap w h data = .ok g := by
  have inner : ∀ (x : Nat), x < w → ∀ c : WaveGrid,
      (c.width_ = w ∧ c.height_ = h ∧ c.data_ = data) →
      ∃ c2, forLoop (fun y g => WaveGrid.scanCell x y g) h c = .ok c2 ∧
        (c2.width_ = w ∧ c2.height_ = h ∧ c2.data_ = data) := by
    intro x hx c hc
    refine forLoop_ok _ (fun _ (d : WaveGrid) => d.width_ = w ∧ d.height_ = h ∧ d.data_ = data)
      h c hc ?_
    intro y hy d ⟨dw, dh, dd⟩
    have hl2 : d.data_.length = d.width_ * d.height_ := by rw [dd, dw, dh, hl]
    obtain ⟨t, ht, _⟩ := WaveGrid.getTile_ok hl2 (dw ▸ hx) (dh ▸ hy)
    refine ⟨if (t + 1) % 2 ^ 32 > d.numStates_ then { d with numStates_ := (t + 1) % 2 ^ 32 }
      else d, ?_, ?_⟩
    · simp only [WaveGrid.scanCell, ht, Outcome.ok_bind]
      split <;> rfl
    · split
      · exact ⟨dw, dh, dd⟩
      · exact ⟨dw, dh, dd⟩
  obtain ⟨g, hg, _⟩ := forLoop_ok
    (fun x g => forLoop (fun y g => WaveGrid.scanCell x y g) h g)
    (fun _ (d : WaveGrid) => d.width_ = w ∧ d.height_ = h ∧ d.data_ = data) w
    { width_ := w, height_ := h, data_ := data, numStates_ := 0 } ⟨rfl, rfl, rfl⟩
    (fun x hx c hc => inner x hx c hc)
  exact ⟨g, hg⟩

/-- In a buffer of `width*height` cells every element is the tile of some cell. -/
theorem WaveGrid.cell_of_mem {w h : Nat} {data : List Nat} (hl : data.length = w * h)
    {t : Nat} (ht : t ∈ data) :
    ∃ x y, x < w ∧ y < h ∧ data[y * w + x]? = some t := by
  obtain ⟨i, hi⟩ := List.mem_iff_getElem?.1 ht
  have hil : i < w * h := hl ▸ (List.getElem?_eq_some.1 hi).1
  have hw : 0 < w := by
    rcases Nat.eq_zero_or_pos w with h0 | h0
    · rw [h0, Nat.zero_mul] at hil
      exact absurd hil (Nat.not_lt_zero i)
    · exact h0
  refine ⟨i % w, i / w, Nat.mod_lt i hw, ?_, ?_⟩
  · exact (Nat.div_lt_iff_lt_mul hw).2 (Nat.mul_comm w h ▸ hil)
  · have hdm : i / w * w + i % w = i := by
      rw [Nat.mul_comm]
      exact Nat.div_add_mod i w
    rw [hdm]
    exact hi

/-! ### The image loader -/

theorem ImageLoader.eq_of_maps {l1 l2 : ImageLoader}
    (he : ∀ p, l1.encodingMap_ p = l2.encodingMap_ p)
    (hd : ∀ t, l1.decodingMap_ t = l2.decodingMap_ t) (hu : l1.usedTiles = l2.usedTiles) :
    l1 = l2 := by
  obtain ⟨e1, d1, u1⟩ := l1
  obtain ⟨e2, d2, u2⟩ := l2
  have he2 : e1 = e2 := funext he
  have hd2 : d1 = d2 := funext hd
  simp only at hu
  subst he2 hd2 hu
  rfl

theorem ImageLoader.create_eq_ofSeen : ImageLoader.create = ImageLoader.ofSeen [] := by
  refine ImageLoader.eq_of_maps ?_ ?_ rfl
  · intro p
    simp [ImageLoader.create, ImageLoader.ofSeen]
  · intro t
    simp only [ImageLoader.create, ImageLoader.ofSeen, List.length_nil]
    split
    · omega
    · rfl

theorem seeOne_length_le (seen : List Nat) (p : Nat) :
    seen.length ≤ (seeOne seen p).length := by
  unfold seeOne
  split
  · exact Nat.le_refl _
  · simp

theorem seeOne_mem (seen : List Nat) (p : Nat) : p ∈ seeOne seen p := by
  unfold seeOne
  split
  · assumption
  · simp

theorem seeOne_extends (seen : List Nat) (p : Nat) : seen <+: seeOne seen p := by
  unfold seeOne
  split
  · exact List.prefix_refl _
  · exact List.prefix_append _ _

theorem firstSeen_extends (cs : List LoaderCall) : ∀ seen, seen <+: firstSeen seen cs := by
  induction cs with
  | nil => exact fun seen => List.prefix_refl _
  | cons c cs ih =>
    intro seen
    cases c with
    | encodePixel p => exact (seeOne_extends seen p).trans (ih _)
    | decodeTile t => exact ih seen

theorem indexOf_of_extends {l1 l2 : List Nat} (h : l1 <+: l2) {p : Nat} (hp : p ∈ l1) :
    l2.indexOf p = l1.indexOf p := by
  obtain ⟨t, rfl⟩ := h
  exact List.indexOf_append_of_mem hp

/-- One `encodePixel` call on the loader that has seen `seen`, while identifiers last. -/
theorem ImageLoader.encodePixel_ofSeen (seen : List Nat) (p : Nat)
    (h : (seeOne seen p).length < 2 ^ 32) :
    (ImageLoader.ofSeen seen).encodePixel true p =
      .ok ((seeOne seen p).indexOf p + 1, ImageLoader.ofSeen (seeOne seen p)) := by
  by_cases hp : p ∈ seen
  · have hs : seeOne seen p = seen := by simp [seeOne, hp]
    rw [hs]
    simp [ImageLoader.encodePixel, ImageLoader.ofSeen, hp]
  · have hs : seeOne seen p = seen ++ [p] := by simp [seeOne, hp]
    rw [hs] at h ⊢
    have hlen : (seen.length + 1) % 2 ^ 32 = seen.length + 1 := by
      apply Nat.mod_eq_of_lt
      simpa using h
    have hidx : (seen ++ [p]).indexOf p = seen.length := by
      rw [List.indexOf_append_of_not_mem hp]
      simp
    have henc : (ImageLoader.ofSeen seen).encodingMap_ p = 0 := by
      simp [ImageLoader.ofSeen, hp]
    simp only [ImageLoader.encodePixel, henc, ne_eq, not_true_eq_false, if_false,
      ImageLoader.addEncoding, ImageLoader.addDecoding, hidx, if_true, Outcome.ok_bind]
    have hu : (ImageLoader.ofSeen seen).usedTiles = seen.length := rfl
    rw [hu, hlen]
    congr 1
    refine Prod.ext rfl (ImageLoader.eq_of_maps ?_ ?_ ?_)
    · intro q
      simp only [ImageLoader.ofSeen, List.mem_append, List.mem_singleton]
      by_cases hq : q = p
      · subst hq
        simp [hidx]
      · by_cases hqs : q ∈ seen
        · simp [hq, hqs, List.indexOf_append_of_mem hqs]
        · simp [hq, hqs]
    · intro t
      simp only [ImageLoader.ofSeen, List.length_append, List.length_singleton]
      by_cases ht : t = seen.length + 1
      · subst ht
        simp [List.getD_eq_getElem?_getD]
      · rw [if_neg ht]
        by_cases ht2 : 1 ≤ t ∧ t ≤ seen.length
        · have ht3 : 1 ≤ t ∧ t ≤ seen.length + 1 := ⟨ht2.1, by omega⟩
          rw [if_pos ht2, if_pos ht3]
          simp only [List.getD_eq_getElem?_getD]
          rw [List.getElem?_append_left (by omega)]
        · have ht3 : ¬ (1 ≤ t ∧ t ≤ seen.length + 1) := by omega
          rw [if_neg ht2, if_neg ht3]
    · simp [ImageLoader.ofSeen]

/-- A sequence of calls on the loader that has seen `seen`, in a build where
`addEncoding` and `addDecoding` return and while identifiers last: the calls return, the
loader has then seen the distinct pixels of the `encodePixel` calls in first-seen order,
and each `encodePixel` call returned the position of its pixel in that order, counted
from 1. -/
theorem ImageLoader.run_ofSeen (cs : List LoaderCall) :
    ∀ seen, (firstSeen seen cs).length < 2 ^ 32 →
      ∃ rs, (ImageLoader.ofSeen seen).run true cs =
          .ok (rs, ImageLoader.ofSeen (firstSeen seen cs)) ∧
        ∀ (i p : Nat), cs[i]? = some (LoaderCall.encodePixel p) →
          rs[i]? = some ((firstSeen seen cs).indexOf p + 1) := by
  induction cs with
  | nil =>
    intro seen _
    refine ⟨[], rfl, ?_⟩
    intro i p hi
    simp at hi
  | cons c cs ih =>
    intro seen h
    cases c with
    | encodePixel q =>
      have h1 : (seeOne seen q).length < 2 ^ 32 :=
        Nat.lt_of_le_of_lt (firstSeen_extends cs _).length_le h
      obtain ⟨rs, hrs, hret⟩ := ih (seeOne seen q) h
      refine ⟨((seeOne seen q).indexOf q + 1) :: rs, ?_, ?_⟩
      · simp only [ImageLoader.run, ImageLoader.encodePixel_ofSeen seen q h1, Outcome.ok_bind,
          hrs, firstSeen]
      · intro i p hi
        cases i with
        | zero =>
          simp only [List.getElem?_cons_zero, Option.some.injEq,
            LoaderCall.encodePixel.injEq] at hi
          subst hi
          simp only [List.getElem?_cons_zero, firstSeen]
          rw [indexOf_of_extends (firstSeen_extends cs _) (seeOne_mem seen q)]
        | succ k =>
          simp only [List.getElem?_cons_succ] at hi ⊢
          exact hret k p hi
    | decodeTile t =>
      obtain ⟨rs, hrs, hret⟩ := ih seen h
      refine ⟨((ImageLoader.ofSeen seen).decodeTile t).1 :: rs, ?_, ?_⟩
      · simp only [ImageLoader.run, hrs, Outcome.ok_bind, firstSeen]
      · intro i p hi
        cases i with
        | zero => simp at hi
        | succ k =>
          simp only [List.getElem?_cons_succ] at hi ⊢
          exact hret k p hi

theorem mem_firstSeen_of_call (cs : List LoaderCall) :
    ∀ (seen : List Nat) (i p : Nat), cs[i]? = some (LoaderCall.encodePixel p) → p ∈ firstSeen seen cs := by
  induction cs with
  | nil =>
    intro seen i p hi
    simp at hi
  | cons c cs ih =>
    intro seen i p hi
    cases i with
    | zero =>
      simp only [List.getElem?_cons_zero, Option.some.injEq] at hi
      subst hi
      exact (firstSeen_extends cs _).subset (seeOne_mem seen p)
    | succ k =>
      simp only [List.getElem?_cons_succ] at hi
      cases c with
      | encodePixel q => exact ih _ k p hi
      | decodeTile t => exact ih _ k p hi

theorem call_of_mem_firstSeen (cs : List LoaderCall) :
    ∀ (seen : List Nat) (p : Nat), p ∈ firstSeen seen cs → p ∈ seen ∨ ∃ i : Nat, cs[i]? = some (LoaderCall.encodePixel p) := by
  induction cs with
  | nil => exact fun seen p h => Or.inl h
  | cons c cs ih =>
    intro seen p h
    cases c with
    | encodePixel q =>
      rcases ih _ p h with h1 | ⟨i, hi⟩
      · unfold seeOne at h1
        split at h1
        · exact Or.inl h1
        · rcases List.mem_append.1 h1 with h1 | h1
          · exact Or.inl h1
          · rw [List.mem_singleton.1 h1]
            exact Or.inr ⟨0, by simp⟩
      · exact Or.inr ⟨i + 1, by simpa using hi⟩
    | decodeTile t =>
      rcases ih _ p h with h1 | ⟨i, hi⟩
      · exact Or.inl h1
      · exact Or.inr ⟨i + 1, by simpa using hi⟩

theorem firstSeen_append (cs ds : List LoaderCall) :
    ∀ seen, firstSeen seen (cs ++ ds) = firstSeen (firstSeen seen cs) ds := by
  induction cs with
  | nil => exact fun _ => rfl
  | cons c cs ih =>
    intro seen
    cases c with
    | encodePixel p => exact ih _
    | decodeTile t => exact ih _

theorem seeOne_nodup {seen : List Nat} (h : seen.Nodup) (p : Nat) : (seeOne seen p).Nodup := by
  unfold seeOne
  split
  · exact h
  · rename_i hp
    refine List.Nodup.append h (List.nodup_singleton p) ?_
    intro q hq hq2
    rw [List.mem_singleton.1 hq2] at hq
    exact hp hq

theorem firstSeen_nodup (cs : List LoaderCall) :
    ∀ seen : List Nat, seen.Nodup → (firstSeen seen cs).Nodup := by
  induction cs with
  | nil => exact fun _ h => h
  | cons c cs ih =>
    intro seen h
    cases c with
    | encodePixel p => exact ih _ (seeOne_nodup h p)
    | decodeTile t => exact ih _ h

/-! ### The image loader where `addEncoding` and `addDecoding` return -/

/-- Encode/decode round trip in a build where `addEncoding` and `addDecoding` return: after
every sequence of `encodePixel` and `decodeTile` calls on a fresh loader, and for every
pixel `p`, zero included, `decodeTile(encodePixel(p))` returns `p`, as long as the
distinct pixels seen, `p` included, are fewer than 2^32 (the identifier counter has not
wrapped). -/
theorem ImageLoader.round_trip_where_calls_return (cs : List LoaderCall) (p : Nat)
    (h : (firstSeen [] (cs ++ [LoaderCall.encodePixel p])).length < 2 ^ 32) :
    ∃ rs l, ImageLoader.create.run true cs = .ok (rs, l) ∧
      ((l.encodePixel true p).bind fun q => Outcome.ok (q.2.decodeTile q.1).1) = .ok p := by
  rw [firstSeen_append] at h
  have h1 : (seeOne (firstSeen [] cs) p).length < 2 ^ 32 := h
  have h0 : (firstSeen [] cs).length < 2 ^ 32 :=
    Nat.lt_of_le_of_lt (seeOne_length_le _ p) h1
  obtain ⟨rs, hrs, _⟩ := ImageLoader.run_ofSeen cs [] h0
  refine ⟨rs, _, ImageLoader.create_eq_ofSeen ▸ hrs, ?_⟩
  rw [ImageLoader.encodePixel_ofSeen _ p h1]
  have hm : p ∈ seeOne (firstSeen [] cs) p := seeOne_mem _ p
  have hlt : (seeOne (firstSeen [] cs) p).indexOf p < (seeOne (firstSeen [] cs) p).length :=
    List.indexOf_lt_length.2 hm
  simp only [Outcome.ok_bind, ImageLoader.decodeTile, ImageLoader.ofSeen, Nat.add_sub_cancel,
    List.getD_eq_getElem?_getD]
  rw [if_pos ⟨by omega, by omega⟩, List.getElem?_eq_getElem hlt, Option.getD_some]
  exact congrArg Outcome.ok (List.getElem_indexOf hlt)

/-- Stable, dense, non-zero identifiers in a build where `addEncoding` and `addDecoding`
return. For every sequence of `encodePixel` calls on a fresh loader, with `decodeTile`
calls (on known or unknown ids) interleaved at will, and as long as the distinct pixels
are fewer than 2^32: the calls return; the list `firstSeen` of the pixels is without
repetition and holds exactly the pixels encoded; the call for a pixel returns the
position of the pixel in it, counted from 1; hence every returned id is non-zero and two
calls return the same id if and only if they were given the same pixel; `usedTiles` is
the number n of distinct pixels; and the ids handed out are exactly 1, ..., n. -/
theorem ImageLoader.ids_stable_dense_where_calls_return (cs : List LoaderCall)
    (h : (firstSeen [] cs).length < 2 ^ 32) :
    ∃ rs l, ImageLoader.create.run true cs = .ok (rs, l) ∧
    ((firstSeen [] cs).Nodup ∧
      ∀ p : Nat, p ∈ firstSeen [] cs ↔ ∃ i : Nat, cs[i]? = some (LoaderCall.encodePixel p)) ∧
    (∀ (i p : Nat), cs[i]? = some (LoaderCall.encodePixel p) →
      rs[i]? = some ((firstSeen [] cs).indexOf p + 1)) ∧
    (∀ (i j p q a b : Nat), cs[i]? = some (LoaderCall.encodePixel p) →
      cs[j]? = some (LoaderCall.encodePixel q) →
      rs[i]? = some a → rs[j]? = some b → a ≠ 0 ∧ b ≠ 0 ∧ (a = b ↔ p = q)) ∧
    l.usedTiles = (firstSeen [] cs).length ∧
    (∀ k : Nat, (1 ≤ k ∧ k ≤ (firstSeen [] cs).length) ↔
      ∃ (i p : Nat), cs[i]? = some (LoaderCall.encodePixel p) ∧ rs[i]? = some k) := by
  have hnd := firstSeen_nodup cs [] List.nodup_nil
  obtain ⟨rs, hrs, hret⟩ := ImageLoader.run_ofSeen cs [] h
  refine ⟨rs, _, ImageLoader.create_eq_ofSeen ▸ hrs, ⟨hnd, ?_⟩, hret, ?_, rfl, ?_⟩
  · intro p
    constructor
    · intro hp
      rcases call_of_mem_firstSeen cs [] p hp with h1 | h1
      · exact absurd h1 (List.not_mem_nil p)
      · exact h1
    · rintro ⟨i, hi⟩
      exact mem_firstSeen_of_call cs [] i p hi
  · intro i j p q a b hi hj ha hb
    rw [hret i p hi] at ha
    rw [hret j q hj] at hb
    injection ha with ha
    injection hb with hb
    subst ha hb
    refine ⟨Nat.succ_ne_zero _, Nat.succ_ne_zero _, ?_⟩
    rw [Nat.add_right_cancel_iff]
    exact List.indexOf_inj (mem_firstSeen_of_call cs [] i p hi)
      (mem_firstSeen_of_call cs [] j q hj)
  · intro k
    constructor
    · rintro ⟨h1, h2⟩
      have hk : k - 1 < (firstSeen [] cs).length := by omega
      rcases call_of_mem_firstSeen cs [] _ (List.getElem_mem hk) with h3 | ⟨i, hi⟩
      · exact absurd h3 (List.not_mem_nil _)
      · refine ⟨i, _, hi, ?_⟩
        rw [hret i _ hi, List.indexOf_getElem hnd (k - 1) hk]
        congr 1
        omega
    · rintro ⟨i, p, hi, hk⟩
      rw [hret i p hi] at hk
      injection hk with hk
      have := List.indexOf_lt_length.2 (mem_firstSeen_of_call cs [] i p hi)
      omega

/-! ### Claims about the image loader -/

/-- C13 (fails on the code): `encodePixel` of a pixel that is not yet in the table calls
`addEncoding`, a `bool` function without a `return` statement. On a fresh loader, in a
build where flowing off its end does not get back to the caller, `encodePixel(7)` and
`encodePixel(0)` do not return, so `decodeTile(encodePixel(p))` yields no pixel at all;
only where `addEncoding` and `addDecoding` do return is the result 7, respectively 0. -/
theorem round_trip_of_new_pixel_does_not_return :
    ((ImageLoader.create.encodePixel false 7).bind fun q =>
        Outcome.ok (q.2.decodeTile q.1).1) = .missingReturn ∧
      ((ImageLoader.create.encodePixel false 0).bind fun q =>
        Outcome.ok (q.2.decodeTile q.1).1) = .missingReturn ∧
      ((ImageLoader.create.encodePixel true 7).bind fun q =>
        Outcome.ok (q.2.decodeTile q.1).1) = .ok 7 ∧
      ((ImageLoader.create.encodePixel true 0).bind fun q =>
        Outcome.ok (q.2.decodeTile q.1).1) = .ok 0 := by
  decide

/-- C14 (fails on the code): no `encodePixel` call on a fresh loader hands out an
identifier in a build where flowing off the end of `addEncoding` does not get back to the
caller: the call sequence `encodePixel(7)`, `decodeTile(5)`, `encodePixel(9)`,
`encodePixel(7)` stops in the first call. Only where `addEncoding` and `addDecoding` do
return are the values returned 1, 0, 2, 1 and `usedTiles` 2. -/
theorem encodePixel_sequence_does_not_return :
    ((ImageLoader.create.run false
        [.encodePixel 7, .decodeTile 5, .encodePixel 9, .encodePixel 7]).bind fun r =>
          Outcome.ok (r.1, r.2.usedTiles)) = .missingReturn ∧
      ((ImageLoader.create.run true
        [.encodePixel 7, .decodeTile 5, .encodePixel 9, .encodePixel 7]).bind fun r =>
          Outcome.ok (r.1, r.2.usedTiles)) = .ok ([1, 0, 2, 1], 2) := by
  decide

/-- C15 (fails on the code): `decodeTile` takes its unknown-tile branch when the pixel it
read is 0. On a fresh loader, where `addEncoding` and `addDecoding` return (otherwise no
identifier is ever registered), `encodePixel(0x00000000)` registers the id 1, and
`decodeTile(1)` returns the pixel 0 and writes the diagnostic, exactly as `decodeTile(2)`
does for the id 2 that was never registered. -/
theorem decodeTile_signals_for_registered_zero_pixel :
    ((ImageLoader.create.encodePixel true 0).bind fun q =>
        Outcome.ok (q.1, q.2.decodeTile 1, q.2.decodeTile 2)) =
      .ok (1, (0, true), (0, true)) := by
  decide

/-! ### Pixels of `addImageData` -/

/-- The four bytes of a pixel are its little-endian bytes. -/
theorem pixel_eq_leValue {r g b a : Nat} (hr : r < 256) (hg : g < 256) (hb : b < 256) :
    pixel r g b a = leValue [r, g, b, a] := by
  have h1 : 2 ^ 8 * (g + 2 ^ 8 * (b + 2 ^ 8 * a)) + r =
      2 ^ 8 * (g + 2 ^ 8 * (b + 2 ^ 8 * a)) ||| r :=
    Nat.mul_add_lt_is_or (by omega) _
  have h2 : 2 ^ 16 * (b + 2 ^ 8 * a) + 2 ^ 8 * g = 2 ^ 16 * (b + 2 ^ 8 * a) ||| 2 ^ 8 * g :=
    Nat.mul_add_lt_is_or (by omega) _
  have h3 : 2 ^ 24 * a + 2 ^ 16 * b = 2 ^ 24 * a ||| 2 ^ 16 * b :=
    Nat.mul_add_lt_is_or (by omega) _
  have e2 : 2 ^ 8 * (g + 2 ^ 8 * (b + 2 ^ 8 * a)) = 2 ^ 16 * (b + 2 ^ 8 * a) + 2 ^ 8 * g := by
    omega
  have e3 : 2 ^ 16 * (b + 2 ^ 8 * a) = 2 ^ 24 * a + 2 ^ 16 * b := by omega
  have e0 : leValue [r, g, b, a] = 2 ^ 8 * (g + 2 ^ 8 * (b + 2 ^ 8 * a)) + r := by
    simp only [leValue]
    omega
  rw [e0, h1, e2, h2, e3, h3]
  simp only [pixel, Nat.shiftLeft_eq]
  have c1 : a * 2 ^ 0x18 = 2 ^ 24 * a := by omega
  have c2 : b * 2 ^ 0x10 = 2 ^ 16 * b := by omega
  have c3 : g * 2 ^ 0x8 = 2 ^ 8 * g := by omega
  rw [c1, c2, c3]

theorem byte_or_full (j : Nat) (hj : j < 256) : j <<< 0x18 ||| 0xFF <<< 0x18 = 0xFF <<< 0x18 := by
  apply Nat.eq_of_testBit_eq
  intro i
  simp only [Nat.testBit_or, Nat.testBit_shiftLeft]
  have h255 : (0xFF : Nat).testBit (i - 0x18) = decide (i - 0x18 < 8) :=
    Nat.testBit_two_pow_sub_one 8 (i - 0x18)
  rw [h255]
  by_cases hi : i - 0x18 < 8
  · simp only [hi, decide_True, Bool.and_true]
    cases decide (i ≥ 0x18) <;> simp
  · have h8 : (2 : Nat) ^ 8 ≤ 2 ^ (i - 0x18) :=
      Nat.pow_le_pow_right (by decide) (Nat.le_of_not_lt hi)
    have hlt : j < 2 ^ (i - 0x18) := Nat.lt_of_lt_of_le hj h8
    simp [hi, Nat.testBit_lt_two_pow hlt]

/-- Setting the alpha byte of a pixel to 0xFF by `|=`. -/
theorem pixel_or_setAlpha (r g b j : Nat) (hj : j < 256) :
    pixel r g b j ||| pixel 0 0 0 0xFF = pixel r g b 0xFF := by
  have hf : pixel 0 0 0 0xFF = 0xFF <<< 0x18 := by decide
  have hjf := byte_or_full j hj
  rw [hf]
  simp only [pixel]
  apply Nat.eq_of_testBit_eq
  intro i
  have hbit := congrArg (fun n => n.testBit i) hjf
  simp only [Nat.testBit_or] at hbit ⊢
  revert hbit
  cases (j <<< 0x18).testBit i <;> cases (0xFF <<< 0x18).testBit i <;>
    cases (b <<< 0x10).testBit i <;> cases (g <<< 0x8).testBit i <;>
    cases r.testBit i <;> simp

/-- The pixel value computed by lines 181-183. With `channels = 3` and the bytes r, g, b
at offset `(x + y*width)*3` of the buffer it is `pixel(r, g, b, 0xFF)`, whatever the
prior contents of the local variable; with `channels = 4` and the bytes r, g, b, a at
offset `(x + y*width)*4` it is `pixel(r, g, b, a)`. The bytes are stored in
little-endian order. -/
theorem imagePixel_value (junk : Nat) (image : List Nat) (width x y r g b a : Nat)
    (hjunk : junk < 2 ^ 32) (hbytes : ∀ v ∈ image, v < 256) :
    ((x + y * width) * 3 < 2 ^ 32 →
      (image.drop ((x + y * width) * 3)).take 3 = [r, g, b] →
      RuleSetBuilder.imagePixel junk image width 3 x y = .ok (pixel r g b 0xFF)) ∧
    ((x + y * width) * 4 < 2 ^ 32 →
      (image.drop ((x + y * width) * 4)).take 4 = [r, g, b, a] →
      RuleSetBuilder.imagePixel junk image width 4 x y = .ok (pixel r g b a)) := by
  have hmem : ∀ (off n : Nat) (v : Nat), v ∈ (image.drop off).take n → v < 256 :=
    fun off n v hv => hbytes v (List.mem_of_mem_drop (List.mem_of_mem_take hv))
  constructor
  · intro hoff hb
    have hlen : (x + y * width) * 3 + 3 ≤ image.length := by
      have := congrArg List.length hb
      simp only [List.length_take, List.length_drop, List.length_cons, List.length_nil] at this
      omega
    have hr : r < 256 := hmem _ 3 r (by rw [hb]; simp)
    have hg : g < 256 := hmem _ 3 g (by rw [hb]; simp)
    have hbb : b < 256 := hmem _ 3 b (by rw [hb]; simp)
    have hj : junk / 2 ^ 24 < 256 := by omega
    have hst : storeBytes junk [r, g, b] = pixel r g b (junk / 2 ^ 24) := by
      rw [pixel_eq_leValue hr hg hbb]
      simp only [storeBytes, leValue, List.length_cons, List.length_nil]
      omega
    simp only [RuleSetBuilder.imagePixel, Nat.mod_eq_of_lt hoff, hb, if_true]
    rw [if_pos ⟨by omega, hlen⟩, hst, pixel_or_setAlpha r g b _ hj]
  · intro hoff hb
    have hlen : (x + y * width) * 4 + 4 ≤ image.length := by
      have := congrArg List.length hb
      simp only [List.length_take, List.length_drop, List.length_cons, List.length_nil] at this
      omega
    have hr : r < 256 := hmem _ 4 r (by rw [hb]; simp)
    have hg : g < 256 := hmem _ 4 g (by rw [hb]; simp)
    have hbb : b < 256 := hmem _ 4 b (by rw [hb]; simp)
    have hst : storeBytes junk [r, g, b, a] = pixel r g b a := by
      rw [pixel_eq_leValue hr hg hbb]
      simp only [storeBytes, List.length_cons, List.length_nil]
      have : junk / 2 ^ (8 * (0 + 1 + 1 + 1 + 1)) = 0 := Nat.div_eq_of_lt (by omega)
      rw [this]
      omega
    simp only [RuleSetBuilder.imagePixel, Nat.mod_eq_of_lt hoff, hb]
    rw [if_pos ⟨by omega, hlen⟩, hst]
    simp

theorem drop_take_three (l : List Nat) (off : Nat) (h : off + 3 ≤ l.length) :
    (l.drop off).take 3 = [l.getD off 0, l.getD (off + 1) 0, l.getD (off + 2) 0] := by
  apply List.ext_getElem?
  intro i
  have h0 : off < l.length := by omega
  have h1 : off + 1 < l.length := by omega
  have h2 : off + 2 < l.length := by omega
  rcases i with _ | _ | _ | i
  · simp [List.getElem?_take, List.getD_eq_getElem?_getD, List.getElem?_eq_getElem h0]
  · simp [List.getElem?_take, List.getD_eq_getElem?_getD, List.getElem?_eq_getElem h1]
  · simp [List.getElem?_take, List.getD_eq_getElem?_getD, List.getElem?_eq_getElem h2]
  · simp [List.getElem?_take]

theorem drop_take_four (l : List Nat) (off : Nat) (h : off + 4 ≤ l.length) :
    (l.drop off).take 4 =
      [l.getD off 0, l.getD (off + 1) 0, l.getD (off + 2) 0, l.getD (off + 3) 0] := by
  apply List.ext_getElem?
  intro i
  have h0 : off < l.length := by omega
  have h1 : off + 1 < l.length := by omega
  have h2 : off + 2 < l.length := by omega
  have h3 : off + 3 < l.length := by omega
  rcases i with _ | _ | _ | _ | i
  · simp [List.getElem?_take, List.getD_eq_getElem?_getD, List.getElem?_eq_getElem h0]
  · simp [List.getElem?_take, List.getD_eq_getElem?_getD, List.getElem?_eq_getElem h1]
  · simp [List.getElem?_take, List.getD_eq_getElem?_getD, List.getElem?_eq_getElem h2]
  · simp [List.getElem?_take, List.getD_eq_getElem?_getD, List.getElem?_eq_getElem h3]
  · simp [List.getElem?_take]

/-- C16: the pixel value that `addImageData` hands to `encodePixel`. For an image buffer of
`width*height*3` bytes and `channels = 3`, the loop body for the cell (x, y) calls
`encodePixel` with exactly `pixel(r, g, b, 0xFF)`, where r, g, b are the three bytes at
offset `(x + y*width)*3`, whatever the prior contents of the local variable `pixel`; and
the whole call is the run that fills the grid cell by cell, rows first, with the
identifiers `encodePixel` returns for these values and then compiles it. With
`channels = 4` and `width*height*4` bytes the value is `pixel(r, g, b, a)` for the four
bytes at offset `(x + y*width)*4`. This holds whether or not `encodePixel` returns. -/
theorem addImageData_hands_pixel_values (b : RuleSetBuilder) (returns : Bool)
    (junk : Nat → Nat → Nat) (image : List Nat) (width height : Nat) (loader : ImageLoader)
    (hjunk : ∀ x y, junk x y < 2 ^ 32) (hbytes : ∀ v ∈ image, v < 256) :
    (width * height * 3 ≤ image.length → width * height * 3 < 2 ^ 32 →
      (∀ x y, x < width → y < height → ∀ s : WaveGrid × ImageLoader,
        RuleSetBuilder.imageCell returns junk image width 3 x y s =
          (s.2.encodePixel returns (rgbPixelAt image width x y)).bind fun q =>
            (s.1.setTile x y q.1).bind fun g => .ok (g, q.2)) ∧
      b.addImageData returns junk image width height 3 loader =
        b.addPixelData returns (rgbPixelAt image width) width height loader) ∧
    (width * height * 4 ≤ image.length → width * height * 4 < 2 ^ 32 →
      (∀ x y, x < width → y < height → ∀ s : WaveGrid × ImageLoader,
        RuleSetBuilder.imageCell returns junk image width 4 x y s =
          (s.2.encodePixel returns (rgbaPixelAt image width x y)).bind fun q =>
            (s.1.setTile x y q.1).bind fun g => .ok (g, q.2)) ∧
      b.addImageData returns junk image width height 4 loader =
        b.addPixelData returns (rgbaPixelAt image width) width height loader) := by
  constructor
  · intro hlen hsmall
    have hcell : ∀ x y, x < width → y < height → ∀ s : WaveGrid × ImageLoader,
        RuleSetBuilder.imageCell returns junk image width 3 x y s =
          (s.2.encodePixel returns (rgbPixelAt image width x y)).bind fun q =>
            (s.1.setTile x y q.1).bind fun g => .ok (g, q.2) := by
      intro x y hx hy s
      have hi := WaveGrid.index_lt hx hy
      have hoff : (x + y * width) * 3 + 3 ≤ image.length := by omega
      have hv := (imagePixel_value (junk x y) image width x y _ _ _ 0 (hjunk x y) hbytes).1
        (by omega) (drop_take_three image _ hoff)
      simp only [RuleSetBuilder.imageCell, hv, Outcome.ok_bind, rgbPixelAt]
    refine ⟨hcell, ?_⟩
    simp only [RuleSetBuilder.addImageData, RuleSetBuilder.addPixelData]
    congr 1
    funext grid
    rw [forLoop_congr height (fun y hy s =>
      forLoop_congr width (fun x hx s => hcell x y hx hy s) s)]
  · intro hlen hsmall
    have hcell : ∀ x y, x < width → y < height → ∀ s : WaveGrid × ImageLoader,
        RuleSetBuilder.imageCell returns junk image width 4 x y s =
          (s.2.encodePixel returns (rgbaPixelAt image width x y)).bind fun q =>
            (s.1.setTile x y q.1).bind fun g => .ok (g, q.2) := by
      intro x y hx hy s
      have hi := WaveGrid.index_lt hx hy
      have hoff : (x + y * width) * 4 + 4 ≤ image.length := by omega
      have hv := (imagePixel_value (junk x y) image width x y _ _ _ _ (hjunk x y) hbytes).2
        (by omega) (drop_take_four image _ hoff)
      simp only [RuleSetBuilder.imageCell, hv, Outcome.ok_bind, rgbaPixelAt]
    refine ⟨hcell, ?_⟩
    simp only [RuleSetBuilder.addImageData, RuleSetBuilder.addPixelData]
    congr 1
    funext grid
    rw [forLoop_congr height (fun y hy s =>
      forLoop_congr width (fun x hx s => hcell x y hx hy s) s)]

/-- Witness for C16: a 2 x 2 image of three channels with the local variable holding
0xDEADBEEF before every copy, and a 2 x 2 image of four channels; on the first, where
`encodePixel` returns, the call returns `true` and the two identifiers handed out decode
to 0xFF030201 and 0xFF060504. -/
theorem addImageData_hands_pixel_values_witness :
    RuleSetBuilder.create.addImageData true (fun _ _ => 0xDEADBEEF)
        [1, 2, 3, 4, 5, 6, 4, 5, 6, 1, 2, 3] 2 2 3 ImageLoader.create =
      RuleSetBuilder.create.addPixelData true
        (rgbPixelAt [1, 2, 3, 4, 5, 6, 4, 5, 6, 1, 2, 3] 2) 2 2 ImageLoader.create ∧
    RuleSetBuilder.create.addImageData true (fun _ _ => 0xDEADBEEF)
        [1, 2, 3, 255, 4, 5, 6, 7, 4, 5, 6, 7, 1, 2, 3, 255] 2 2 4 ImageLoader.create =
      RuleSetBuilder.create.addPixelData true
        (rgbaPixelAt [1, 2, 3, 255, 4, 5, 6, 7, 4, 5, 6, 7, 1, 2, 3, 255] 2) 2 2
        ImageLoader.create ∧
    ((RuleSetBuilder.create.addImageData true (fun _ _ => 0xDEADBEEF)
        [1, 2, 3, 4, 5, 6, 4, 5, 6, 1, 2, 3] 2 2 3 ImageLoader.create).bind fun r =>
          Outcome.ok (r.1, r.2.2.usedTiles, (r.2.2.decodeTile 1).1, (r.2.2.decodeTile 2).1)) =
      .ok (true, 2, 0xFF030201, 0xFF060504) :=
  ⟨((addImageData_hands_pixel_values RuleSetBuilder.create true (fun _ _ => 0xDEADBEEF)
      [1, 2, 3, 4, 5, 6, 4, 5, 6, 1, 2, 3] 2 2 ImageLoader.create (fun _ _ => (by decide : 0xDEADBEEF < 2 ^ 32))
      (by decide)).1 (by decide) (by decide)).2,
   ((addImageData_hands_pixel_values RuleSetBuilder.create true (fun _ _ => 0xDEADBEEF)
      [1, 2, 3, 255, 4, 5, 6, 7, 4, 5, 6, 7, 1, 2, 3, 255] 2 2 ImageLoader.create
      (fun _ _ => (by decide : 0xDEADBEEF < 2 ^ 32)) (by decide)).2 (by decide) (by decide)).2,
   by decide⟩

/-! ### Adjacency in square grids -/

/-- What the scan records is an adjacency of the grid. -/
theorem WaveGrid.Adjacent_of_ScanMarks {g : WaveGrid} {e : WaveDirection} {s i : Nat}
    (h : g.ScanMarks e s i) : g.Adjacent e s i := by
  obtain ⟨y, _, x, _, t, ht, hm⟩ := h
  rcases hm with ⟨hc, rfl, hs, n, hn, hi⟩ | ⟨hc, rfl, hs, n, hn, hi⟩ |
    ⟨hc, rfl, hs, n, hn, hi⟩ | ⟨hc, rfl, hs, n, hn, hi⟩
  · exact ⟨x, y, x, y - 1, t, n, ht, by simp [WaveDirection.neighbour, hc], hn, hs, hi⟩
  · exact ⟨x, y, x - 1, y, t, n, ht, by simp [WaveDirection.neighbour, hc], hn, hs, hi⟩
  · exact ⟨x, y, x, y + 1, t, n, ht, rfl, hn, hs, hi⟩
  · exact ⟨x, y, x + 1, y, t, n, ht, rfl, hn, hs, hi⟩

/-- In a square grid the scan records every adjacency of the grid. -/
theorem WaveGrid.ScanMarks_of_Adjacent {g : WaveGrid} (hsq : g.width_ = g.height_)
    {e : WaveDirection} {s i : Nat} (h : g.Adjacent e s i) : g.ScanMarks e s i := by
  obtain ⟨x, y, nx, ny, t, n, ht, hnb, hn, hs, hi⟩ := h
  obtain ⟨hx, hy⟩ := (WaveGrid.getTile_eq_ok.1 ht).1
  obtain ⟨hnx, hny⟩ := (WaveGrid.getTile_eq_ok.1 hn).1
  refine ⟨y, hsq ▸ hy, x, hsq ▸ hx, t, ht, ?_⟩
  cases e with
  | UP =>
    by_cases hy0 : y = 0
    · simp [WaveDirection.neighbour, hy0] at hnb
    · simp only [WaveDirection.neighbour, hy0, if_false, Option.some.injEq,
        Prod.mk.injEq] at hnb
      obtain ⟨rfl, rfl⟩ := hnb
      exact Or.inl ⟨hy0, rfl, hs, n, hn, hi⟩
  | DOWN =>
    simp only [WaveDirection.neighbour, Option.some.injEq, Prod.mk.injEq] at hnb
    obtain ⟨rfl, rfl⟩ := hnb
    exact Or.inr (Or.inr (Or.inl ⟨by omega, rfl, hs, n, hn, hi⟩))
  | LEFT =>
    by_cases hx0 : x = 0
    · simp [WaveDirection.neighbour, hx0] at hnb
    · simp only [WaveDirection.neighbour, hx0, if_false, Option.some.injEq,
        Prod.mk.injEq] at hnb
      obtain ⟨rfl, rfl⟩ := hnb
      exact Or.inr (Or.inl ⟨hx0, rfl, hs, n, hn, hi⟩)
  | RIGHT =>
    simp only [WaveDirection.neighbour, Option.some.injEq, Prod.mk.injEq] at hnb
    obtain ⟨rfl, rfl⟩ := hnb
    exact Or.inr (Or.inr (Or.inr ⟨by omega, rfl, hs, n, hn, hi⟩))

/-- An adjacency seen from the neighbour is the adjacency in the opposite direction. -/
theorem WaveGrid.Adjacent_opposite {g : WaveGrid} {e : WaveDirection} {s i : Nat}
    (h : g.Adjacent e s i) : g.Adjacent e.opposite i s := by
  obtain ⟨x, y, nx, ny, t, n, ht, hnb, hn, hs, hi⟩ := h
  refine ⟨nx, ny, x, y, n, t, hn, ?_, ht, hi, hs⟩
  cases e with
  | UP =>
    by_cases hy0 : y = 0
    · simp [WaveDirection.neighbour, hy0] at hnb
    · simp only [WaveDirection.neighbour, hy0, if_false, Option.some.injEq,
        Prod.mk.injEq] at hnb
      obtain ⟨rfl, rfl⟩ := hnb
      simp only [WaveDirection.opposite, WaveDirection.neighbour, Option.some.injEq,
        Prod.mk.injEq, true_and]
      omega
  | DOWN =>
    simp only [WaveDirection.neighbour, Option.some.injEq, Prod.mk.injEq] at hnb
    obtain ⟨rfl, rfl⟩ := hnb
    simp [WaveDirection.opposite, WaveDirection.neighbour]
  | LEFT =>
    by_cases hx0 : x = 0
    · simp [WaveDirection.neighbour, hx0] at hnb
    · simp only [WaveDirection.neighbour, hx0, if_false, Option.some.injEq,
        Prod.mk.injEq] at hnb
      obtain ⟨rfl, rfl⟩ := hnb
      simp only [WaveDirection.opposite, WaveDirection.neighbour, Option.some.injEq,
        Prod.mk.injEq, and_true]
      omega
  | RIGHT =>
    simp only [WaveDirection.neighbour, Option.some.injEq, Prod.mk.injEq] at hnb
    obtain ⟨rfl, rfl⟩ := hnb
    simp [WaveDirection.opposite, WaveDirection.neighbour]

/-! ### Claims about square samples -/

/-- C17: for every non-empty well-formed square grid whose tile ids are all at least 1,
`addInput` on a fresh builder returns `true` and leaves bit `c` set in the bit-set of
(`a`, `d`) if and only if some cell of state `a` has an in-bounds neighbour of state `c`
in direction `d` (UP is (x, y-1), DOWN is (x, y+1), LEFT is (x-1, y), RIGHT is
(x+1, y)); the occurrence count of every state is the number of cells of that state, and
`processedTiles` is `width*height`. -/
theorem addInput_square_records_adjacency (g : WaveGrid) (hv : g.Valid)
    (hsq : g.width_ = g.height_) (_hw : 0 < g.width_) (hpos : ∀ t ∈ g.data_, 1 ≤ t) :
    ∃ b, RuleSetBuilder.create.addInput g = .ok (true, b) ∧
      (∀ d a c, b.rules_.bitAt d a c = true ↔ g.Adjacent d a c) ∧
      (∀ s, b.counts_ s = g.occurrences s) ∧
      b.processedTiles_ = g.width_ * g.height_ := by
  obtain ⟨b, hb⟩ := @RuleSetBuilder.addInput_ok 0 RuleSetBuilder.create RuleSet.create_shaped g
    (WaveGrid.ScanOK_of_square hv hsq hpos (Nat.le_max_right _ _))
  have ing : RuleSetBuilder.Ingested 0 RuleSetBuilder.create g b :=
    (RuleSetBuilder.addInput_spec RuleSet.create_shaped g _ hb).2
  refine ⟨b, hb, ?_, ?_, ?_⟩
  · intro d a c
    rw [ing.bits]
    constructor
    · rintro (h | h)
      · simp [RuleSet.bitAt, RuleSetBuilder.create, RuleSet.create] at h
        revert h
        cases d <;> simp [WaveDirection.toNat]
      · exact WaveGrid.Adjacent_of_ScanMarks h
    · exact fun h => Or.inr (WaveGrid.ScanMarks_of_Adjacent hsq h)
  · intro s
    rw [ing.counts, WaveGrid.scanCount_of_square hsq]
    simp [RuleSetBuilder.create]
  · rw [ing.processed]
    simp [RuleSetBuilder.create]

/-- Witness for C17: the 2 x 2 sample with rows [1, 2] and [3, 4]. -/
theorem addInput_square_records_adjacency_witness :
    ∃ b, RuleSetBuilder.create.addInput ⟨2, 2, [1, 2, 3, 4], 5⟩ = .ok (true, b) ∧
      (∀ d a c, b.rules_.bitAt d a c = true ↔
        WaveGrid.Adjacent ⟨2, 2, [1, 2, 3, 4], 5⟩ d a c) ∧
      b.processedTiles_ = 2 * 2 :=
  have h := addInput_square_records_adjacency ⟨2, 2, [1, 2, 3, 4], 5⟩ (by decide) rfl
    (by decide) (by decide)
  h.elim fun b hb => ⟨b, hb.1, hb.2.1, hb.2.2.2⟩

/-- C18: opposite directions are mirror images. After any sequence of `addInput` calls on
a fresh builder with non-empty well-formed square grids whose tile ids are all at least
1 (the calls all return), bit `c` is set in the UP bit-set of `a` if and only if bit `a`
is set in the DOWN bit-set of `c`, and bit `c` is set in the LEFT bit-set of `a` if and
only if bit `a` is set in the RIGHT bit-set of `c`. -/
theorem addInputs_opposite_directions_mirror (gs : List WaveGrid)
    (hgs : ∀ g ∈ gs, g.Valid ∧ g.width_ = g.height_ ∧ ∀ t ∈ g.data_, 1 ≤ t)
    (_hne : ∀ g ∈ gs, 0 < g.width_) :
    ∃ b, RuleSetBuilder.create.addInputs gs = .ok b ∧
      ∀ a c, (b.rules_.bitAt .UP a c = true ↔ b.rules_.bitAt .DOWN c a = true) ∧
        (b.rules_.bitAt .LEFT a c = true ↔ b.rules_.bitAt .RIGHT c a = true) := by
  obtain ⟨b, hb⟩ := @RuleSetBuilder.addInputs_ok gs hgs 0 RuleSetBuilder.create
    RuleSet.create_shaped
  obtain ⟨_, _, _, _, _, hbits⟩ := RuleSetBuilder.addInputs_spec gs RuleSet.create_shaped
    RuleSetBuilder.create_weightsCurrent b hb
  have fresh : ∀ (d : WaveDirection) (a c : Nat),
      RuleSetBuilder.create.rules_.bitAt d a c = false := by
    intro d a c
    cases d <;> simp [RuleSet.bitAt, RuleSetBuilder.create, RuleSet.create, WaveDirection.toNat]
  have key : ∀ (d : WaveDirection) (a c : Nat),
      b.rules_.bitAt d a c = true → b.rules_.bitAt d.opposite c a = true := by
    intro d a c h
    rw [hbits] at h ⊢
    rcases h with h | ⟨g, hg, hm⟩
    · rw [fresh] at h
      exact absurd h (by decide)
    · exact Or.inr ⟨g, hg, WaveGrid.ScanMarks_of_Adjacent (hgs g hg).2.1
        (WaveGrid.Adjacent_opposite (WaveGrid.Adjacent_of_ScanMarks hm))⟩
  exact ⟨b, hb, fun a c => ⟨⟨key .UP a c, key .DOWN c a⟩, ⟨key .LEFT a c, key .RIGHT c a⟩⟩⟩

/-- Witness for C18: a 2 x 2 sample followed by a 1 x 1 sample. -/
theorem addInputs_opposite_directions_mirror_witness :
    ∃ b, RuleSetBuilder.create.addInputs [⟨2, 2, [1, 2, 3, 4], 5⟩, ⟨1, 1, [2], 3⟩] = .ok b ∧
      ∀ a c, (b.rules_.bitAt .UP a c = true ↔ b.rules_.bitAt .DOWN c a = true) ∧
        (b.rules_.bitAt .LEFT a c = true ↔ b.rules_.bitAt .RIGHT c a = true) :=
  addInputs_opposite_directions_mirror [⟨2, 2, [1, 2, 3, 4], 5⟩, ⟨1, 1, [2], 3⟩] (by decide)
    (by decide)

/-! ### Index safety -/

/-- A grid returned by the scanning constructor over a buffer of `width*height` tiles, each
below 2^32 - 1, has a state count above every tile; it is well formed when the tiles are
below 2^31 - 1. -/
theorem WaveGrid.wrap_bounds {w h : Nat} {data : List Nat} {g : WaveGrid}
    (hl : data.length = w * h) (hmax : ∀ t ∈ data, t < 2 ^ 32 - 1)
    (hg : WaveGrid.wrap w h data = .ok g) :
    (∀ t ∈ g.data_, t < g.numStates_) ∧ ((∀ t ∈ data, t < 2 ^ 31 - 1) → g.Valid) := by
  obtain ⟨gw, gh, gd, gall, gn⟩ := WaveGrid.wrap_spec hg
  have hlt : ∀ t ∈ g.data_, t < g.numStates_ := by
    intro t ht
    rw [gd] at ht
    obtain ⟨x, y, hx, hy, hxy⟩ := WaveGrid.cell_of_mem hl ht
    have h1 := gall x y t hx hy hxy
    have h2 := hmax t ht
    omega
  refine ⟨hlt, fun hsmall => ⟨by rw [gd, gw, gh, hl], ?_, fun t ht => Nat.le_of_lt (hlt t ht)⟩⟩
  rcases gn with gn | ⟨t, ht, gn⟩
  · rw [gn]
    decide
  · have := hsmall t ht
    omega

theorem WaveGrid.create_eq_ok {w h : Nat} {g : WaveGrid} :
    WaveGrid.create w h = .ok g ↔
      w * h % 2 ^ 32 ≠ 0 ∧
        g = { width_ := w, height_ := h
              data_ := List.replicate (w * h % 2 ^ 32) 0, numStates_ := 0 } := by
  unfold WaveGrid.create
  split <;> simp_all [eq_comm]

theorem WaveGrid.create_ok {w h : Nat} (h0 : 0 < w * h) (hwh : w * h < 2 ^ 32) :
    WaveGrid.create w h =
      .ok { width_ := w, height_ := h, data_ := List.replicate (w * h) 0, numStates_ := 0 } := by
  have hm : w * h % 2 ^ 32 = w * h := Nat.mod_eq_of_lt hwh
  unfold WaveGrid.create
  rw [hm, if_neg (Nat.pos_iff_ne_zero.1 h0)]

/-- A zero-filled grid of fewer than 2^32 cells after `setTile` calls that return, with
tiles below 2^31, is well formed. -/
theorem WaveGrid.setTiles_create_valid {w h : Nat} {ws : List (Nat × Nat × Nat)}
    {g : WaveGrid} (hwh : w * h < 2 ^ 32) (hsmall : ∀ wr ∈ ws, wr.2.2 < 2 ^ 31)
    (hg : (WaveGrid.create w h).bind (fun g0 => g0.setTiles ws) = .ok g) :
    g.Valid ∧ g.width_ = w ∧ g.height_ = h := by
  obtain ⟨g0, hc, hg⟩ := Outcome.bind_eq_ok.1 hg
  obtain ⟨_, rfl⟩ := WaveGrid.create_eq_ok.1 hc
  obtain ⟨a1, a2, a3, _, _, a6, a7⟩ := WaveGrid.setTiles_valid ws hg
  refine ⟨⟨?_, ?_, ?_⟩, a1, a2⟩
  · rw [a3, a1, a2]
    simp only [List.length_replicate]
    exact Nat.mod_eq_of_lt hwh
  · rcases a6 with a6 | ⟨wr, hwr, a6⟩
    · rw [a6]
      exact Nat.two_pow_pos 31
    · rw [a6]
      exact hsmall wr hwr
  · refine a7 ?_
    intro u hu
    rw [(List.mem_replicate.1 hu).2]

/-- C19 (fails on the code): the scanning constructor adds 1 to a tile in 32 bits. The
1 x 1 grid over the buffer [0xFFFFFFFF], a tile id at least 1, reports 0 states while
`addInput` uses the state index 0xFFFFFFFE; on the 2 x 2 grid of the same tile `addInput`
indexes outside the (empty) rule vectors. -/
theorem wrap_largest_tile_not_covered :
    (WaveGrid.wrap 1 1 [0xFFFFFFFF]).bind (fun g => Outcome.ok g.numStates) = .ok 0 ∧
      tileState 0xFFFFFFFF = 0xFFFFFFFE ∧
      ((WaveGrid.wrap 2 2 [0xFFFFFFFF, 0xFFFFFFFF, 0xFFFFFFFF, 0xFFFFFFFF]).bind fun g =>
        (RuleSetBuilder.create.addInput g).bind fun p => Outcome.ok p.1) =
        .undefinedAccess := by
  decide

/-- C19 as amended: index safety of compilation. For a non-empty square grid constructed
over a caller-supplied buffer whose tile ids are all at least 1 and at most 2^32 - 2, and
for a zero-filled square grid filled by `setTile` calls (as `addImageData` does) whose
tile ids are in the end all at least 1, every state index `tile - 1` is strictly below
`numStates()`; and when the tile ids are below 2^31 - 1, so that the state count fits the
`int` parameter of `expandRuleSet`, `addInput` on a fresh builder returns with every
access in range. A grid that holds the tile id 0 has the state index 2^32 - 1, which is
not below its 32-bit state count. -/
theorem addInput_indices_in_range :
    (∀ (w : Nat) (data : List Nat) (g : WaveGrid), 0 < w → data.length = w * w →
      (∀ t ∈ data, 1 ≤ t ∧ t < 2 ^ 32 - 1) → WaveGrid.wrap w w data = .ok g →
      (∀ t ∈ g.data_, tileState t < g.numStates) ∧
        ((∀ t ∈ data, t < 2 ^ 31 - 1) →
          ∃ b, RuleSetBuilder.create.addInput g = .ok (true, b))) ∧
    (∀ (w : Nat) (ws : List (Nat × Nat × Nat)) (g : WaveGrid), 0 < w → w * w < 2 ^ 32 →
      (∀ wr ∈ ws, wr.2.2 < 2 ^ 32) →
      (WaveGrid.create w w).bind (fun g0 => g0.setTiles ws) = .ok g →
      (∀ t ∈ g.data_, 1 ≤ t) →
      (∀ t ∈ g.data_, tileState t < g.numStates) ∧
        ((∀ wr ∈ ws, wr.2.2 < 2 ^ 31) →
          ∃ b, RuleSetBuilder.create.addInput g = .ok (true, b))) ∧
    (∀ g : WaveGrid, g.numStates < 2 ^ 32 → 0 ∈ g.data_ →
      ∃ t ∈ g.data_, ¬ tileState t < g.numStates) := by
  refine ⟨?_, ?_, ?_⟩
  · intro w data g _ hl htiles hg
    obtain ⟨gw, gh, gd, _, _⟩ := WaveGrid.wrap_spec hg
    obtain ⟨hlt, hvalid⟩ := WaveGrid.wrap_bounds hl (fun t ht => (htiles t ht).2) hg
    refine ⟨?_, ?_⟩
    · intro t ht
      have h1 := hlt t ht
      have h2 := (htiles t (gd ▸ ht)).1
      have h3 := (htiles t (gd ▸ ht)).2
      show tileState t < g.numStates_
      unfold tileState
      omega
    · intro hsmall
      exact @RuleSetBuilder.addInput_ok 0 RuleSetBuilder.create RuleSet.create_shaped g
        (WaveGrid.ScanOK_of_square (hvalid hsmall) (gw.trans gh.symm)
          (fun t ht => (htiles t (gd ▸ ht)).1) (Nat.le_max_right _ _))
  · intro w ws g _ hww hwr hg hpos
    obtain ⟨g0, hc, hg0⟩ := Outcome.bind_eq_ok.1 hg
    obtain ⟨_, rfl⟩ := WaveGrid.create_eq_ok.1 hc
    obtain ⟨_, _, _, _, _, a6, a7⟩ := WaveGrid.setTiles_valid ws hg0
    have hle : ∀ u ∈ g.data_, u ≤ g.numStates_ := by
      refine a7 ?_
      intro u hu
      rw [(List.mem_replicate.1 hu).2]
    have hn : g.numStates_ < 2 ^ 32 := by
      rcases a6 with a6 | ⟨wr, hwr2, a6⟩
      · rw [a6]
        exact Nat.two_pow_pos 32
      · rw [a6]
        exact hwr wr hwr2
    refine ⟨?_, ?_⟩
    · intro t ht
      have h1 := hle t ht
      have h2 := hpos t ht
      show tileState t < g.numStates_
      unfold tileState
      omega
    · intro hsmall
      obtain ⟨hv, gw, gh⟩ := WaveGrid.setTiles_create_valid hww hsmall hg
      exact @RuleSetBuilder.addInput_ok 0 RuleSetBuilder.create RuleSet.create_shaped g
        (WaveGrid.ScanOK_of_square hv (gw.trans gh.symm) hpos (Nat.le_max_right _ _))
  · intro g hn h0
    refine ⟨0, h0, ?_⟩
    rw [tileState_zero]
    omega

/-- Witness for C19 as amended: the buffer [1, 2, 2, 1] wrapped as a 2 x 2 grid, and the
zero-filled 2 x 2 grid filled with the ids 1, 2, 2, 1 by `setTile`. -/
theorem addInput_indices_in_range_witness :
    (∀ t ∈ [1, 2, 2, 1], tileState t < 3) ∧
      (∃ b, RuleSetBuilder.create.addInput ⟨2, 2, [1, 2, 2, 1], 3⟩ = .ok (true, b)) ∧
      (∃ b, RuleSetBuilder.create.addInput ⟨2, 2, [1, 2, 2, 1], 2⟩ = .ok (true, b)) :=
  have h1 := addInput_indices_in_range.1 2 [1, 2, 2, 1] ⟨2, 2, [1, 2, 2, 1], 3⟩ (by decide) rfl
    (by decide) (by decide)
  have h2 := addInput_indices_in_range.2.1 2 [(0, 0, 1), (1, 0, 2), (0, 1, 2), (1, 1, 1)]
    ⟨2, 2, [1, 2, 2, 1], 2⟩ (by decide) (by decide) (by decide) (by decide) (by decide)
  ⟨h1.1, h1.2 (by decide), h2.2 (by decide)⟩

end wfc.input
